import Mathlib

/-!
Verification of the category-tree reconciliation and directory-mirroring core
of the `cashctrl_api` client library (`cashctrl_api/client.py`).

Python strings are embedded as `List Char`; Python lists as `List`; Python
dicts as association lists with last-binding-wins lookup (matching insertion
with overwrite); the nested category tree returned by the remote
`<resource>/category/tree.json` endpoint as a nested inductive type.

The remote server is external to the repository.  Everywhere a remote call is
issued, its effect is modelled from the spec's description of the external
collaborators (creation attaches a node under `parentId`, deletion removes the
identified nodes, account root categories are immutable) and the issued call
is recorded in a trace, so that theorems can count and order the remote calls
an invocation performs.
-/

namespace CashCtrl

/-- Python strings, embedded as lists of characters. -/
abbrev Str := List Char

/-- Coerce a Lean string literal to the embedding type. -/
def str (s : String) : Str := s.data

/-- Escaping applied when flattening in `list_categories` (client.py line 215):
`node['text'].replace('/', '\\')`.  A single-character `str.replace` is a
character map. -/
def escapeName (s : Str) : Str := s.map fun c => if c = '/' then '\\' else c

/-- Unescaping applied when creating a category in `update_categories`
(client.py line 326): `nodes[i].replace('\\', '/')`. -/
def unescapeName (s : Str) : Str := s.map fun c => if c = '\\' then '/' else c

/-- Python string comparison `s < t`: lexicographic by code point. -/
def pyLt : Str → Str → Bool
  | [], [] => false
  | [], _ :: _ => true
  | _ :: _, [] => false
  | a :: as_, b :: bs => if a = b then pyLt as_ bs else decide (a < b)

/-- Python string comparison `s <= t`. -/
def pyLe (s t : Str) : Bool := !(pyLt t s)

/-- `target_series.str.startswith(node).any()` (client.py line 284): some
target path equals `p` or has `p` as a string prefix. -/
def covered (targets : List Str) (p : Str) : Bool :=
  targets.any fun t => p.isPrefixOf t

/-- `re.fullmatch("/[^/]*", path)` (client.py lines 289 and 303): a
single-segment root path. -/
def isRootPath (p : Str) : Bool :=
  match p with
  | '/' :: rest => rest.all fun c => !(c = '/')
  | _ => false

/-- Python `s.split('/')` worker: accumulates the current segment reversed. -/
def splitSlashAux : List Char → List Char → List Str
  | [], acc => [acc.reverse]
  | c :: rest, acc =>
      if c = '/' then acc.reverse :: splitSlashAux rest []
      else splitSlashAux rest (c :: acc)

/-- Python `s.split('/')` (client.py line 321). -/
def splitSlash (s : Str) : List Str := splitSlashAux s []

/-- Python `'/'.join(l)` (client.py lines 323 and 324). -/
def joinSlash : List Str → Str
  | [] => []
  | [x] => x
  | x :: y :: rest => x ++ '/' :: joinSlash (y :: rest)

/-- Pandas `str.replace("^/+[^/]+", "", regex=True)` (client.py line 234):
remove one leading run of slashes together with the following nonempty run of
non-slash characters; leave the string unchanged when the pattern does not
match at the start. -/
def stripRoot (s : Str) : Str :=
  let slashes := s.takeWhile fun c => c = '/'
  let rest := s.drop slashes.length
  let seg := rest.takeWhile fun c => !(c = '/')
  if slashes = [] ∨ seg = [] then s else rest.drop seg.length

section Dict

variable {α : Type}

/-- Python `d[k]` on a dict built by repeated insertion: the last binding of
`k` wins. -/
def dget : List (Str × α) → Str → Option α
  | [], _ => none
  | (k', v) :: rest, k =>
      match dget rest k with
      | some v' => some v'
      | none => if k' = k then some v else none

/-- Python `k in d`. -/
def dmem (m : List (Str × α)) (k : Str) : Bool := m.any fun e => decide (e.1 = k)

/-- Remove every binding of a key (a Python dict holds at most one). -/
def derase (m : List (Str × α)) (k : Str) : List (Str × α) :=
  m.filter fun e => !decide (e.1 = k)

/-- Python `d[k] = v`. -/
def dinsert (m : List (Str × α)) (k : Str) (v : α) : List (Str × α) :=
  derase m k ++ [(k, v)]

/-- Python `d.pop(k)`: the value and the remaining dict, or `none` (KeyError)
if the key is absent. -/
def dpop (m : List (Str × α)) (k : Str) : Option (α × List (Str × α)) :=
  match dget m k with
  | none => none
  | some v => some (v, derase m k)

end Dict

section Sorting

variable {α : Type} (le : α → α → Bool)

/-- Insert an element into a sorted list, keeping earlier elements first among
ties; used to model Python's stable `list.sort` and pandas `sort_values`. -/
def insertSorted (x : α) : List α → List α
  | [] => [x]
  | y :: ys => if le x y then x :: y :: ys else y :: insertSorted x ys

/-- Insertion sort with a boolean comparison. -/
def isort : List α → List α
  | [] => []
  | x :: xs => insertSorted le x (isort xs)

end Sorting


-- ----------------------------------------------------------------------
-- list_categories: flattening the nested category tree (client.py 188-236)

/-- One node of the nested category tree returned by the remote
`<resource>/category/tree.json` endpoint: its display `text`, its `id`, the
`isSystem` flag, the optional sequence `number` (account resource only) and
the list of child nodes (the `data` attribute; an absent or `null` `data` is
identified with an empty child list, which flattens identically). -/
inductive CNode : Type where
  | mk (text : Str) (id : Nat) (isSystem : Bool) (number : Option Int)
       (data : List CNode) : CNode

/-- One row of the flattened category DataFrame: the computed `path` column
together with the node's own attributes. -/
structure FlatRow where
  path : Str
  text : Str
  id : Nat
  isSystem : Bool
  number : Option Int
deriving DecidableEq

mutual

/-- Rows contributed by one node in `flatten_nodes` (client.py 209-220): the
child rows (computed with the node's path as parent path) followed by the
node's own row, whose path is `parent_path + '/' + text.replace('/', '\\')`. -/
def flatten_node (parentPath : Str) : CNode → List FlatRow
  | .mk t i sys num data =>
      let path := parentPath ++ '/' :: escapeName t
      flatten_nodes path data ++ [⟨path, t, i, sys, num⟩]

/-- `flatten_nodes` over a list of sibling nodes, in order. -/
def flatten_nodes (parentPath : Str) : List CNode → List FlatRow
  | [] => []
  | n :: rest => flatten_node parentPath n ++ flatten_nodes parentPath rest

end

/-- `df.sort_values("path")` on flattened rows. -/
def sort_rows (rows : List FlatRow) : List FlatRow :=
  isort (fun a b => pyLe a.path b.path) rows

/-- `list_categories(resource, include_system)` (client.py 188-236) applied to
a fetched tree: flatten, optionally drop system rows, strip the leading system
root segment for the `file` resource, and sort by path. -/
def list_categories (resource : Str) (include_system : Bool)
    (tree : List CNode) : List FlatRow :=
  let df := flatten_nodes [] tree
  let df :=
    if include_system then df
    else
      let kept := df.filter fun r => !r.isSystem
      if resource = str "file" then
        kept.map fun r => { r with path := stripRoot r.path }
      else kept
  sort_rows df

-- ----------------------------------------------------------------------
-- update_categories: data model (client.py 238-341)

/-- A remote category as this client observes it through `list_categories`
(one DataFrame row): the flattened visible `path`, the raw display `text`,
`id`, `parentId`, `isSystem`, and the account sequence `number`. -/
structure Category where
  id : Nat
  path : Str
  text : Str
  parentId : Option Nat
  isSystem : Bool
  number : Option Int
deriving DecidableEq

/-- Failure modes of an invocation.  Python exception classes are identified
by their role: `typeMismatch` and `rootImmutable` and `rootCreation` and
`duplicatePaths` are the `ValueError`s raised in client.py lines 269-271,
305-308, 330-332 and 591-594; `keyError` is a Python `KeyError` on a dict
access; `attrError` is the `AttributeError` raised when `.str` is accessed on
the array returned by `pd.Series(target).unique()` (client.py line 280/284);
`remoteRejected` is a `RequestException` surfaced from a failed remote call. -/
inductive UErr : Type where
  | typeMismatch
  | attrError
  | keyError
  | remoteRejected
  | rootImmutable
  | rootCreation
  | duplicatePaths
deriving DecidableEq

/-- One remote state-changing call issued by the client, as recorded for the
trace.  `createCategory` additionally records the `insertId` the server
answered with. -/
inductive ApiCall : Type where
  | deleteCategories (ids : List Nat)
  | updateCategoryNumber (id : Nat) (name : Str) (number : Int)
      (parentId : Option Nat)
  | createCategory (name : Str) (parentId : Option Nat) (number : Option Int)
      (insertId : Nat)
  | deleteFiles (ids : List Nat)
  | emptyArchive
  | uploadFile (replaceId : Option Nat) (categoryId : Option Nat)
      (localPath : Str)
deriving DecidableEq

/-- The `target` argument of `update_categories`: a path-to-number dict for
the `account` resource, a list of paths for every other resource. -/
inductive Target : Type where
  | dict (entries : List (Str × Int))
  | list (paths : List Str)

/-- Keys of `set(target)`: the dict keys, or the list elements. -/
def tkeysOf : Target → List Str
  | .dict m => m.map fun e => e.1
  | .list l => l

/-- Modelled from the spec: effect of `<resource>/category/delete.json` on the
remote category set (spec section 6, `deleteCategories`).  The identified rows
disappear.  Account root categories are immutable in CashCtrl (client.py line
286 and docstring lines 261-263), so a batch naming an account root is
rejected and leaves the remote state unchanged. -/
def server_delete (resource : Str) (server : List Category) (ids : List Nat) :
    Except UErr (List Category) :=
  if resource = str "account" ∧
      server.any (fun r => ids.contains r.id && isRootPath r.path) = true then
    .error .remoteRejected
  else
    .ok (server.filter fun r => !(ids.contains r.id))

/-- Modelled from the spec: effect of `account/category/update.json` (spec
section 6, `updateCategoryNumber`): the identified row's number is replaced. -/
def server_set_number (server : List Category) (id : Nat) (n : Int) :
    List Category :=
  server.map fun r => if r.id = id then { r with number := some n } else r

/-- Visible path of the row a `parentId` refers to (empty for no parent). -/
def server_parent_path (server : List Category) : Option Nat → Str
  | none => []
  | some pid =>
      match server.find? fun r => decide (r.id = pid) with
      | some r => r.path
      | none => []

/-- Modelled from the spec: effect of `<resource>/category/create.json` (spec
section 6, `createCategory`; spec section 3, `CategoryPath`): a fresh node
with the given raw name appears under the parent, and its visible flattened
path is the parent's visible path plus `'/'` plus the escaped name.  A node
created without a parent sits at the top level (for the `file` resource:
directly under the implicit system root, which the visible stripped paths do
not mention), so its visible path is `'/'` plus the escaped name. -/
def server_create (server : List Category) (name : Str) (parentId : Option Nat)
    (number : Option Int) (newId : Nat) : List Category :=
  server ++ [{ id := newId,
               path := server_parent_path server parentId ++ '/' :: escapeName name,
               text := name, parentId := parentId, isSystem := false,
               number := number }]

/-- Mutable state threaded through one `update_categories` invocation: the
modelled remote rows, the running `categories` path-to-id dict, the trace of
issued remote calls, the node paths created so far, and the next fresh id the
server will hand out. -/
structure UCState where
  server : List Category
  cats : List (Str × Nat)
  trace : List ApiCall
  created : List Str
  nextId : Nat
deriving DecidableEq

/-- Result of an `update_categories` invocation, with the intermediate values
the code computes exposed for specification: the (reverse-sorted) `to_delete`
list, the batched delete ids, the dict state after the deletion step, and the
list of created node paths in creation order. -/
structure UCOut where
  err : Option UErr
  trace : List ApiCall
  server : List Category
  toDelete : List Str
  deletedIds : List Nat
  catsAfterDelete : List (Str × Nat)
  created : List Str
  cats : List (Str × Nat)
  nextId : Nat
deriving DecidableEq

/-- `dict(zip(category_list["path"], category_list["id"]))` (client.py 274). -/
def dict_of_rows (rows : List Category) : List (Str × Nat) :=
  rows.map fun r => (r.path, r.id)

/-- `category_list.sort_values("path")` as fetched by `list_categories`. -/
def sort_cat_rows (rows : List Category) : List Category :=
  isort (fun a b => pyLe a.path b.path) rows

/-- The `to_delete` list comprehension (client.py 281-290): existing paths not
covered by any target path, with single-segment roots excluded when
`ignore_account_root_nodes` is set for the account resource.  For a list
target, `pd.Series(target).unique()` is an array without a `.str` accessor,
so evaluating the comprehension predicate raises `AttributeError`; it is only
evaluated when at least one row exists. -/
def compute_to_delete (resource : Str) (target : Target) (ignore : Bool)
    (rows : List Category) : Except UErr (List Str) :=
  match target with
  | .dict m =>
      let tp := m.map fun e => e.1
      let td := (rows.map fun r => r.path).filter fun p => !(covered tp p)
      let td :=
        if ignore ∧ resource = str "account" then
          td.filter fun p => !(isRootPath p)
        else td
      .ok td
  | .list _ => if rows.isEmpty then .ok [] else .error .attrError

/-- `to_delete.sort(reverse=True)` (client.py 293). -/
def sort_reverse (l : List Str) : List Str :=
  isort (fun a b => pyLe b a) l

/-- `[str(categories.pop(path)) for path in to_delete]` (client.py 294):
sequential pops; a missing key raises `KeyError`. -/
def pop_ids (cats : List (Str × Nat)) :
    List Str → Except UErr (List Nat × List (Str × Nat))
  | [] => .ok ([], cats)
  | p :: rest =>
      match dpop cats p with
      | none => .error .keyError
      | some (i, cats') =>
          match pop_ids cats' rest with
          | .error e => .error e
          | .ok (ids, cats'') => .ok (i :: ids, cats'')

/-- `row["number"] != target[row["path"]]` (client.py 302); a missing stored
number is treated as differing. -/
def number_differs : Option Int → Int → Bool
  | none, _ => true
  | some n, v => decide (¬ n = v)

/-- The account renumber loop (client.py 300-316) over the originally fetched
`category_list` rows: for a row whose path is a target key with a differing
number, raise for a root path unless `ignore_account_root_nodes`, otherwise
issue `account/category/update.json` and record the new number. -/
def renumber_loop (ignore : Bool) (tm : List (Str × Int)) :
    List Category → List Category → List ApiCall →
    List Category × List ApiCall × Option UErr
  | [], server, trace => (server, trace, none)
  | r :: rest, server, trace =>
      match dget tm r.path with
      | none => renumber_loop ignore tm rest server trace
      | some v =>
          if number_differs r.number v then
            if isRootPath r.path then
              if ignore then renumber_loop ignore tm rest server trace
              else (server, trace, some .rootImmutable)
            else
              renumber_loop ignore tm rest (server_set_number server r.id v)
                (trace ++ [.updateCategoryNumber r.id r.text v r.parentId])
          else renumber_loop ignore tm rest server trace

/-- One index `i` of the walk `for i in range(1, len(nodes))` (client.py
322-336): if `'/'.join(nodes[:i+1])` is not yet a known category, resolve the
parent (a truthy parent path is looked up in the running dict; an empty one
means a root, which may not be created for the account resource), fetch the
target number for the account resource, issue the create call and record the
fresh id under the node path. -/
def walk_step (resource : Str) (target : Target) (leaf : Str)
    (nodes : List Str) (i : Nat) (st : UCState) : UCState × Option UErr :=
  let np := joinSlash (nodes.take (i + 1))
  if dmem st.cats np then (st, none)
  else
    let name := unescapeName (nodes.getD i [])
    let pp := joinSlash (nodes.take i)
    match (if ¬ pp = [] then
             match dget st.cats pp with
             | some pid => Except.ok (some pid)
             | none => Except.error UErr.keyError
           else if resource = str "account" then Except.error UErr.rootCreation
           else Except.ok none : Except UErr (Option Nat)) with
    | .error e => (st, some e)
    | .ok pid =>
        match (if resource = str "account" then
                 match target with
                 | .dict m =>
                     match dget m leaf with
                     | some n => Except.ok (some n)
                     | none => Except.error UErr.keyError
                 | .list _ => Except.error UErr.keyError
               else Except.ok none : Except UErr (Option Int)) with
        | .error e => (st, some e)
        | .ok num =>
            ({ server := server_create st.server name pid num st.nextId,
               cats := dinsert st.cats np st.nextId,
               trace := st.trace ++ [.createCategory name pid num st.nextId],
               created := st.created ++ [np],
               nextId := st.nextId + 1 }, none)

/-- The walk over a list of indices, aborting at the first error. -/
def walk_idxs (resource : Str) (target : Target) (leaf : Str)
    (nodes : List Str) : List Nat → UCState → UCState × Option UErr
  | [], st => (st, none)
  | i :: rest, st =>
      match walk_step resource target leaf nodes i st with
      | (st', some e) => (st', some e)
      | (st', none) => walk_idxs resource target leaf nodes rest st'

/-- Processing of one missing leaf (client.py 320-336): split into segments
and walk `range(1, len(nodes))`. -/
def walk_leaf (resource : Str) (target : Target) (leaf : Str) (st : UCState) :
    UCState × Option UErr :=
  let nodes := splitSlash leaf
  walk_idxs resource target leaf nodes (List.range' 1 (nodes.length - 1)) st

/-- The loop over all missing leaves, aborting at the first error. -/
def create_loop (resource : Str) (target : Target) :
    List Str → UCState → UCState × Option UErr
  | [], st => (st, none)
  | leaf :: rest, st =>
      match walk_leaf resource target leaf st with
      | (st', some e) => (st', some e)
      | (st', none) => create_loop resource target rest st'

/-- Shape of the target argument. -/
def is_dict : Target → Bool
  | .dict _ => true
  | .list _ => false

/-- The optional deletion step (client.py 276-297): compute `to_delete`, sort
it in reverse order, pop the ids and issue one batched delete call when the
list is nonempty.  Returns the sorted `to_delete` list, the calls issued by
this step, and either the error that aborted the invocation or the popped
ids together with the dict and the remote state after the step. -/
def delete_stage (resource : Str) (target : Target) (deleteFlag ignore : Bool)
    (rows : List Category) (cats0 : List (Str × Nat))
    (server0 : List Category) :
    List Str × List ApiCall ×
      Except UErr (List Nat × List (Str × Nat) × List Category) :=
  if deleteFlag then
    match compute_to_delete resource target ignore rows with
    | .error e => ([], [], .error e)
    | .ok td =>
        if td.isEmpty then ([], [], .ok ([], cats0, server0))
        else
          let tds := sort_reverse td
          match pop_ids cats0 tds with
          | .error e => (tds, [], .error e)
          | .ok (ids, cats1) =>
              match server_delete resource server0 ids with
              | .error e => (tds, [.deleteCategories ids], .error e)
              | .ok server1 =>
                  (tds, [.deleteCategories ids], .ok (ids, cats1, server1))
  else ([], [], .ok ([], cats0, server0))

/-- The path-to-number mapping used by the renumber and create steps: the
dict itself for a dict target (never consulted for a list target). -/
def tmapOf : Target → List (Str × Int)
  | .dict m => m
  | .list _ => []

/-- The renumber step (client.py 299-316), executed only for the `account`
resource. -/
def renumber_stage (resource : Str) (ignore : Bool) (target : Target)
    (rows server1 : List Category) (trace1 : List ApiCall) :
    List Category × List ApiCall × Option UErr :=
  if resource = str "account" then
    renumber_loop ignore (tmapOf target) rows server1 trace1
  else (server1, trace1, none)

/-- `missing_leaves = set(target).difference(categories).difference("/")`
(client.py 319): the members of the enumeration `order` that are target keys,
unknown to the running dict, and distinct from `"/"`. -/
def missing_leaves (target : Target) (cats1 : List (Str × Nat))
    (order : List Str) : List Str :=
  order.filter fun l =>
    (tkeysOf target).contains l && !(dmem cats1 l) && !(decide (l = str "/"))

/-- `update_categories(resource, target, delete, ignore_account_root_nodes)`
(client.py 238-341).  `server0` is the modelled remote category state as
observed by the `list_categories` fetch the method performs (visible rows for
the fetch mode the code uses for this resource); `order` supplies the
enumeration order of the Python set `missing_leaves`, which the language
leaves unspecified (the function keeps exactly the members of that set, in
the order given); `nextId0` is the next fresh id the server hands out. -/
def update_categories (resource : Str) (target : Target) (deleteFlag : Bool)
    (ignore_account_root_nodes : Bool) (order : List Str)
    (server0 : List Category) (nextId0 : Nat) : UCOut :=
  if (resource = str "account" ∧ is_dict target = false) ∨
      (¬ resource = str "account" ∧ is_dict target = true) then
    { err := some .typeMismatch, trace := [], server := server0, toDelete := [],
      deletedIds := [], catsAfterDelete := [], created := [], cats := [],
      nextId := nextId0 }
  else
    let rows := sort_cat_rows server0
    let cats0 := dict_of_rows rows
    match delete_stage resource target deleteFlag ignore_account_root_nodes
        rows cats0 server0 with
    | (tds, trace1, .error e) =>
        { err := some e, trace := trace1, server := server0, toDelete := tds,
          deletedIds := [], catsAfterDelete := cats0, created := [],
          cats := cats0, nextId := nextId0 }
    | (tds, trace1, .ok (ids, cats1, server1)) =>
        match renumber_stage resource ignore_account_root_nodes target rows
            server1 trace1 with
        | (server2, trace2, some e) =>
            { err := some e, trace := trace2, server := server2,
              toDelete := tds, deletedIds := ids, catsAfterDelete := cats1,
              created := [], cats := cats1, nextId := nextId0 }
        | (server2, trace2, none) =>
            match create_loop resource target
                (missing_leaves target cats1 order)
                { server := server2, cats := cats1, trace := trace2,
                  created := [], nextId := nextId0 } with
            | (st, e) =>
                { err := e, trace := st.trace, server := st.server,
                  toDelete := tds, deletedIds := ids,
                  catsAfterDelete := cats1, created := st.created,
                  cats := st.cats, nextId := st.nextId }

-- ----------------------------------------------------------------------
-- mirror_directory (client.py 541-620)

/-- One local file from the `list_directory` snapshot: its POSIX relative
path and its modification time (timestamps are modelled as integers). -/
structure LocalFile where
  path : Str
  mtime : Int
deriving DecidableEq

/-- One remote file row from `list_files`: id, the derived visible path, and
the `lastUpdated` timestamp. -/
structure RemoteFile where
  id : Nat
  path : Str
  lastUpdated : Int
deriving DecidableEq

/-- `"/" + local_files["path"]` (client.py 564). -/
def remote_path_of (lf : LocalFile) : Str := '/' :: lf.path

/-- `Path(p).parent.as_posix()` (client.py 566) on a normalized absolute
path: drop the last segment; the parent of a top-level entry is `/`. -/
def parent_as_posix (p : Str) : Str :=
  let ls := (splitSlash p).dropLast
  if joinSlash ls = [] then str "/" else joinSlash ls

/-- The `remote_category` column (client.py 565-568). -/
def remote_category_of (lf : LocalFile) : Str :=
  parent_as_posix (remote_path_of lf)

/-- The `to_delete` mask of client.py 572-574 applied in one pass:
`remote_files["path"].duplicated(keep="first") | ~isin(local remote paths)`,
returning the masked rows and the kept rows in order.  `seen` holds the paths
of the rows already passed. -/
def mirror_split (localPaths : List Str) :
    List RemoteFile → List Str → List RemoteFile × List RemoteFile
  | [], _ => ([], [])
  | r :: rest, seen =>
      let marked := seen.contains r.path || !(localPaths.contains r.path)
      let (del, keep) := mirror_split localPaths rest (r.path :: seen)
      if marked then (r :: del, keep) else (del, r :: keep)

/-- `remote_files["path"].duplicated().any()` (client.py 590). -/
def has_dup_paths : List RemoteFile → Bool
  | [] => false
  | r :: rest =>
      rest.any (fun x => decide (x.path = r.path)) || has_dup_paths rest

/-- The re-upload loop (client.py 601-609): for each local file joined to a
remote file with the same path whose remote time is strictly older than the
local modification time, upload replacing the remote id, into the category
resolved from `category_map` (a missing map entry is a `KeyError`). -/
def update_uploads (cmap : List (Str × Option Nat)) (remote : List RemoteFile) :
    List LocalFile → List ApiCall → List ApiCall × Option UErr
  | [], trace => (trace, none)
  | lf :: rest, trace =>
      match remote.find? fun r => decide (r.path = remote_path_of lf) with
      | none => update_uploads cmap remote rest trace
      | some r =>
          if r.lastUpdated < lf.mtime then
            match dget cmap (remote_category_of lf) with
            | none => (trace, some .keyError)
            | some cid =>
                update_uploads cmap remote rest
                  (trace ++ [.uploadFile (some r.id) cid lf.path])
          else update_uploads cmap remote rest trace

/-- The new-upload loop (client.py 611-619): local files with no remote path
match are uploaded as new files. -/
def new_uploads (cmap : List (Str × Option Nat)) (remote : List RemoteFile) :
    List LocalFile → List ApiCall → List ApiCall × Option UErr
  | [], trace => (trace, none)
  | lf :: rest, trace =>
      if remote.any fun r => decide (r.path = remote_path_of lf) then
        new_uploads cmap remote rest trace
      else
        match dget cmap (remote_category_of lf) with
        | none => (trace, some .keyError)
        | some cid =>
            new_uploads cmap remote rest
              (trace ++ [.uploadFile none cid lf.path])

/-- Result of a `mirror_directory` invocation. -/
structure MirrorOut where
  err : Option UErr
  trace : List ApiCall
  remote : List RemoteFile
  catOut : UCOut
deriving DecidableEq

/-- `mirror_directory(directory, delete_files, delete_categories)` (client.py
541-620).  `localFiles` is the `list_directory` snapshot, `remoteFiles` the
`list_files` fetch, `catServer` the modelled remote file-category state with
`catOrder` and `nextId0` as for `update_categories`. -/
def mirror_directory (localFiles : List LocalFile)
    (remoteFiles : List RemoteFile) (delete_files delete_categories : Bool)
    (catServer : List Category) (catOrder : List Str) (nextId0 : Nat) :
    MirrorOut :=
  let targets := localFiles.map remote_category_of
  let step1 :=
    if delete_files then
      let dk := mirror_split (localFiles.map remote_path_of) remoteFiles []
      let t := if ¬ dk.1.isEmpty then
          [ApiCall.deleteFiles (dk.1.map fun r => r.id)] else []
      (t ++ [ApiCall.emptyArchive],
        if ¬ dk.1.isEmpty then dk.2 else remoteFiles)
    else ([], remoteFiles)
  let trace0 := step1.1
  let remote1 := step1.2
  let uc := update_categories (str "file") (.list targets) delete_categories
    false catOrder catServer nextId0
  match uc.err with
  | some e =>
      { err := some e, trace := trace0 ++ uc.trace, remote := remote1,
        catOut := uc }
  | none =>
      let cmap := dinsert
        ((sort_cat_rows uc.server).map fun r => (r.path, some r.id))
        (str "/") none
      if has_dup_paths remote1 then
        { err := some .duplicatePaths, trace := trace0 ++ uc.trace,
          remote := remote1, catOut := uc }
      else
        match update_uploads cmap remote1 localFiles (trace0 ++ uc.trace) with
        | (trace2, some e) =>
            { err := some e, trace := trace2, remote := remote1, catOut := uc }
        | (trace2, none) =>
            match new_uploads cmap remote1 localFiles trace2 with
            | (trace3, e) =>
                { err := e, trace := trace3, remote := remote1, catOut := uc }

-- ----------------------------------------------------------------------
-- Auxiliary definitions for the claims

mutual

/-- Number of nodes in one subtree. -/
def cnode_count : CNode → Nat
  | .mk _ _ _ _ data => 1 + cnodes_count data

/-- Number of nodes in a forest. -/
def cnodes_count : List CNode → Nat
  | [] => 0
  | n :: rest => cnode_count n + cnodes_count rest

end

mutual

/-- Number of system nodes in one subtree. -/
def cnode_sys_count : CNode → Nat
  | .mk _ _ sys _ data => (if sys then 1 else 0) + cnodes_sys_count data

/-- Number of system nodes in a forest. -/
def cnodes_sys_count : List CNode → Nat
  | [] => 0
  | n :: rest => cnode_sys_count n + cnodes_sys_count rest

end

/-- Display text of a node. -/
def cnode_text : CNode → Str
  | .mk t _ _ _ _ => t

/-- Children of a node. -/
def cnode_children : CNode → List CNode
  | .mk _ _ _ _ d => d

/-- System flag of a node. -/
def cnode_sys : CNode → Bool
  | .mk _ _ s _ _ => s

mutual

/-- Well-formedness of one subtree for the flatten round-trip: no two
siblings at any level have names that coincide after escaping. -/
def good_node : CNode → Bool
  | .mk _ _ _ _ data => good_nodes data

/-- Well-formedness of a forest. -/
def good_nodes : List CNode → Bool
  | [] => true
  | n :: rest =>
      good_node n && good_nodes rest &&
        rest.all fun m => !decide (escapeName (cnode_text n) = escapeName (cnode_text m))

end

/-- A tree with a system root and one non-system child, used to observe the
missing path stripping for a non-`file` resource. -/
def c2tree : List CNode :=
  [CNode.mk (str "Sys") 1 true none [CNode.mk (str "Child") 2 false none []]]

/-- Two sibling nodes with distinct raw names whose names coincide after
escaping. -/
def c6tree : List CNode :=
  [CNode.mk (str "a/b") 1 false none [], CNode.mk (str "a\\b") 2 false none []]

/-- A single system root with two well-named children, as the `file` category
tree has. -/
def c6wtree : List CNode :=
  [CNode.mk (str "Files") 1 true none
    [CNode.mk (str "a") 2 false none [], CNode.mk (str "b") 3 false none []]]

/-- A remote file-category state with one category, for observing the crash
of the list-target deletion branch. -/
def c1row : Category := ⟨5, str "/old", str "old", none, false, none⟩

/-- A path that denotes a strict ancestor of another in the category
hierarchy: its segment list is a strict prefix of the other's. -/
def strictAncestor (p q : Str) : Prop :=
  splitSlash p <+: splitSlash q ∧ ¬ p = q

/-- Call classifiers used to count and order remote calls in a trace. -/
def isCreateCat : ApiCall → Bool
  | .createCategory _ _ _ _ => true
  | _ => false

/-- True for a batched category delete call. -/
def isDeleteCat : ApiCall → Bool
  | .deleteCategories _ => true
  | _ => false

/-- True for an account sequence-number update call. -/
def isUpdateNum : ApiCall → Bool
  | .updateCategoryNumber _ _ _ _ => true
  | _ => false

/-- True for a file upload. -/
def isUpload : ApiCall → Bool
  | .uploadFile _ _ _ => true
  | _ => false

/-- True for a batched file delete call. -/
def isDeleteFiles : ApiCall → Bool
  | .deleteFiles _ => true
  | _ => false

/-- A two-category account state (a root `/A` and a stale child `/A/Old`)
used to exercise one delete followed by two creates. -/
def c4server : List Category :=
  [⟨1, str "/A/Old", str "Old", some 2, false, none⟩,
   ⟨2, str "/A", str "A", none, false, some 1⟩]

/-- The reconciliation run towards the single target `/A/B/C` over
`c4server`. -/
def c4out : UCOut :=
  update_categories (str "account") (.dict [(str "/A/B/C", 2)]) true false
    [str "/A/B/C"] c4server 10

/-- An account state with a root category and one child, both uncovered by
the empty target. -/
def c3server : List Category :=
  [⟨1, str "/Balance", str "Balance", none, false, some 1⟩,
   ⟨2, str "/Balance/Sub", str "Sub", some 1, false, some 2⟩]

/-- The protected root row of the root-protection scenario. -/
def c3wrow : Category := ⟨1, str "/Balance", str "Balance", none, false, some 1⟩

/-- An account state with two roots, a stale child under the protected root
and a target key under the other root. -/
def c3wserver : List Category :=
  [⟨3, str "/Assets", str "Assets", none, false, some 3⟩,
   c3wrow,
   ⟨2, str "/Balance/Sub", str "Sub", some 1, false, some 2⟩]

/-- A single-root account state used to replay a reconciliation twice. -/
def c7server : List Category := [⟨1, str "/A", str "A", none, false, none⟩]

/-- A two-key target whose intermediate node and leaf carry different
sequence numbers. -/
def c7target : Target := .dict [(str "/A/B", 1), (str "/A/B/C", 2)]

/-- Enumeration order of the missing-leaves set with the deeper key first. -/
def c7order : List Str := [str "/A/B/C", str "/A/B"]

/-- The first reconciliation run over `c7server`. -/
def c7out1 : UCOut :=
  update_categories (str "account") c7target true false c7order c7server 10

/-- The identical repeated run over the remote state the first run
produced. -/
def c7out2 : UCOut :=
  update_categories (str "account") c7target true false c7order c7out1.server
    c7out1.nextId

-- ----------------------------------------------------------------------
-- Basic lemmas about the string primitives



theorem escapeName_no_slash (s : Str) : '/' ∉ escapeName s := by
  intro h
  simp only [escapeName, List.mem_map] at h
  obtain ⟨c, _, hc⟩ := h
  by_cases h' : c = '/' <;> simp [h'] at hc

theorem escapeName_unescapeName (s : Str) (h : '/' ∉ s) :
    escapeName (unescapeName s) = s := by
  simp only [escapeName, unescapeName, List.map_map]
  conv_rhs => rw [← List.map_id s]
  refine List.map_congr_left fun c hc => ?_
  have hcs : ¬ c = '/' := fun h' => h (h' ▸ hc)
  by_cases hb : c = '\\' <;> simp [hb, Function.comp, hcs]

theorem unescapeName_escapeName (s : Str) (h : '\\' ∉ s) :
    unescapeName (escapeName s) = s := by
  simp only [escapeName, unescapeName, List.map_map]
  conv_rhs => rw [← List.map_id s]
  refine List.map_congr_left fun c hc => ?_
  have hcs : ¬ c = '\\' := fun h' => h (h' ▸ hc)
  by_cases hb : c = '/' <;> simp [hb, Function.comp, hcs]

theorem pyLt_irrefl (s : Str) : pyLt s s = false := by
  induction s with
  | nil => rfl
  | cons a as ih => simp [pyLt, ih]

theorem pyLt_trans {a b c : Str} (h₁ : pyLt a b = true) (h₂ : pyLt b c = true) :
    pyLt a c = true := by
  induction a generalizing b c with
  | nil =>
    cases b with
    | nil => simp [pyLt] at h₁
    | cons y ys =>
      cases c with
      | nil => simp [pyLt] at h₂
      | cons z zs => simp [pyLt]
  | cons x xs ih =>
    cases b with
    | nil => simp [pyLt] at h₁
    | cons y ys =>
      cases c with
      | nil => simp [pyLt] at h₂
      | cons z zs =>
        simp only [pyLt] at h₁ h₂ ⊢
        by_cases hxy : x = y
        · subst hxy
          simp only [if_pos rfl] at h₁
          by_cases hyz : x = z
          · subst hyz
            simp only [if_pos rfl] at h₂ ⊢
            exact ih h₁ h₂
          · simpa [hyz] using h₂
        · simp only [if_neg hxy] at h₁
          by_cases hyz : y = z
          · subst hyz
            simp [hxy, h₁]
          · simp only [if_neg hyz] at h₂
            have : x < z := lt_trans (by exact of_decide_eq_true h₁)
              (by exact of_decide_eq_true h₂)
            have hxz : ¬ x = z := ne_of_lt this
            simp [hxz, this]

theorem pyLt_asymm {a b : Str} (h : pyLt a b = true) : pyLt b a = false := by
  by_contra hc
  have hba : pyLt b a = true := by
    cases hab : pyLt b a
    · exact absurd hab hc
    · rfl
  have := pyLt_trans h hba
  rw [pyLt_irrefl] at this
  exact Bool.false_ne_true this

theorem pyLt_of_ne {a b : Str} (h : ¬ a = b) (h' : pyLt a b = false) :
    pyLt b a = true := by
  induction a generalizing b with
  | nil =>
    cases b with
    | nil => exact absurd rfl h
    | cons y ys => simp [pyLt] at h'
  | cons x xs ih =>
    cases b with
    | nil => simp [pyLt]
    | cons y ys =>
      simp only [pyLt] at h' ⊢
      by_cases hxy : x = y
      · subst hxy
        simp only [if_pos rfl] at h' ⊢
        refine ih (fun he => h (by rw [he])) h'
      · simp only [if_neg hxy] at h'
        have hx : ¬ x < y := of_decide_eq_false h'
        have : y < x := lt_of_le_of_ne (not_lt.mp hx) (fun he => hxy he.symm)
        have hyx : ¬ y = x := fun he => hxy he.symm
        simp [hyx, this]

theorem pyLe_total (a b : Str) : pyLe a b = true ∨ pyLe b a = true := by
  by_cases hab : pyLt b a = true
  · right
    simp [pyLe, pyLt_asymm hab]
  · left
    simp only [pyLe, Bool.not_eq_true']
    exact Bool.not_eq_true _ ▸ (Bool.eq_false_iff.mpr hab)

theorem pyLt_trichotomy (a b : Str) :
    a = b ∨ pyLt a b = true ∨ pyLt b a = true := by
  by_cases h : a = b
  · exact Or.inl h
  · cases hab : pyLt a b
    · exact Or.inr (Or.inr (pyLt_of_ne h hab))
    · exact Or.inr (Or.inl rfl)

theorem pyLe_trans {a b c : Str} (h₁ : pyLe a b = true) (h₂ : pyLe b c = true) :
    pyLe a c = true := by
  simp only [pyLe, Bool.not_eq_true'] at h₁ h₂ ⊢
  by_contra hc
  have hca : pyLt c a = true := by
    cases h : pyLt c a
    · exact absurd h hc
    · rfl
  rcases pyLt_trichotomy a b with hab | hab | hab
  · subst hab
    rw [h₂] at hca
    exact Bool.false_ne_true hca
  · have := pyLt_trans hca hab
    rw [h₂] at this
    exact Bool.false_ne_true this
  · rw [h₁] at hab
    exact Bool.false_ne_true hab

theorem pyLt_of_strict_prefix {p q : Str} (hp : p <+: q) (hne : ¬ p = q) :
    pyLt p q = true := by
  induction p generalizing q with
  | nil =>
    cases q with
    | nil => exact absurd rfl hne
    | cons y ys => rfl
  | cons x xs ih =>
    cases q with
    | nil =>
      exact absurd (List.prefix_nil.mp hp) (by simp)
    | cons y ys =>
      obtain ⟨t, ht⟩ := hp
      have hx : x = y := by
        have := congrArg (List.headI) ht
        simpa using this
      subst hx
      have hxs : xs <+: ys := by
        refine ⟨t, ?_⟩
        have := congrArg List.tail ht
        simpa using this
      have hne' : ¬ xs = ys := fun he => hne (by rw [he])
      simp [pyLt, ih hxs hne']

section SortingLemmas

variable {α : Type} (le : α → α → Bool)

theorem mem_insertSorted {x a : α} {l : List α} :
    a ∈ insertSorted le x l ↔ a = x ∨ a ∈ l := by
  induction l with
  | nil => simp [insertSorted]
  | cons y ys ih =>
    by_cases h : le x y = true
    · simp [insertSorted, h]
    · simp only [insertSorted, if_neg h, List.mem_cons, ih]
      tauto

theorem mem_isort {a : α} {l : List α} : a ∈ isort le l ↔ a ∈ l := by
  induction l with
  | nil => simp [isort]
  | cons x xs ih => simp [isort, mem_insertSorted, ih]

theorem insertSorted_perm (x : α) (l : List α) :
    (insertSorted le x l).Perm (x :: l) := by
  induction l with
  | nil => simp [insertSorted]
  | cons y ys ih =>
    by_cases h : le x y = true
    · simp [insertSorted, h]
    · rw [insertSorted, if_neg h]
      exact (List.Perm.cons y ih).trans (List.Perm.swap x y ys)

theorem isort_perm (l : List α) : (isort le l).Perm l := by
  induction l with
  | nil => simp [isort]
  | cons x xs ih =>
    rw [isort]
    exact (insertSorted_perm le x (isort le xs)).trans (List.Perm.cons x ih)

theorem length_isort (l : List α) : (isort le l).length = l.length :=
  (isort_perm le l).length_eq

theorem pairwise_insertSorted
    (htot : ∀ a b, le a b = true ∨ le b a = true)
    (htrans : ∀ a b c, le a b = true → le b c = true → le a c = true)
    (x : α) {l : List α} (h : l.Pairwise fun a b => le a b = true) :
    (insertSorted le x l).Pairwise fun a b => le a b = true := by
  induction l with
  | nil => simp [insertSorted]
  | cons y ys ih =>
    rcases List.pairwise_cons.mp h with ⟨hy, hys⟩
    by_cases hxy : le x y = true
    · rw [insertSorted, if_pos hxy]
      refine List.pairwise_cons.mpr ⟨?_, h⟩
      intro b hb
      rcases List.mem_cons.mp hb with hb | hb
      · exact hb ▸ hxy
      · exact htrans x y b hxy (hy b hb)
    · rw [insertSorted, if_neg hxy]
      refine List.pairwise_cons.mpr ⟨?_, ih hys⟩
      intro b hb
      rcases (mem_insertSorted le).mp hb with hb | hb
      · subst hb
        rcases htot y b with h' | h'
        · exact h'
        · exact absurd h' hxy
      · exact hy b hb

theorem pairwise_isort (htot : ∀ a b, le a b = true ∨ le b a = true)
    (htrans : ∀ a b c, le a b = true → le b c = true → le a c = true)
    (l : List α) : (isort le l).Pairwise fun a b => le a b = true := by
  induction l with
  | nil => simp [isort]
  | cons x xs ih => exact pairwise_insertSorted le htot htrans x ih

end SortingLemmas

theorem splitSlashAux_ne_nil (cs acc : List Char) : splitSlashAux cs acc ≠ [] := by
  induction cs generalizing acc with
  | nil => simp [splitSlashAux]
  | cons c rest ih =>
    by_cases h : c = '/'
    · simp [splitSlashAux, h]
    · simpa [splitSlashAux, h] using ih (c :: acc)

theorem joinSlash_cons_of_ne_nil (x : Str) {ls : List Str} (h : ls ≠ []) :
    joinSlash (x :: ls) = x ++ '/' :: joinSlash ls := by
  cases ls with
  | nil => exact absurd rfl h
  | cons y rest => rfl

theorem joinSlash_splitSlashAux (cs acc : List Char) :
    joinSlash (splitSlashAux cs acc) = acc.reverse ++ cs := by
  induction cs generalizing acc with
  | nil => simp [splitSlashAux, joinSlash]
  | cons c rest ih =>
    by_cases h : c = '/'
    · subst h
      rw [splitSlashAux, if_pos rfl,
        joinSlash_cons_of_ne_nil _ (splitSlashAux_ne_nil rest []), ih []]
      simp
    · rw [splitSlashAux, if_neg h, ih (c :: acc)]
      simp

/-- Python `'/'.join(s.split('/')) == s`. -/
theorem joinSlash_splitSlash (s : Str) : joinSlash (splitSlash s) = s := by
  simpa using joinSlash_splitSlashAux s []

theorem splitSlashAux_no_slash {cs acc : List Char} (hacc : '/' ∉ acc) :
    ∀ x ∈ splitSlashAux cs acc, '/' ∉ x := by
  induction cs generalizing acc with
  | nil =>
    intro x hx
    simp only [splitSlashAux, List.mem_singleton] at hx
    subst hx
    simpa using hacc
  | cons c rest ih =>
    intro x hx
    by_cases h : c = '/'
    · subst h
      rw [splitSlashAux, if_pos rfl] at hx
      rcases List.mem_cons.mp hx with hx | hx
      · subst hx
        simpa using hacc
      · exact ih (by simp) x hx
    · rw [splitSlashAux, if_neg h] at hx
      refine ih ?_ x hx
      intro hc
      rcases List.mem_cons.mp hc with hc | hc
      · exact h hc.symm
      · exact hacc hc

/-- Segments produced by `s.split('/')` contain no separator. -/
theorem splitSlash_no_slash (s : Str) : ∀ x ∈ splitSlash s, '/' ∉ x :=
  splitSlashAux_no_slash (by simp)

theorem splitSlashAux_of_no_slash {cs : List Char} (h : '/' ∉ cs) (acc : List Char) :
    splitSlashAux cs acc = [acc.reverse ++ cs] := by
  induction cs generalizing acc with
  | nil => simp [splitSlashAux]
  | cons c rest ih =>
    have hc : ¬ c = '/' := fun he => h (he ▸ List.mem_cons_self c rest)
    rw [splitSlashAux, if_neg hc, ih (fun hm => h (List.mem_cons_of_mem c hm))]
    simp

theorem splitSlashAux_append_slash {x : Str} (h : '/' ∉ x) (cs acc : List Char) :
    splitSlashAux (x ++ '/' :: cs) acc = (acc.reverse ++ x) :: splitSlashAux cs [] := by
  induction x generalizing acc with
  | nil => simp [splitSlashAux]
  | cons c rest ih =>
    have hc : ¬ c = '/' := fun he => h (he ▸ List.mem_cons_self c rest)
    rw [List.cons_append, splitSlashAux, if_neg hc,
      ih (fun hm => h (List.mem_cons_of_mem c hm)) (c :: acc)]
    simp

/-- Python `'/'.join(ls).split('/') == ls` for a nonempty list of
separator-free segments. -/
theorem splitSlash_joinSlash {ls : List Str} (hne : ls ≠ [])
    (h : ∀ l ∈ ls, '/' ∉ l) : splitSlash (joinSlash ls) = ls := by
  induction ls with
  | nil => exact absurd rfl hne
  | cons x rest ih =>
    cases rest with
    | nil =>
      have hx : '/' ∉ x := h x (by simp)
      simpa [joinSlash, splitSlash] using splitSlashAux_of_no_slash hx []
    | cons y t =>
      have hx : '/' ∉ x := h x (by simp)
      rw [joinSlash_cons_of_ne_nil x (by simp), splitSlash,
        splitSlashAux_append_slash hx _ []]
      have := ih (by simp) (fun l hl => h l (List.mem_cons_of_mem x hl))
      rw [splitSlash] at this
      simp [this]

theorem joinSlash_append {a b : List Str} (ha : a ≠ []) (hb : b ≠ []) :
    joinSlash (a ++ b) = joinSlash a ++ '/' :: joinSlash b := by
  induction a with
  | nil => exact absurd rfl ha
  | cons x rest ih =>
    cases rest with
    | nil =>
      cases b with
      | nil => exact absurd rfl hb
      | cons y t => simp [joinSlash]
    | cons y t =>
      rw [List.cons_append, joinSlash_cons_of_ne_nil x (by simp),
        joinSlash_cons_of_ne_nil x (by simp), ih (by simp)]
      simp

theorem joinSlash_concat {l : List Str} (h : l ≠ []) (x : Str) :
    joinSlash (l ++ [x]) = joinSlash l ++ '/' :: x :=
  joinSlash_append h (by simp)

/-- A join of an initial run of segments is a string prefix of the join of all
segments. -/
theorem joinSlash_take_isPrefix (ns : List Str) (k : Nat) :
    joinSlash (ns.take k) <+: joinSlash ns := by
  by_cases hk : ns.length ≤ k
  · rw [List.take_of_length_le hk]
  · push_neg at hk
    by_cases h0 : k = 0
    · subst h0
      simp [joinSlash]
    · have htk : ns.take k ≠ [] := by
        refine List.ne_nil_of_length_pos ?_
        rw [List.length_take]
        exact lt_min (Nat.pos_of_ne_zero h0) (by omega)
      have hdk : ns.drop k ≠ [] := by
        refine List.ne_nil_of_length_pos ?_
        rw [List.length_drop]
        omega
      conv_rhs => rw [← List.take_append_drop k ns]
      rw [joinSlash_append htk hdk]
      exact ⟨'/' :: joinSlash (ns.drop k), rfl⟩

section DictLemmas

variable {α : Type}

theorem dget_mem {m : List (Str × α)} {k : Str} {v : α}
    (h : dget m k = some v) : (k, v) ∈ m := by
  induction m with
  | nil => simp [dget] at h
  | cons e rest ih =>
    obtain ⟨k', v'⟩ := e
    simp only [dget] at h
    cases hr : dget rest k with
    | some w =>
      rw [hr] at h
      exact List.mem_cons_of_mem _ (ih (hr.trans (by injection h with h'; rw [h'])))
    | none =>
      rw [hr] at h
      by_cases hk : k' = k
      · rw [if_pos hk] at h
        injection h with h'
        subst hk h'
        exact List.mem_cons_self _ _
      · rw [if_neg hk] at h
        exact absurd h (by simp)

theorem dmem_iff {m : List (Str × α)} {k : Str} :
    dmem m k = true ↔ ∃ v, (k, v) ∈ m := by
  simp only [dmem, List.any_eq_true, decide_eq_true_eq]
  constructor
  · rintro ⟨⟨k', v⟩, hm, he⟩
    simp only at he
    subst he
    exact ⟨v, hm⟩
  · rintro ⟨v, hm⟩
    exact ⟨(k, v), hm, rfl⟩

theorem dget_isSome_of_dmem {m : List (Str × α)} {k : Str}
    (h : dmem m k = true) : (dget m k).isSome := by
  induction m with
  | nil => simp [dmem] at h
  | cons e rest ih =>
    obtain ⟨k', v'⟩ := e
    simp only [dget]
    cases hr : dget rest k with
    | some w => simp
    | none =>
      simp only [dmem, List.any_cons, Bool.or_eq_true, decide_eq_true_eq] at h
      rcases h with h | h
      · simp [h]
      · have := ih h
        rw [hr] at this
        simp at this

theorem dmem_of_dget_some {m : List (Str × α)} {k : Str} {v : α}
    (h : dget m k = some v) : dmem m k = true :=
  dmem_iff.mpr ⟨v, dget_mem h⟩

theorem dget_none_of_not_dmem {m : List (Str × α)} {k : Str}
    (h : dmem m k = false) : dget m k = none := by
  cases hg : dget m k with
  | none => rfl
  | some v =>
    rw [dmem_of_dget_some hg] at h
    exact absurd h (by simp)

theorem mem_derase {m : List (Str × α)} {k p : Str} {v : α} :
    (p, v) ∈ derase m k ↔ (p, v) ∈ m ∧ ¬ p = k := by
  simp [derase, List.mem_filter]

theorem dmem_derase {m : List (Str × α)} {k q : Str} :
    dmem (derase m k) q = true ↔ dmem m q = true ∧ ¬ q = k := by
  simp only [dmem_iff]
  constructor
  · rintro ⟨v, hv⟩
    obtain ⟨hm, hne⟩ := mem_derase.mp hv
    exact ⟨⟨v, hm⟩, hne⟩
  · rintro ⟨⟨v, hm⟩, hne⟩
    exact ⟨v, mem_derase.mpr ⟨hm, hne⟩⟩

theorem mem_dinsert {m : List (Str × α)} {k p : Str} {v w : α} :
    (p, w) ∈ dinsert m k v ↔ (p = k ∧ w = v) ∨ ((p, w) ∈ m ∧ ¬ p = k) := by
  simp only [dinsert, List.mem_append, List.mem_singleton, Prod.mk.injEq, mem_derase]
  tauto

theorem dmem_dinsert {m : List (Str × α)} {k q : Str} {v : α} :
    dmem (dinsert m k v) q = true ↔ q = k ∨ dmem m q = true := by
  simp only [dmem_iff]
  constructor
  · rintro ⟨w, hw⟩
    rcases mem_dinsert.mp hw with ⟨h1, _⟩ | ⟨h1, _⟩
    · exact Or.inl h1
    · exact Or.inr ⟨w, h1⟩
  · rintro (h | ⟨w, hw⟩)
    · exact ⟨v, mem_dinsert.mpr (Or.inl ⟨h, rfl⟩)⟩
    · by_cases hq : q = k
      · exact ⟨v, mem_dinsert.mpr (Or.inl ⟨hq, rfl⟩)⟩
      · exact ⟨w, mem_dinsert.mpr (Or.inr ⟨hw, hq⟩)⟩

theorem dpop_eq_some {m m' : List (Str × α)} {k : Str} {v : α}
    (h : dpop m k = some (v, m')) :
    dget m k = some v ∧ m' = derase m k := by
  simp only [dpop] at h
  cases hg : dget m k with
  | none => rw [hg] at h; exact absurd h (by simp)
  | some w =>
    rw [hg] at h
    injection h with h'
    have h1 : w = v := congrArg Prod.fst h'
    have h2 : derase m k = m' := congrArg Prod.snd h'
    exact ⟨congrArg some h1, h2.symm⟩

end DictLemmas

-- ----------------------------------------------------------------------
-- Claim C5

/-- C5 counterexample: the claim quantifies over every category name
containing `'/'`, but for the name `a\b/c` — which contains the separator —
the flatten-time escape maps both the original backslash and the escaped
slash to `'\'`, so the create-time unescape returns `a/b/c`, not the original
name. -/
theorem c5_counterexample :
    '/' ∈ str "a\\b/c" ∧
      unescapeName (escapeName (str "a\\b/c")) = str "a/b/c" ∧
      ¬ unescapeName (escapeName (str "a\\b/c")) = str "a\\b/c" := by
  decide

/-- C5 (amended): for every category name that contains the separator `'/'`
and does not itself contain the escape character `'\'`, applying the
flatten-time escape of `list_categories` and then the create-time unescape of
`update_categories` recovers the original name exactly. -/
theorem c5_escape_unescape_roundtrip (s : Str) (h1 : '/' ∈ s)
    (h2 : '\\' ∉ s) : unescapeName (escapeName s) = s :=
  unescapeName_escapeName s h2

/-- Witness for C5 at the spec's own example name. -/
theorem c5_escape_unescape_roundtrip_witness :
    '/' ∈ str "bla / blaaaa" ∧ '\\' ∉ str "bla / blaaaa" ∧
      unescapeName (escapeName (str "bla / blaaaa")) = str "bla / blaaaa" :=
  ⟨by decide, by decide,
    c5_escape_unescape_roundtrip (str "bla / blaaaa") (by decide) (by decide)⟩

-- ----------------------------------------------------------------------
-- Claim C2

/-- C2 counterexample: for the `account` resource with `include_system` false
the system row is removed, but the leading system-root segment is NOT
stripped from the remaining row's path — the result keeps `/Sys/Child`
instead of the `/Child` the claim requires. -/
theorem c2_counterexample :
    (list_categories (str "account") false c2tree).map (fun r => r.path) =
        [str "/Sys/Child"] ∧
      ¬ str "/Child" ∈
        (list_categories (str "account") false c2tree).map fun r => r.path := by
  decide

/-- C2 (amended): for every resource type, `list_categories` with
`include_system = False` removes exactly the rows whose `isSystem` attribute
is true; the leading system-root segment is stripped from the remaining paths
only for the `file` resource, and paths are returned unchanged for every
other resource. -/
theorem c2_list_categories_no_system (resource : Str) (tree : List CNode) :
    (∀ r ∈ list_categories resource false tree, r.isSystem = false) ∧
      ∀ r, r ∈ list_categories resource false tree ↔
        ∃ r0, r0 ∈ flatten_nodes [] tree ∧ r0.isSystem = false ∧
          r = (if resource = str "file" then { r0 with path := stripRoot r0.path }
               else r0) := by
  have hmem : ∀ r, r ∈ list_categories resource false tree ↔
      ∃ r0, r0 ∈ flatten_nodes [] tree ∧ r0.isSystem = false ∧
        r = (if resource = str "file" then { r0 with path := stripRoot r0.path }
             else r0) := by
    intro r
    unfold list_categories sort_rows
    simp only [if_neg (Bool.false_ne_true)]
    rw [mem_isort]
    by_cases hf : resource = str "file"
    · simp only [if_pos hf, List.mem_map, List.mem_filter,
        Bool.not_eq_true', Bool.not_eq_eq_eq_not, Bool.not_true]
      constructor
      · rintro ⟨r0, ⟨hm, hsys⟩, he⟩
        exact ⟨r0, hm, by simpa using hsys, he.symm⟩
      · rintro ⟨r0, hm, hsys, he⟩
        exact ⟨r0, ⟨hm, by simpa using hsys⟩, he.symm⟩
    · simp only [if_neg hf, List.mem_filter, Bool.not_eq_true',
        Bool.not_eq_eq_eq_not, Bool.not_true]
      constructor
      · rintro ⟨hm, hsys⟩
        exact ⟨r, hm, by simpa using hsys, rfl⟩
      · rintro ⟨r0, hm, hsys, he⟩
        subst he
        exact ⟨hm, by simpa using hsys⟩
  refine ⟨fun r hr => ?_, hmem⟩
  obtain ⟨r0, _, hsys, he⟩ := (hmem r).mp hr
  subst he
  by_cases hf : resource = str "file"
  · simp [hf, hsys]
  · simp [hf, hsys]

-- ----------------------------------------------------------------------
-- Claim C6: flatten round-trip infrastructure

mutual

theorem flatten_node_length (pp : Str) (n : CNode) :
    (flatten_node pp n).length = cnode_count n := by
  cases n with
  | mk t i sys num data =>
    rw [flatten_node, cnode_count, List.length_append,
      flatten_nodes_length (pp ++ '/' :: escapeName t) data]
    simp [Nat.add_comm]

theorem flatten_nodes_length (pp : Str) (ns : List CNode) :
    (flatten_nodes pp ns).length = cnodes_count ns := by
  cases ns with
  | nil => rfl
  | cons n rest =>
    rw [flatten_nodes, cnodes_count, List.length_append,
      flatten_node_length pp n, flatten_nodes_length pp rest]

end

mutual

theorem flatten_node_sys_count (pp : Str) (n : CNode) :
    ((flatten_node pp n).filter fun r => r.isSystem).length = cnode_sys_count n := by
  cases n with
  | mk t i sys num data =>
    rw [flatten_node, cnode_sys_count, List.filter_append, List.length_append,
      flatten_nodes_sys_count (pp ++ '/' :: escapeName t) data]
    cases sys <;> simp [Nat.add_comm]

theorem flatten_nodes_sys_count (pp : Str) (ns : List CNode) :
    ((flatten_nodes pp ns).filter fun r => r.isSystem).length = cnodes_sys_count ns := by
  cases ns with
  | nil => rfl
  | cons n rest =>
    rw [flatten_nodes, cnodes_sys_count, List.filter_append, List.length_append,
      flatten_node_sys_count pp n, flatten_nodes_sys_count pp rest]

end

mutual

/-- Paths of the rows of one node's block extend the parent path with the
node's escaped name as first segment. -/
theorem flatten_node_path_shape (pp : Str) (n : CNode) :
    ∀ r ∈ flatten_node pp n, ∃ t,
      r.path = pp ++ '/' :: (escapeName (cnode_text n) ++ t) ∧
        (t = [] ∨ ∃ u, t = '/' :: u) := by
  cases n with
  | mk tx i sys num data =>
    intro r hr
    rw [flatten_node, List.mem_append] at hr
    rcases hr with hr | hr
    · obtain ⟨c, _, t', ht', _⟩ :=
        flatten_nodes_path_shape (pp ++ '/' :: escapeName tx) data r hr
      refine ⟨'/' :: (escapeName (cnode_text c) ++ t'), ?_, Or.inr ⟨_, rfl⟩⟩
      rw [ht']
      simp [cnode_text, List.append_assoc]
    · rw [List.mem_singleton] at hr
      subst hr
      exact ⟨[], by simp [cnode_text], Or.inl rfl⟩

/-- Paths produced below a parent path extend it with a separator, the head
segment being the escaped name of one of the top nodes. -/
theorem flatten_nodes_path_shape (pp : Str) (ns : List CNode) :
    ∀ r ∈ flatten_nodes pp ns, ∃ n ∈ ns, ∃ t,
      r.path = pp ++ '/' :: (escapeName (cnode_text n) ++ t) ∧
        (t = [] ∨ ∃ u, t = '/' :: u) := by
  cases ns with
  | nil => intro r hr; simp [flatten_nodes] at hr
  | cons n rest =>
    intro r hr
    rw [flatten_nodes, List.mem_append] at hr
    rcases hr with hr | hr
    · obtain ⟨t, ht, hd⟩ := flatten_node_path_shape pp n r hr
      exact ⟨n, List.mem_cons_self _ _, t, ht, hd⟩
    · obtain ⟨m, hm, t, ht, hd⟩ := flatten_nodes_path_shape pp rest r hr
      exact ⟨m, List.mem_cons_of_mem n hm, t, ht, hd⟩

end

theorem takeWhile_no_slash_append {a s : Str} (ha : '/' ∉ a)
    (hs : s = [] ∨ ∃ u, s = '/' :: u) :
    (a ++ s).takeWhile (fun c => !decide (c = '/')) = a := by
  induction a with
  | nil =>
    rcases hs with hs | ⟨u, hs⟩ <;> subst hs <;> simp [List.takeWhile]
  | cons c a' ih =>
    have hc : ¬ c = '/' := fun he => ha (he ▸ List.mem_cons_self c a')
    rw [List.cons_append, List.takeWhile_cons]
    simp only [hc, decide_False, Bool.not_false, if_true]
    rw [ih (fun hm => ha (List.mem_cons_of_mem c hm))]

/-- Two separator-free segments followed by empty-or-separator-led tails can
only concatenate to the same string if the segments agree. -/
theorem seg_eq {a b s t : Str} (ha : '/' ∉ a) (hb : '/' ∉ b)
    (hs : s = [] ∨ ∃ u, s = '/' :: u) (ht : t = [] ∨ ∃ u, t = '/' :: u)
    (h : a ++ s = b ++ t) : a = b := by
  have h1 := takeWhile_no_slash_append ha hs
  have h2 := takeWhile_no_slash_append hb ht
  rw [h] at h1
  exact h1.symm.trans h2

mutual

/-- The paths of one node's flatten block are pairwise distinct for a
well-formed subtree. -/
theorem flatten_node_paths_nodup (pp : Str) (n : CNode)
    (h : good_node n = true) :
    ((flatten_node pp n).map fun r => r.path).Nodup := by
  cases n with
  | mk tx i sys num data =>
    rw [flatten_node, List.map_append, List.nodup_append]
    refine ⟨flatten_nodes_paths_nodup _ data (by rwa [good_node] at h), by simp, ?_⟩
    intro p hp hq
    simp only [List.map_cons, List.map_nil, List.mem_singleton] at hq
    simp only [List.mem_map] at hp
    obtain ⟨r, hr, hrp⟩ := hp
    obtain ⟨c, _, t', ht', _⟩ :=
      flatten_nodes_path_shape (pp ++ '/' :: escapeName tx) data r hr
    subst hq
    rw [← hrp] at ht'
    have hlen := congrArg List.length ht'
    rw [List.length_append] at hlen
    simp at hlen

/-- The paths of a well-formed forest's flatten are pairwise distinct. -/
theorem flatten_nodes_paths_nodup (pp : Str) (ns : List CNode)
    (h : good_nodes ns = true) :
    ((flatten_nodes pp ns).map fun r => r.path).Nodup := by
  cases ns with
  | nil => simp [flatten_nodes]
  | cons n rest =>
    rw [good_nodes] at h
    simp only [Bool.and_eq_true, List.all_eq_true, Bool.not_eq_true',
      decide_eq_false_iff_not] at h
    obtain ⟨⟨hn, hrest⟩, hdistinct⟩ := h
    rw [flatten_nodes, List.map_append, List.nodup_append]
    refine ⟨flatten_node_paths_nodup pp n hn,
      flatten_nodes_paths_nodup pp rest hrest, ?_⟩
    intro p hp hq
    simp only [List.mem_map] at hp hq
    obtain ⟨r1, hr1, hp1⟩ := hp
    obtain ⟨r2, hr2, hp2⟩ := hq
    obtain ⟨t1, ht1, hd1⟩ := flatten_node_path_shape pp n r1 hr1
    obtain ⟨m, hm, t2, ht2, hd2⟩ := flatten_nodes_path_shape pp rest r2 hr2
    have heq : r1.path = r2.path := by rw [hp1, hp2]
    rw [ht1, ht2] at heq
    have h0 := List.append_cancel_left heq
    have h2 : escapeName (cnode_text n) ++ t1 = escapeName (cnode_text m) ++ t2 :=
      List.cons_injective.eq_iff.mp h0
    exact hdistinct m hm
      (seg_eq (escapeName_no_slash _) (escapeName_no_slash _) hd1 hd2 h2)

end

mutual

/-- Every row of one node's block has a path of the form
`q + '/' + escape(text)` where `q` is the parent path `pp` itself or the path
of another row of the block. -/
theorem flatten_node_parent (pp : Str) (n : CNode) :
    ∀ r ∈ flatten_node pp n, ∃ q, r.path = q ++ '/' :: escapeName r.text ∧
      (q = pp ∨ ∃ r' ∈ flatten_node pp n, r'.path = q) := by
  cases n with
  | mk tx i sys num data =>
    intro r hr
    rw [flatten_node, List.mem_append] at hr
    rcases hr with hr | hr
    · obtain ⟨q, hq, hd⟩ :=
        flatten_nodes_parent (pp ++ '/' :: escapeName tx) data r hr
      refine ⟨q, hq, Or.inr ?_⟩
      rcases hd with hd | ⟨r', hr', hp'⟩
      · refine ⟨⟨pp ++ '/' :: escapeName tx, tx, i, sys, num⟩, ?_, hd.symm ▸ rfl⟩
        rw [flatten_node, List.mem_append]
        exact Or.inr (List.mem_singleton.mpr rfl)
      · refine ⟨r', ?_, hp'⟩
        rw [flatten_node, List.mem_append]
        exact Or.inl hr'
    · rw [List.mem_singleton] at hr
      subst hr
      exact ⟨pp, rfl, Or.inl rfl⟩

/-- Every row of a forest's flatten has a path of the form
`q + '/' + escape(text)` where `q` is the ambient parent path or the path of
another row. -/
theorem flatten_nodes_parent (pp : Str) (ns : List CNode) :
    ∀ r ∈ flatten_nodes pp ns, ∃ q, r.path = q ++ '/' :: escapeName r.text ∧
      (q = pp ∨ ∃ r' ∈ flatten_nodes pp ns, r'.path = q) := by
  cases ns with
  | nil => intro r hr; simp [flatten_nodes] at hr
  | cons n rest =>
    intro r hr
    rw [flatten_nodes, List.mem_append] at hr
    rcases hr with hr | hr
    · obtain ⟨q, hq, hd⟩ := flatten_node_parent pp n r hr
      refine ⟨q, hq, ?_⟩
      rcases hd with hd | ⟨r', hr', hp'⟩
      · exact Or.inl hd
      · refine Or.inr ⟨r', ?_, hp'⟩
        rw [flatten_nodes, List.mem_append]
        exact Or.inl hr'
    · obtain ⟨q, hq, hd⟩ := flatten_nodes_parent pp rest r hr
      refine ⟨q, hq, ?_⟩
      rcases hd with hd | ⟨r', hr', hp'⟩
      · exact Or.inl hd
      · refine Or.inr ⟨r', ?_, hp'⟩
        rw [flatten_nodes, List.mem_append]
        exact Or.inr hr'

end

/-- Stripping the system root from the path of one of its descendants leaves
the descendant's path relative to the root. -/
theorem stripRoot_root_desc {e t : Str} (he : ¬ e = []) (hes : '/' ∉ e) :
    stripRoot (('/' :: e) ++ '/' :: t) = '/' :: t := by
  obtain ⟨c, e', rfl, hc⟩ : ∃ c e', e = c :: e' ∧ ¬ c = '/' := by
    cases e with
    | nil => exact absurd rfl he
    | cons c e' =>
      exact ⟨c, e', rfl, fun h => hes (h ▸ List.mem_cons_self c e')⟩
  have hs : ('/' :: (c :: e')) ++ '/' :: t = '/' :: ((c :: e') ++ '/' :: t) := by
    simp
  rw [hs, stripRoot]
  have h1 : ('/' :: ((c :: e') ++ '/' :: t)).takeWhile
      (fun x => decide (x = '/')) = ['/'] := by
    rw [List.takeWhile_cons, List.cons_append, List.takeWhile_cons]
    simp [hc]
  have h2 : ((c :: e') ++ '/' :: t).takeWhile (fun x => !decide (x = '/')) =
      c :: e' := takeWhile_no_slash_append hes (Or.inr ⟨t, rfl⟩)
  rw [h1]
  simp only [List.length_cons, List.length_nil, List.drop_succ_cons,
    List.drop_zero]
  rw [h2, if_neg (by simp)]
  exact List.drop_left _ _

theorem length_filter_split (l : List FlatRow) :
    (l.filter fun r => !r.isSystem).length =
      l.length - (l.filter fun r => r.isSystem).length := by
  induction l with
  | nil => rfl
  | cons r rest ih =>
    have hle := List.length_filter_le (fun r : FlatRow => r.isSystem) rest
    cases hr : r.isSystem <;>
      simp [List.filter_cons, hr, ih] <;> omega

/-- C6 counterexample: the tree `c6tree` has two sibling nodes with DISTINCT
names `a/b` and `a\b` (so the claim's precondition of no duplicate sibling
names holds), yet both rows flatten to the same path `/a\b`, so the returned
paths are not pairwise distinct. -/
theorem c6_counterexample :
    ¬ str "a/b" = str "a\\b" ∧
      ((list_categories (str "account") true c6tree).map fun r => r.path) =
        [str "/a\\b", str "/a\\b"] ∧
      ¬ ((list_categories (str "account") true c6tree).map
          fun r => r.path).Nodup := by
  decide

/-- C6 (amended): for a nested tree in which no two siblings at any level
share the same ESCAPED name (and, when the stripped `file` view is taken, the
tree is the single system root with a nonempty name), `list_categories`
returns exactly one row per node — minus the system rows when
`include_system` is false — with pairwise distinct paths; every flattened
row's path is its parent row's path (or the empty root prefix) followed by
`'/'` and its escaped name; and the result is sorted by path. -/
theorem c6_flatten_roundtrip (resource : Str) (include_system : Bool)
    (tree : List CNode) (hgood : good_nodes tree = true)
    (hfile : resource = str "file" → include_system = false →
      ∃ root, tree = [root] ∧ cnode_sys root = true ∧ ¬ cnode_text root = []) :
    (list_categories resource include_system tree).length =
        cnodes_count tree -
          (if include_system then 0 else cnodes_sys_count tree) ∧
      ((list_categories resource include_system tree).map
          fun r => r.path).Nodup ∧
      (∀ r ∈ flatten_nodes [] tree, ∃ q,
        r.path = q ++ '/' :: escapeName r.text ∧
          (q = [] ∨ ∃ r' ∈ flatten_nodes [] tree, r'.path = q)) ∧
      (list_categories resource include_system tree).Pairwise
        fun a b => pyLe a.path b.path = true := by
  have hsorted : ∀ l : List FlatRow, (sort_rows l).Pairwise
      fun a b => pyLe a.path b.path = true := by
    intro l
    refine pairwise_isort (fun a b => pyLe a.path b.path) ?_ ?_ l
    · exact fun a b => pyLe_total a.path b.path
    · exact fun a b c hab hbc => pyLe_trans hab hbc
  have hnodup_sort : ∀ l : List FlatRow,
      ((l.map fun r => r.path).Nodup) →
        ((sort_rows l).map fun r => r.path).Nodup := by
    intro l h
    exact (List.Perm.nodup_iff (List.Perm.map _ (isort_perm _ l))).mpr h
  refine ⟨?_, ?_, fun r hr => flatten_nodes_parent [] tree r hr, ?_⟩
  · -- row count
    unfold list_categories
    cases include_system with
    | true =>
      simp only [if_true]
      rw [sort_rows, length_isort, flatten_nodes_length]
      omega
    | false =>
      simp only [Bool.false_eq_true, if_false]
      by_cases hf : resource = str "file"
      · rw [if_pos hf, sort_rows, length_isort, List.length_map,
          length_filter_split, flatten_nodes_length, flatten_nodes_sys_count]
      · rw [if_neg hf, sort_rows, length_isort, length_filter_split,
          flatten_nodes_length, flatten_nodes_sys_count]
  · -- path uniqueness
    unfold list_categories
    cases include_system with
    | true =>
      simp only [if_true]
      exact hnodup_sort _ (flatten_nodes_paths_nodup [] tree hgood)
    | false =>
      simp only [Bool.false_eq_true, if_false]
      have hkept : (((flatten_nodes [] tree).filter
          (fun r => !r.isSystem)).map (fun r => r.path)).Nodup := by
        refine List.Nodup.sublist ?_ (flatten_nodes_paths_nodup [] tree hgood)
        exact List.Sublist.map _ (List.filter_sublist _)
      by_cases hf : resource = str "file"
      · rw [if_pos hf]
        refine hnodup_sort _ ?_
        obtain ⟨root, htree, hsys, hname⟩ := hfile hf rfl
        subst htree
        rw [List.map_map]
        have hpaths : ∀ r ∈ (flatten_nodes [] [root]).filter
            (fun r => !r.isSystem), ∃ t,
            r.path = ('/' :: escapeName (cnode_text root)) ++ '/' :: t := by
          intro r hr
          rw [List.mem_filter] at hr
          obtain ⟨hmem, hnonsys⟩ := hr
          cases root with
          | mk tx i sys num data =>
            rw [show flatten_nodes [] [CNode.mk tx i sys num data] =
                flatten_node [] (CNode.mk tx i sys num data) from by
              rw [flatten_nodes, flatten_nodes, List.append_nil]] at hmem
            rw [flatten_node, List.mem_append] at hmem
            rcases hmem with hmem | hmem
            · obtain ⟨c, _, t', ht', _⟩ := flatten_nodes_path_shape
                ([] ++ '/' :: escapeName tx) data r hmem
              refine ⟨escapeName (cnode_text c) ++ t', ?_⟩
              rw [ht']
              simp [cnode_text]
            · rw [List.mem_singleton] at hmem
              subst hmem
              rw [cnode_sys] at hsys
              simp [hsys] at hnonsys
        have hE : ¬ escapeName (cnode_text root) = [] := by
          intro h
          refine hname ?_
          cases hcn : cnode_text root with
          | nil => rfl
          | cons a l => rw [hcn] at h; simp [escapeName] at h
        have hcomp : ((flatten_nodes [] [root]).filter
              (fun r => !r.isSystem)).map
                ((fun r : FlatRow => r.path) ∘
                  (fun r => { r with path := stripRoot r.path })) =
            ((flatten_nodes [] [root]).filter
              (fun r => !r.isSystem)).map (fun r => stripRoot r.path) := rfl
        rw [hcomp]
        have hmapmap : ((flatten_nodes [] [root]).filter
              (fun r => !r.isSystem)).map (fun r => stripRoot r.path) =
            (((flatten_nodes [] [root]).filter
              (fun r => !r.isSystem)).map (fun r => r.path)).map stripRoot := by
          rw [List.map_map]
          rfl
        rw [hmapmap]
        refine List.Nodup.map_on ?_ hkept
        intro x hx y hy hxy
        rw [List.mem_map] at hx hy
        obtain ⟨rx, hrx, hpx⟩ := hx
        obtain ⟨ry, hry, hpy⟩ := hy
        obtain ⟨tx2, htx⟩ := hpaths rx hrx
        obtain ⟨ty2, hty⟩ := hpaths ry hry
        subst hpx hpy
        rw [htx, hty] at hxy ⊢
        rw [stripRoot_root_desc hE (escapeName_no_slash _),
          stripRoot_root_desc hE (escapeName_no_slash _)] at hxy
        rw [hxy]
      · rw [if_neg hf]
        exact hnodup_sort _ hkept
  · -- sortedness
    unfold list_categories
    exact hsorted _

/-- Witness for C6 at a concrete single-system-root file tree: three nodes,
one of them system, give two rows with distinct paths. -/
theorem c6_flatten_roundtrip_witness :
    (list_categories (str "file") false c6wtree).length = 2 ∧
      ((list_categories (str "file") false c6wtree).map
        fun r => r.path).Nodup := by
  have h := c6_flatten_roundtrip (str "file") false c6wtree (by decide)
    (fun _ _ => ⟨CNode.mk (str "Files") 1 true none
      [CNode.mk (str "a") 2 false none [], CNode.mk (str "b") 3 false none []],
      rfl, by decide, by decide⟩)
  refine ⟨?_, h.2.1⟩
  rw [h.1]
  decide

/-- The `toDelete` component of the result is whatever the deletion step
computed, independent of the later steps. -/
theorem update_categories_toDelete (resource : Str) (target : Target)
    (deleteFlag ignore : Bool) (order : List Str) (server : List Category)
    (nextId : Nat)
    (h : ¬ ((resource = str "account" ∧ is_dict target = false) ∨
        (¬ resource = str "account" ∧ is_dict target = true))) :
    (update_categories resource target deleteFlag ignore order server
        nextId).toDelete =
      (delete_stage resource target deleteFlag ignore (sort_cat_rows server)
        (dict_of_rows (sort_cat_rows server)) server).1 := by
  unfold update_categories
  rw [if_neg h]
  dsimp only
  rcases hds : delete_stage resource target deleteFlag ignore
    (sort_cat_rows server) (dict_of_rows (sort_cat_rows server)) server with
    ⟨tds, trace1, res⟩
  cases res with
  | error e => rfl
  | ok v =>
    rcases v with ⟨ids, cats1, server1⟩
    dsimp only
    rcases hrn : renumber_stage resource ignore target (sort_cat_rows server)
      server1 trace1 with ⟨server2, trace2, e2⟩
    cases e2 with
    | some e => rfl
    | none => rfl

/-- Full result when the deletion step aborts. -/
theorem uc_delete_error (resource : Str) (target : Target)
    (deleteFlag ignore : Bool) (order : List Str) (server : List Category)
    (nextId : Nat) (tds : List Str) (trace1 : List ApiCall) (e : UErr)
    (h : ¬ ((resource = str "account" ∧ is_dict target = false) ∨
        (¬ resource = str "account" ∧ is_dict target = true)))
    (hds : delete_stage resource target deleteFlag ignore
        (sort_cat_rows server) (dict_of_rows (sort_cat_rows server)) server =
      (tds, trace1, .error e)) :
    update_categories resource target deleteFlag ignore order server nextId =
      { err := some e, trace := trace1, server := server, toDelete := tds,
        deletedIds := [],
        catsAfterDelete := dict_of_rows (sort_cat_rows server), created := [],
        cats := dict_of_rows (sort_cat_rows server), nextId := nextId } := by
  unfold update_categories
  rw [if_neg h]
  dsimp only
  rw [hds]

/-- Full result when deletion succeeds and the renumber step aborts. -/
theorem uc_renumber_error (resource : Str) (target : Target)
    (deleteFlag ignore : Bool) (order : List Str) (server : List Category)
    (nextId : Nat) (tds : List Str) (trace1 trace2 : List ApiCall)
    (ids : List Nat) (cats1 : List (Str × Nat)) (server1 server2 : List Category)
    (e : UErr)
    (h : ¬ ((resource = str "account" ∧ is_dict target = false) ∨
        (¬ resource = str "account" ∧ is_dict target = true)))
    (hds : delete_stage resource target deleteFlag ignore
        (sort_cat_rows server) (dict_of_rows (sort_cat_rows server)) server =
      (tds, trace1, .ok (ids, cats1, server1)))
    (hrn : renumber_stage resource ignore target (sort_cat_rows server)
        server1 trace1 = (server2, trace2, some e)) :
    update_categories resource target deleteFlag ignore order server nextId =
      { err := some e, trace := trace2, server := server2, toDelete := tds,
        deletedIds := ids, catsAfterDelete := cats1, created := [],
        cats := cats1, nextId := nextId } := by
  unfold update_categories
  rw [if_neg h]
  dsimp only
  rw [hds]
  dsimp only
  rw [hrn]

/-- Full result when deletion and renumbering pass and the create step runs
to its end state (which may itself carry an error). -/
theorem uc_create_result (resource : Str) (target : Target)
    (deleteFlag ignore : Bool) (order : List Str) (server : List Category)
    (nextId : Nat) (tds : List Str) (trace1 trace2 : List ApiCall)
    (ids : List Nat) (cats1 : List (Str × Nat)) (server1 server2 : List Category)
    (st : UCState) (e : Option UErr)
    (h : ¬ ((resource = str "account" ∧ is_dict target = false) ∨
        (¬ resource = str "account" ∧ is_dict target = true)))
    (hds : delete_stage resource target deleteFlag ignore
        (sort_cat_rows server) (dict_of_rows (sort_cat_rows server)) server =
      (tds, trace1, .ok (ids, cats1, server1)))
    (hrn : renumber_stage resource ignore target (sort_cat_rows server)
        server1 trace1 = (server2, trace2, none))
    (hcl : create_loop resource target (missing_leaves target cats1 order)
        { server := server2, cats := cats1, trace := trace2, created := [],
          nextId := nextId } = (st, e)) :
    update_categories resource target deleteFlag ignore order server nextId =
      { err := e, trace := st.trace, server := st.server, toDelete := tds,
        deletedIds := ids, catsAfterDelete := cats1, created := st.created,
        cats := st.cats, nextId := st.nextId } := by
  unfold update_categories
  rw [if_neg h]
  dsimp only
  rw [hds]
  dsimp only
  rw [hrn]
  dsimp only
  rw [hcl]

/-- Membership in the deletion step's `to_delete` for a dict target without
the root filter: exactly the fetched paths not covered by a target key. -/
theorem delete_stage_fst_mem_dict (resource : Str) (m : List (Str × Int))
    (rows : List Category) (cats0 : List (Str × Nat))
    (server : List Category) (p : Str) :
    p ∈ (delete_stage resource (.dict m) true false rows cats0 server).1 ↔
      p ∈ rows.map (fun r => r.path) ∧
        ¬ covered (m.map fun e => e.1) p = true := by
  have hct : compute_to_delete resource (.dict m) false rows =
      .ok ((rows.map fun r => r.path).filter
        fun q => !(covered (m.map fun e => e.1) q)) := by
    rw [compute_to_delete]
    simp
  rw [delete_stage]
  simp only [if_true]
  rw [hct]
  dsimp only
  set td := (rows.map fun r => r.path).filter
    fun q => !(covered (m.map fun e => e.1) q) with htd
  have hmem_td : p ∈ td ↔ p ∈ rows.map (fun r => r.path) ∧
      ¬ covered (m.map fun e => e.1) p = true := by
    rw [htd, List.mem_filter]
    simp
  by_cases h0 : td.isEmpty
  · rw [if_pos h0]
    dsimp only
    rw [List.isEmpty_iff] at h0
    constructor
    · intro hp
      exact absurd hp (List.not_mem_nil p)
    · intro hp
      have := hmem_td.mpr hp
      rw [h0] at this
      exact absurd this (List.not_mem_nil p)
  · rw [if_neg h0]
    have hsr : p ∈ sort_reverse td ↔ p ∈ td := mem_isort _
    cases hp : pop_ids cats0 (sort_reverse td) with
    | error e =>
      dsimp only
      rw [hsr, hmem_td]
    | ok v =>
      rcases v with ⟨ids, cats1⟩
      dsimp only
      cases hsv : server_delete resource server ids with
      | error e =>
        dsimp only
        rw [hsr, hmem_td]
      | ok server1 =>
        dsimp only
        rw [hsr, hmem_td]

-- ----------------------------------------------------------------------
-- Claim C1

/-- C1: the deletion-selection claim holds for the `account` resource — for
every state and dict target, `to_delete` consists exactly of the existing
paths no target path equals or extends — but FAILS for every other resource:
with a list-shaped target (here: as `mirror_directory` would pass it) and at
least one existing category, the call dies with an `AttributeError` from
`pd.Series(target).unique().str` before selecting anything, issuing no remote
call at all. -/
theorem c1_to_delete_selection :
    (∀ (m : List (Str × Int)) (order : List Str) (server : List Category)
        (nextId : Nat) (p : Str),
      p ∈ (update_categories (str "account") (.dict m) true false order
          server nextId).toDelete ↔
        (∃ r ∈ server, r.path = p) ∧
          ¬ covered (m.map fun e => e.1) p = true) ∧
      (update_categories (str "file") (.list [str "/keep"]) true false
          [str "/keep"] [c1row] 0).err = some .attrError ∧
      (update_categories (str "file") (.list [str "/keep"]) true false
          [str "/keep"] [c1row] 0).trace = [] := by
  refine ⟨?_, by decide, by decide⟩
  intro m order server nextId p
  rw [update_categories_toDelete _ _ _ _ _ _ _ (by simp [is_dict]),
    delete_stage_fst_mem_dict]
  have hrows : ∀ q : Str, q ∈ (sort_cat_rows server).map (fun r => r.path) ↔
      ∃ r ∈ server, r.path = q := by
    intro q
    rw [List.mem_map]
    constructor
    · rintro ⟨r, hr, he⟩
      exact ⟨r, (mem_isort _).mp hr, he⟩
    · rintro ⟨r, hr, he⟩
      exact ⟨r, (mem_isort _).mpr hr, he⟩
  rw [hrows]

/-- Characterization of one walk step: either the node path is known and
nothing happens, or the step aborts, or exactly one create call is issued
with the dict, server, trace, created list and fresh-id counter advanced. -/
theorem walk_step_spec (r : Str) (t : Target) (leaf : Str) (ns : List Str)
    (i : Nat) (st : UCState) :
    (dmem st.cats (joinSlash (ns.take (i + 1))) = true ∧
      walk_step r t leaf ns i st = (st, none)) ∨
    (∃ e, walk_step r t leaf ns i st = (st, some e)) ∨
    (dmem st.cats (joinSlash (ns.take (i + 1))) = false ∧
      ∃ pid num,
        walk_step r t leaf ns i st =
          ({ server := server_create st.server (unescapeName (ns.getD i []))
               pid num st.nextId,
             cats := dinsert st.cats (joinSlash (ns.take (i + 1))) st.nextId,
             trace := st.trace ++
               [.createCategory (unescapeName (ns.getD i [])) pid num
                 st.nextId],
             created := st.created ++ [joinSlash (ns.take (i + 1))],
             nextId := st.nextId + 1 }, none) ∧
        ((joinSlash (ns.take i) = [] ∧ pid = none ∧ ¬ r = str "account") ∨
          (¬ joinSlash (ns.take i) = [] ∧ ∃ q, pid = some q ∧
            dget st.cats (joinSlash (ns.take i)) = some q))) := by
  rw [walk_step.eq_def]
  cases hmem : dmem st.cats (joinSlash (ns.take (i + 1))) with
  | true =>
    left
    refine ⟨rfl, ?_⟩
    simp [hmem]
  | false =>
    right
    simp only [hmem, Bool.false_eq_true, if_false]
    by_cases hpp : joinSlash (ns.take i) = []
    · rw [if_neg (not_not_intro hpp)]
      by_cases hacc : r = str "account"
      · rw [if_pos hacc]
        exact Or.inl ⟨.rootCreation, rfl⟩
      · rw [if_neg hacc]
        dsimp only
        cases hnum : (if r = str "account" then
            match t with
            | .dict m =>
                match dget m leaf with
                | some n => Except.ok (some n)
                | none => Except.error UErr.keyError
            | .list _ => Except.error UErr.keyError
          else Except.ok none : Except UErr (Option Int)) with
        | error e => exact Or.inl ⟨e, rfl⟩
        | ok num =>
          exact Or.inr ⟨trivial, none, num, rfl, Or.inl ⟨hpp, rfl, hacc⟩⟩
    · rw [if_pos hpp]
      cases hget : dget st.cats (joinSlash (ns.take i)) with
      | none => exact Or.inl ⟨.keyError, rfl⟩
      | some q =>
        dsimp only
        cases hnum : (if r = str "account" then
            match t with
            | .dict m =>
                match dget m leaf with
                | some n => Except.ok (some n)
                | none => Except.error UErr.keyError
            | .list _ => Except.error UErr.keyError
          else Except.ok none : Except UErr (Option Int)) with
        | error e => exact Or.inl ⟨e, rfl⟩
        | ok num =>
          exact Or.inr ⟨trivial, some q, num, rfl, Or.inr ⟨hpp, q, rfl, rfl⟩⟩

/-- Running the walk over any index list only grows the dict, appends
node paths to `created` (each indexed by a walked index), and appends only
create calls to the trace. -/
theorem walk_idxs_effects (r : Str) (t : Target) (l : Str) (ns : List Str)
    (idxs : List Nat) (st st' : UCState) (e : Option UErr)
    (h : walk_idxs r t l ns idxs st = (st', e)) :
    (∀ k, dmem st.cats k = true → dmem st'.cats k = true) ∧
      (∃ newc, st'.created = st.created ++ newc ∧
        ∀ p ∈ newc, ∃ i ∈ idxs, p = joinSlash (ns.take (i + 1))) ∧
      ∃ newt, st'.trace = st.trace ++ newt ∧
        ∀ c ∈ newt, isCreateCat c = true := by
  induction idxs generalizing st with
  | nil =>
    rw [walk_idxs] at h
    injection h with h1 h2
    subst h1
    exact ⟨fun k hk => hk, ⟨[], by simp⟩, [], by simp⟩
  | cons i rest ih =>
    rw [walk_idxs] at h
    rcases walk_step_spec r t l ns i st with ⟨_, hstep⟩ | ⟨e0, hstep⟩ |
      ⟨_, pid, num, hstep, _⟩
    · rw [hstep] at h
      obtain ⟨hm, ⟨newc, hn1, hn2⟩, newt, ht1, ht2⟩ := ih st h
      refine ⟨hm, ⟨newc, hn1, fun p hp => ?_⟩, newt, ht1, ht2⟩
      obtain ⟨j, hj, hpj⟩ := hn2 p hp
      exact ⟨j, List.mem_cons_of_mem _ hj, hpj⟩
    · rw [hstep] at h
      injection h with h1 h2
      subst h1
      exact ⟨fun k hk => hk, ⟨[], by simp⟩, [], by simp⟩
    · rw [hstep] at h
      obtain ⟨hmono, ⟨newc, hnewc, hnewc2⟩, newt, hnewt, hnewt2⟩ := ih _ h
      refine ⟨?_, ⟨joinSlash (ns.take (i + 1)) :: newc, ?_, ?_⟩,
        ApiCall.createCategory (unescapeName (ns.getD i [])) pid num
          st.nextId :: newt, ?_, ?_⟩
      · intro k hk
        exact hmono k (by rw [dmem_dinsert]; exact Or.inr hk)
      · rw [hnewc]
        simp
      · intro p hp
        rcases List.mem_cons.mp hp with hp | hp
        · exact ⟨i, List.mem_cons_self _ _, hp⟩
        · obtain ⟨j, hj, hpj⟩ := hnewc2 p hp
          exact ⟨j, List.mem_cons_of_mem _ hj, hpj⟩
      · rw [hnewt]
        simp
      · intro c hc
        rcases List.mem_cons.mp hc with hc | hc
        · rw [hc]
          rfl
        · exact hnewt2 c hc

/-- After a successful walk, every walked node path is in the dict. -/
theorem walk_idxs_covers (r : Str) (t : Target) (l : Str) (ns : List Str)
    (idxs : List Nat) (st st' : UCState)
    (h : walk_idxs r t l ns idxs st = (st', none)) :
    ∀ i ∈ idxs, dmem st'.cats (joinSlash (ns.take (i + 1))) = true := by
  induction idxs generalizing st with
  | nil => intro i hi; exact absurd hi (List.not_mem_nil i)
  | cons j rest ih =>
    rw [walk_idxs] at h
    intro i hi
    rcases walk_step_spec r t l ns j st with ⟨hknown, hstep⟩ | ⟨e0, hstep⟩ |
      ⟨_, pid, num, hstep, _⟩
    · rw [hstep] at h
      rcases List.mem_cons.mp hi with hi | hi
      · subst hi
        exact (walk_idxs_effects r t l ns rest _ st' none h).1 _ hknown
      · exact ih st h i hi
    · rw [hstep] at h
      injection h with h1 h2
      exact absurd h2.symm (by simp)
    · rw [hstep] at h
      rcases List.mem_cons.mp hi with hi | hi
      · subst hi
        refine (walk_idxs_effects r t l ns rest _ st' none h).1 _ ?_
        rw [dmem_dinsert]
        exact Or.inl rfl
      · exact ih _ h i hi

/-- The dict of a walk state stays in step with the created list: a key is
known exactly when it was known at the start of the create phase or has been
created. -/
theorem walk_idxs_keys (r : Str) (t : Target) (l : Str) (ns : List Str)
    (idxs : List Nat) (cats1 : List (Str × Nat)) (st st' : UCState)
    (e : Option UErr) (h : walk_idxs r t l ns idxs st = (st', e))
    (hkeys : ∀ k, dmem st.cats k = true ↔
      (dmem cats1 k = true ∨ k ∈ st.created)) :
    ∀ k, dmem st'.cats k = true ↔
      (dmem cats1 k = true ∨ k ∈ st'.created) := by
  induction idxs generalizing st with
  | nil =>
    rw [walk_idxs] at h
    injection h with h1 h2
    subst h1
    exact hkeys
  | cons i rest ih =>
    rw [walk_idxs] at h
    rcases walk_step_spec r t l ns i st with ⟨_, hstep⟩ | ⟨e0, hstep⟩ |
      ⟨_, pid, num, hstep, _⟩
    · rw [hstep] at h
      exact ih st h hkeys
    · rw [hstep] at h
      injection h with h1 h2
      subst h1
      exact hkeys
    · rw [hstep] at h
      refine ih _ h ?_
      intro k
      dsimp only
      rw [dmem_dinsert, List.mem_append, List.mem_singleton, hkeys k]
      tauto

/-- Effects of the whole create loop: the dict only grows, every created
path is a proper join-prefix of one of the processed leaves, and only create
calls are appended to the trace. -/
theorem create_loop_effects (r : Str) (t : Target) (leaves : List Str)
    (st st' : UCState) (e : Option UErr)
    (h : create_loop r t leaves st = (st', e)) :
    (∀ k, dmem st.cats k = true → dmem st'.cats k = true) ∧
      (∃ newc, st'.created = st.created ++ newc ∧
        ∀ p ∈ newc, ∃ leaf ∈ leaves, ∃ i : Nat, 1 ≤ i ∧
          i < (splitSlash leaf).length ∧
          p = joinSlash ((splitSlash leaf).take (i + 1))) ∧
      ∃ newt, st'.trace = st.trace ++ newt ∧
        ∀ c ∈ newt, isCreateCat c = true := by
  induction leaves generalizing st with
  | nil =>
    rw [create_loop] at h
    injection h with h1 h2
    subst h1
    exact ⟨fun k hk => hk, ⟨[], by simp⟩, [], by simp⟩
  | cons leaf rest ih =>
    rw [create_loop] at h
    rcases hwl : walk_leaf r t leaf st with ⟨st1, e1⟩
    rw [hwl] at h
    have hlen : 1 ≤ (splitSlash leaf).length :=
      List.length_pos.mpr (splitSlashAux_ne_nil _ _)
    have hidx : ∀ i ∈ List.range' 1 ((splitSlash leaf).length - 1),
        1 ≤ i ∧ i < (splitSlash leaf).length := by
      intro i hi
      rw [List.mem_range'_1] at hi
      omega
    have hw := walk_idxs_effects r t leaf (splitSlash leaf)
      (List.range' 1 ((splitSlash leaf).length - 1)) st st1 e1 (by
        rw [walk_leaf] at hwl
        exact hwl)
    obtain ⟨hm1, ⟨newc1, hn11, hn12⟩, newt1, ht11, ht12⟩ := hw
    cases e1 with
    | some e0 =>
      injection h with h1 h2
      subst h1
      refine ⟨hm1, ⟨newc1, hn11, fun p hp => ?_⟩, newt1, ht11, ht12⟩
      obtain ⟨i, hi, hpi⟩ := hn12 p hp
      exact ⟨leaf, List.mem_cons_self _ _, i, (hidx i hi).1, (hidx i hi).2,
        hpi⟩
    | none =>
      obtain ⟨hm2, ⟨newc2, hn21, hn22⟩, newt2, ht21, ht22⟩ := ih st1 h
      refine ⟨fun k hk => hm2 k (hm1 k hk),
        ⟨newc1 ++ newc2, by rw [hn21, hn11, List.append_assoc],
          fun p hp => ?_⟩,
        newt1 ++ newt2, by rw [ht21, ht11, List.append_assoc], fun c hc => ?_⟩
      · rcases List.mem_append.mp hp with hp | hp
        · obtain ⟨i, hi, hpi⟩ := hn12 p hp
          exact ⟨leaf, List.mem_cons_self _ _, i, (hidx i hi).1,
            (hidx i hi).2, hpi⟩
        · obtain ⟨lf, hlf, i, h1, h2, h3⟩ := hn22 p hp
          exact ⟨lf, List.mem_cons_of_mem _ hlf, i, h1, h2, h3⟩
      · rcases List.mem_append.mp hc with hc | hc
        · exact ht12 c hc
        · exact ht22 c hc

/-- The dict/created correspondence survives the whole create loop. -/
theorem create_loop_keys (r : Str) (t : Target) (leaves : List Str)
    (cats1 : List (Str × Nat)) (st st' : UCState) (e : Option UErr)
    (h : create_loop r t leaves st = (st', e))
    (hkeys : ∀ k, dmem st.cats k = true ↔
      (dmem cats1 k = true ∨ k ∈ st.created)) :
    ∀ k, dmem st'.cats k = true ↔
      (dmem cats1 k = true ∨ k ∈ st'.created) := by
  induction leaves generalizing st with
  | nil =>
    rw [create_loop] at h
    injection h with h1 h2
    subst h1
    exact hkeys
  | cons leaf rest ih =>
    rw [create_loop] at h
    rcases hwl : walk_leaf r t leaf st with ⟨st1, e1⟩
    rw [hwl] at h
    have hk1 := walk_idxs_keys r t leaf (splitSlash leaf)
      (List.range' 1 ((splitSlash leaf).length - 1)) cats1 st st1 e1 (by
        rw [walk_leaf] at hwl
        exact hwl) hkeys
    cases e1 with
    | some e0 =>
      injection h with h1 h2
      subst h1
      exact hk1
    | none => exact ih st1 h hk1

/-- After a successful create loop, every processed leaf with at least two
segments is a known category. -/
theorem create_loop_leaf_done (r : Str) (t : Target) (leaves : List Str)
    (st st' : UCState) (h : create_loop r t leaves st = (st', none)) :
    ∀ leaf ∈ leaves, 2 ≤ (splitSlash leaf).length →
      dmem st'.cats leaf = true := by
  induction leaves generalizing st with
  | nil => intro leaf hl; exact absurd hl (List.not_mem_nil leaf)
  | cons lf rest ih =>
    rw [create_loop] at h
    intro leaf hl hlen2
    rcases hwl : walk_leaf r t lf st with ⟨st1, e1⟩
    rw [hwl] at h
    cases e1 with
    | some e0 =>
      injection h with h1 h2
      exact absurd h2.symm (by simp)
    | none =>
      rcases List.mem_cons.mp hl with hl | hl
      · subst hl
        have hcov := walk_idxs_covers r t leaf (splitSlash leaf)
          (List.range' 1 ((splitSlash leaf).length - 1)) st st1 (by
            rw [walk_leaf] at hwl
            exact hwl) ((splitSlash leaf).length - 1) (by
            rw [List.mem_range'_1]
            omega)
        have htake : (splitSlash leaf).take
            (((splitSlash leaf).length - 1) + 1) = splitSlash leaf := by
          refine List.take_of_length_le ?_
          omega
        rw [htake, joinSlash_splitSlash] at hcov
        exact (create_loop_effects r t rest st1 st' none h).1 leaf hcov
      · exact ih st1 h leaf hl hlen2

/-- Segment lists of created node paths are recovered by `splitSlash`. -/
theorem splitSlash_joinSlash_take (leaf : Str) (n : Nat) (hn : 1 ≤ n) :
    splitSlash (joinSlash ((splitSlash leaf).take n)) =
      (splitSlash leaf).take n := by
  refine splitSlash_joinSlash ?_ ?_
  · have : (splitSlash leaf).length ≠ 0 :=
      Nat.pos_iff_ne_zero.mp (List.length_pos.mpr (splitSlashAux_ne_nil _ _))
    intro hcon
    have := congrArg List.length hcon
    rw [List.length_take] at this
    simp only [List.length_nil] at this
    omega
  · intro l hl
    exact splitSlash_no_slash leaf l (List.mem_of_mem_take hl)

/-- Invariant of the walk within one leaf: every created path keeps all its
proper join-prefixes of length at least two in the dict, every created path
has at least two segments, and no created path is a strict ancestor of an
earlier created one. -/
theorem walk_idxs_anc (r : Str) (t : Target) (leaf : Str) (a k : Nat)
    (st st' : UCState) (e : Option UErr)
    (h : walk_idxs r t leaf (splitSlash leaf) (List.range' a k) st = (st', e))
    (ha : 1 ≤ a) (hak : a + k ≤ (splitSlash leaf).length)
    (hpre : ∀ j, 1 ≤ j → j < a →
      dmem st.cats (joinSlash ((splitSlash leaf).take (j + 1))) = true)
    (hanc : ∀ p ∈ st.created, ∀ m, 2 ≤ m → m < (splitSlash p).length →
      dmem st.cats (joinSlash ((splitSlash p).take m)) = true)
    (hlen : ∀ p ∈ st.created, 2 ≤ (splitSlash p).length)
    (hpw : st.created.Pairwise fun x y => ¬ strictAncestor y x) :
    (∀ p ∈ st'.created, ∀ m, 2 ≤ m → m < (splitSlash p).length →
      dmem st'.cats (joinSlash ((splitSlash p).take m)) = true) ∧
      (∀ p ∈ st'.created, 2 ≤ (splitSlash p).length) ∧
      st'.created.Pairwise fun x y => ¬ strictAncestor y x := by
  induction k generalizing a st with
  | zero =>
    rw [List.range'_zero, walk_idxs] at h
    injection h with h1 h2
    subst h1
    exact ⟨hanc, hlen, hpw⟩
  | succ k ih =>
    rw [List.range'_succ, walk_idxs] at h
    rcases walk_step_spec r t leaf (splitSlash leaf) a st with
      ⟨hknown, hstep⟩ | ⟨e0, hstep⟩ | ⟨habsent, pid, num, hstep, _⟩
    · rw [hstep] at h
      refine ih (a + 1) st h (by omega) (by omega) ?_ hanc hlen hpw
      intro j hj1 hj2
      by_cases hja : j = a
      · subst hja
        exact hknown
      · exact hpre j hj1 (by omega)
    · rw [hstep] at h
      injection h with h1 h2
      subst h1
      exact ⟨hanc, hlen, hpw⟩
    · rw [hstep] at h
      set np := joinSlash ((splitSlash leaf).take (a + 1)) with hnp
      have hsplit_np : splitSlash np = (splitSlash leaf).take (a + 1) :=
        splitSlash_joinSlash_take leaf (a + 1) (by omega)
      have hlen_np : (splitSlash np).length = a + 1 := by
        rw [hsplit_np, List.length_take]
        omega
    /- the new state satisfies the three invariants; then recurse -/
      refine ih (a + 1)
        { server := server_create st.server
            (unescapeName ((splitSlash leaf).getD a [])) pid num st.nextId,
          cats := dinsert st.cats np st.nextId,
          trace := st.trace ++ [.createCategory
            (unescapeName ((splitSlash leaf).getD a [])) pid num st.nextId],
          created := st.created ++ [np], nextId := st.nextId + 1 }
        h (by omega) (by omega) ?_ ?_ ?_ ?_
      · intro j hj1 hj2
        dsimp only
        rw [dmem_dinsert]
        by_cases hja : j = a
        · subst hja
          exact Or.inl rfl
        · exact Or.inr (hpre j hj1 (by omega))
      · intro p hp m hm2 hmlt
        dsimp only at hp ⊢
        rw [dmem_dinsert]
        rcases List.mem_append.mp hp with hp | hp
        · exact Or.inr (hanc p hp m hm2 hmlt)
        · rw [List.mem_singleton] at hp
          subst hp
          rw [hlen_np] at hmlt
          right
          rw [hsplit_np, List.take_take, min_eq_left (by omega)]
          have hj := hpre (m - 1) (by omega) (by omega)
          have hm1 : m - 1 + 1 = m := by omega
          rw [hm1] at hj
          exact hj
      · intro p hp
        dsimp only at hp
        rcases List.mem_append.mp hp with hp | hp
        · exact hlen p hp
        · rw [List.mem_singleton] at hp
          subst hp
          omega
      · dsimp only
        rw [List.pairwise_append]
        refine ⟨hpw, by simp, ?_⟩
        intro x hx y hy
        rw [List.mem_singleton] at hy
        subst hy
        rintro ⟨hpref, hne⟩
        have hxs : splitSlash np ≠ splitSlash x := by
          intro hcon
          refine hne ?_
          have := congrArg joinSlash hcon
          rwa [joinSlash_splitSlash, joinSlash_splitSlash] at this
        have hlt : (splitSlash np).length < (splitSlash x).length := by
          rcases Nat.lt_or_ge (splitSlash np).length
            (splitSlash x).length with hl | hl
          · exact hl
          · exfalso
            refine hxs ?_
            obtain ⟨u, hu⟩ := hpref
            have hule := congrArg List.length hu
            rw [List.length_append] at hule
            have : u = [] := by
              refine List.eq_nil_of_length_eq_zero ?_
              omega
            rw [this, List.append_nil] at hu
            exact hu
        have htk : (splitSlash x).take (splitSlash np).length =
            splitSlash np := by
          obtain ⟨u, hu⟩ := hpref
          rw [← hu, List.take_left]
        have := hanc x hx (splitSlash np).length (by omega) hlt
        rw [htk, joinSlash_splitSlash] at this
        rw [this] at habsent
        exact absurd habsent (by simp)

/-- The per-leaf invariants hold across the whole create loop. -/
theorem create_loop_anc (r : Str) (t : Target) (leaves : List Str)
    (st st' : UCState) (e : Option UErr)
    (h : create_loop r t leaves st = (st', e))
    (hanc : ∀ p ∈ st.created, ∀ m, 2 ≤ m → m < (splitSlash p).length →
      dmem st.cats (joinSlash ((splitSlash p).take m)) = true)
    (hlen : ∀ p ∈ st.created, 2 ≤ (splitSlash p).length)
    (hpw : st.created.Pairwise fun x y => ¬ strictAncestor y x) :
    (∀ p ∈ st'.created, ∀ m, 2 ≤ m → m < (splitSlash p).length →
      dmem st'.cats (joinSlash ((splitSlash p).take m)) = true) ∧
      (∀ p ∈ st'.created, 2 ≤ (splitSlash p).length) ∧
      st'.created.Pairwise fun x y => ¬ strictAncestor y x := by
  induction leaves generalizing st with
  | nil =>
    rw [create_loop] at h
    injection h with h1 h2
    subst h1
    exact ⟨hanc, hlen, hpw⟩
  | cons leaf rest ih =>
    rw [create_loop] at h
    rcases hwl : walk_leaf r t leaf st with ⟨st1, e1⟩
    rw [hwl] at h
    have hlenleaf : 1 ≤ (splitSlash leaf).length :=
      List.length_pos.mpr (splitSlashAux_ne_nil _ _)
    have hw := walk_idxs_anc r t leaf 1 ((splitSlash leaf).length - 1) st st1
      e1 (by rw [walk_leaf] at hwl; exact hwl) (le_refl 1) (by omega)
      (fun j hj1 hj2 => absurd (lt_of_le_of_lt hj1 hj2) (lt_irrefl 1))
      hanc hlen hpw
    cases e1 with
    | some e0 =>
      injection h with h1 h2
      subst h1
      exact hw
    | none => exact ih st1 h hw.1 hw.2.1 hw.2.2

/-- The deletion step only issues batched category delete calls. -/
theorem delete_stage_trace (resource : Str) (target : Target)
    (deleteFlag ignore : Bool) (rows : List Category)
    (cats0 : List (Str × Nat)) (server0 : List Category) :
    ∀ c ∈ (delete_stage resource target deleteFlag ignore rows cats0
      server0).2.1, isDeleteCat c = true := by
  rw [delete_stage]
  cases deleteFlag with
  | false => simp
  | true =>
    simp only [if_true]
    cases compute_to_delete resource target ignore rows with
    | error e => simp
    | ok td =>
      dsimp only
      by_cases h0 : td.isEmpty
      · rw [if_pos h0]
        simp
      · rw [if_neg h0]
        cases pop_ids cats0 (sort_reverse td) with
        | error e => simp
        | ok v =>
          rcases v with ⟨ids, cats1⟩
          dsimp only
          cases server_delete resource server0 ids with
          | error e =>
            intro c hc
            rw [List.mem_singleton] at hc
            subst hc
            rfl
          | ok server1 =>
            intro c hc
            rw [List.mem_singleton] at hc
            subst hc
            rfl

/-- The renumber loop only appends number-update calls to the trace. -/
theorem renumber_loop_trace (ignore : Bool) (tm : List (Str × Int))
    (rows : List Category) (server : List Category) (trace : List ApiCall) :
    ∃ app, (renumber_loop ignore tm rows server trace).2.1 = trace ++ app ∧
      ∀ c ∈ app, isUpdateNum c = true := by
  induction rows generalizing server trace with
  | nil =>
    rw [renumber_loop]
    exact ⟨[], by simp, by simp⟩
  | cons r rest ih =>
    rw [renumber_loop]
    cases dget tm r.path with
    | none => exact ih server trace
    | some v =>
      dsimp only
      by_cases hd : number_differs r.number v = true
      · rw [if_pos hd]
        by_cases hr : isRootPath r.path = true
        · rw [if_pos hr]
          cases ignore with
          | true => exact ih server trace
          | false => exact ⟨[], by simp, by simp⟩
        · rw [if_neg hr]
          obtain ⟨app, happ, happ2⟩ := ih (server_set_number server r.id v)
            (trace ++ [.updateCategoryNumber r.id r.text v r.parentId])
          refine ⟨.updateCategoryNumber r.id r.text v r.parentId :: app, ?_,
            ?_⟩
          · rw [happ, List.append_assoc]
            rfl
          · intro c hc
            rcases List.mem_cons.mp hc with hc | hc
            · rw [hc]
              rfl
            · exact happ2 c hc
      · rw [if_neg hd]
        exact ih server trace

/-- The renumber stage only appends number-update calls. -/
theorem renumber_stage_trace (resource : Str) (ignore : Bool) (t : Target)
    (rows server1 : List Category) (trace1 : List ApiCall) :
    ∃ app, (renumber_stage resource ignore t rows server1 trace1).2.1 =
      trace1 ++ app ∧ ∀ c ∈ app, isUpdateNum c = true := by
  rw [renumber_stage]
  by_cases hacc : resource = str "account"
  · rw [if_pos hacc]
    exact renumber_loop_trace ignore (tmapOf t) rows server1 trace1
  · rw [if_neg hacc]
    exact ⟨[], by simp, by simp⟩

/-- Number of popped ids equals the number of popped paths. -/
theorem pop_ids_length (cats : List (Str × Nat)) (ps : List Str)
    (ids : List Nat) (cats' : List (Str × Nat))
    (h : pop_ids cats ps = .ok (ids, cats')) : ids.length = ps.length := by
  induction ps generalizing cats ids with
  | nil =>
    rw [pop_ids] at h
    injection h with h1
    rw [Prod.mk.injEq] at h1
    rw [← h1.1]
    rfl
  | cons p rest ih =>
    rw [pop_ids] at h
    cases hp : dpop cats p with
    | none =>
      rw [hp] at h
      exact absurd h (by simp)
    | some v =>
      rcases v with ⟨i, cats1⟩
      rw [hp] at h
      dsimp only at h
      cases hrest : pop_ids cats1 rest with
      | error e =>
        rw [hrest] at h
        exact absurd h (by simp)
      | ok w =>
        rcases w with ⟨ids1, cats2⟩
        rw [hrest] at h
        dsimp only at h
        injection h with h1
        rw [Prod.mk.injEq] at h1
        obtain ⟨hA, hB⟩ := h1
        rw [hB] at hrest
        rw [← hA, List.length_cons, List.length_cons,
          ih cats1 ids1 hrest]

/-- In a reverse-sorted path list, no element is a strict string prefix of a
later element: children always precede their parents. -/
theorem sort_reverse_no_early_prefix (l : List Str) :
    (sort_reverse l).Pairwise fun a b => ¬ (a <+: b ∧ ¬ a = b) := by
  have hs := pairwise_isort (fun a b : Str => pyLe b a)
    (fun a b => pyLe_total b a)
    (fun a b c hab hbc => pyLe_trans hbc hab) l
  rw [sort_reverse]
  refine hs.imp ?_
  rintro a b hab ⟨hpref, hne⟩
  have hlt := pyLt_of_strict_prefix hpref hne
  simp only [pyLe] at hab
  rw [hlt] at hab
  exact absurd hab (by simp)

/-- In a trace that is a region of delete calls followed by a region without
delete calls in which all delete calls came first, every delete call indexes
before every create call. -/
theorem deletes_before_creates {tr t1 t2 : List ApiCall}
    (he : tr = t1 ++ t2) (h1 : ∀ c ∈ t1, isCreateCat c = false)
    (h2 : ∀ c ∈ t2, isDeleteCat c = false) :
    ∀ (i j : Nat) (hi : i < tr.length) (hj : j < tr.length),
      isDeleteCat (tr.get ⟨i, hi⟩) = true →
      isCreateCat (tr.get ⟨j, hj⟩) = true → i < j := by
  subst he
  intro i j hi hj hdel hcre
  rw [List.length_append] at hi hj
  by_cases hi1 : i < t1.length
  · by_cases hj1 : j < t1.length
    · exfalso
      have hget : (t1 ++ t2).get ⟨j, by rw [List.length_append]; omega⟩ =
          t1.get ⟨j, hj1⟩ := by
        simp [List.getElem_append_left hj1]
      rw [hget] at hcre
      have hmem := h1 _ (List.get_mem t1 j hj1)
      rw [hcre] at hmem
      exact absurd hmem (by simp)
    · omega
  · exfalso
    push_neg at hi1
    have hget : (t1 ++ t2).get ⟨i, by rw [List.length_append]; omega⟩ =
        t2.get ⟨i - t1.length, by omega⟩ := by
      simp [List.getElem_append_right hi1]
    rw [hget] at hdel
    have hmem := h2 _ (List.get_mem t2 (i - t1.length) (by omega))
    rw [hdel] at hmem
    exact absurd hmem (by simp)

/-- A category-delete call is not a create call. -/
theorem isCreateCat_eq_false_of_delete {c : ApiCall}
    (h : isDeleteCat c = true) : isCreateCat c = false := by
  cases c <;> simp_all [isCreateCat, isDeleteCat]

/-- A create call is not a delete call. -/
theorem isDeleteCat_eq_false_of_create {c : ApiCall}
    (h : isCreateCat c = true) : isDeleteCat c = false := by
  cases c <;> simp_all [isCreateCat, isDeleteCat]

/-- A number-update call is not a delete call. -/
theorem isDeleteCat_eq_false_of_update {c : ApiCall}
    (h : isUpdateNum c = true) : isDeleteCat c = false := by
  cases c <;> simp_all [isUpdateNum, isDeleteCat]

/-- Erasing a key removes its binding. -/
theorem dget_derase_self {α : Type} (m : List (Str × α)) (k : Str) :
    dget (derase m k) k = none := by
  induction m with
  | nil => rfl
  | cons e rest ih =>
    rcases e with ⟨k', v⟩
    rw [derase, List.filter_cons]
    by_cases hk : k' = k
    · rw [if_neg (by simp [hk])]
      exact ih
    · rw [if_pos (by simp [hk])]
      show dget ((k', v) :: derase rest k) k = none
      rw [dget]
      have ih' : dget (derase rest k) k = none := ih
      rw [ih', if_neg hk]

/-- Erasing one key leaves the other keys' bindings untouched. -/
theorem dget_derase_ne {α : Type} {m : List (Str × α)} {k q : Str}
    (h : ¬ k = q) : dget (derase m k) q = dget m q := by
  induction m with
  | nil => rfl
  | cons e rest ih =>
    rcases e with ⟨k', v⟩
    rw [derase, List.filter_cons]
    by_cases hk : k' = k
    · rw [if_neg (by simp [hk])]
      show dget (derase rest k) q = dget ((k', v) :: rest) q
      rw [ih, dget]
      cases hg : dget rest q with
      | some w => rfl
      | none =>
        rw [if_neg (by rw [hk]; exact h)]
    · rw [if_pos (by simp [hk])]
      show dget ((k', v) :: derase rest k) q = dget ((k', v) :: rest) q
      rw [dget, dget, ih]

/-- In a successful pop run the ids are the dict values of the popped paths,
in order: position `k` of the id list is the binding of position `k` of the
path list in the initial dict. -/
theorem pop_ids_align (cats : List (Str × Nat)) (ps : List Str)
    (ids : List Nat) (cats' : List (Str × Nat))
    (h : pop_ids cats ps = .ok (ids, cats')) :
    ∀ (k : Nat) (hk : k < ps.length) (hk2 : k < ids.length),
      dget cats (ps.get ⟨k, hk⟩) = some (ids.get ⟨k, hk2⟩) := by
  induction ps generalizing cats ids with
  | nil =>
    intro k hk
    exact absurd hk (by simp)
  | cons p rest ih =>
    rw [pop_ids] at h
    cases hp : dpop cats p with
    | none =>
      rw [hp] at h
      exact absurd h (by simp)
    | some v =>
      rcases v with ⟨i, cats1⟩
      rw [hp] at h
      dsimp only at h
      cases hrest : pop_ids cats1 rest with
      | error e =>
        rw [hrest] at h
        exact absurd h (by simp)
      | ok w =>
        rcases w with ⟨ids1, cats2⟩
        rw [hrest] at h
        dsimp only at h
        injection h with h1
        rw [Prod.mk.injEq] at h1
        obtain ⟨hA, hB⟩ := h1
        rw [hB] at hrest
        obtain ⟨hgv, hder⟩ := dpop_eq_some hp
        subst hA
        intro k hk hk2
        cases k with
        | zero => exact hgv
        | succ k' =>
          have hk' : k' < rest.length := by
            rw [List.length_cons] at hk
            omega
          have hk2' : k' < ids1.length := by
            rw [List.length_cons] at hk2
            omega
          have hih := ih cats1 ids1 hrest k' hk' hk2'
          by_cases hqp : rest.get ⟨k', hk'⟩ = p
          · exfalso
            rw [hqp, hder, dget_derase_self] at hih
            exact absurd hih (by simp)
          · have hq : dget cats1 (rest.get ⟨k', hk'⟩) =
                dget cats (rest.get ⟨k', hk'⟩) := by
              rw [hder]
              exact dget_derase_ne fun hc => hqp hc.symm
            rw [hq] at hih
            exact hih

/-- When the deletion step succeeds, its id list and dict are exactly the
result of popping the sorted `to_delete` paths from the initial dict. -/
theorem delete_stage_ok_inv (resource : Str) (target : Target)
    (deleteFlag ignore : Bool) (rows : List Category)
    (cats0 : List (Str × Nat)) (server0 : List Category)
    (tds : List Str) (trace1 : List ApiCall) (ids : List Nat)
    (cats1 : List (Str × Nat)) (server1 : List Category)
    (h : delete_stage resource target deleteFlag ignore rows cats0 server0 =
      (tds, trace1, .ok (ids, cats1, server1))) :
    pop_ids cats0 tds = .ok (ids, cats1) := by
  rw [delete_stage] at h
  cases deleteFlag with
  | false =>
    simp only [Bool.false_eq_true, if_false, Prod.mk.injEq,
      Except.ok.injEq] at h
    obtain ⟨h1, h2, h3, h4, h5⟩ := h
    subst h1
    rw [pop_ids, ← h3, ← h4]
  | true =>
    simp only [if_true] at h
    cases hct : compute_to_delete resource target ignore rows with
    | error e =>
      rw [hct] at h
      exact absurd h (by simp)
    | ok td =>
      rw [hct] at h
      dsimp only at h
      by_cases h0 : td.isEmpty
      · rw [if_pos h0] at h
        simp only [Prod.mk.injEq, Except.ok.injEq] at h
        obtain ⟨h1, h2, h3, h4, h5⟩ := h
        subst h1
        rw [pop_ids, ← h3, ← h4]
      · rw [if_neg h0] at h
        cases hp : pop_ids cats0 (sort_reverse td) with
        | error e =>
          rw [hp] at h
          exact absurd h (by simp)
        | ok v =>
          rcases v with ⟨ids0, cats1'⟩
          rw [hp] at h
          dsimp only at h
          cases hsv : server_delete resource server0 ids0 with
          | error e =>
            rw [hsv] at h
            exact absurd h (by simp)
          | ok sv1 =>
            rw [hsv] at h
            simp only [Prod.mk.injEq, Except.ok.injEq] at h
            obtain ⟨h1, h2, h3, h4, h5⟩ := h
            rw [← h1, hp, h3, h4]

/-- The `to_delete` list the deletion step reports never places a strict
string prefix before a path extending it. -/
theorem delete_stage_fst_pairwise (resource : Str) (target : Target)
    (deleteFlag ignore : Bool) (rows : List Category)
    (cats0 : List (Str × Nat)) (server0 : List Category) :
    ((delete_stage resource target deleteFlag ignore rows cats0
      server0).1).Pairwise fun a b => ¬ (a <+: b ∧ ¬ a = b) := by
  rw [delete_stage]
  cases deleteFlag with
  | false => exact List.Pairwise.nil
  | true =>
    simp only [if_true]
    cases compute_to_delete resource target ignore rows with
    | error e => exact List.Pairwise.nil
    | ok td =>
      dsimp only
      by_cases h0 : td.isEmpty
      · rw [if_pos h0]
        exact List.Pairwise.nil
      · rw [if_neg h0]
        cases pop_ids cats0 (sort_reverse td) with
        | error e => exact sort_reverse_no_early_prefix td
        | ok v =>
          rcases v with ⟨ids, cats1⟩
          dsimp only
          cases server_delete resource server0 ids with
          | error e => exact sort_reverse_no_early_prefix td
          | ok server1 => exact sort_reverse_no_early_prefix td

/-- An element at a position below `k` is in the `take k` prefix. -/
theorem get_mem_take {α : Type} {l : List α} {i k : Nat} (h : i < l.length)
    (hik : i < k) : l.get ⟨i, h⟩ ∈ l.take k := by
  have h2 : i < (l.take k).length := by
    rw [List.length_take]
    omega
  have he : (l.take k).get ⟨i, h2⟩ = l.get ⟨i, h⟩ := by
    simp [List.getElem_take]
  rw [← he]
  exact List.get_mem _ _ _

/-- C4: within one `update_categories` invocation, for every resource, target,
flag combination, enumeration order and remote state: (i) every batched
category-delete call indexes strictly before every category-create call in
the issued trace; (ii) in the reverse-sorted `to_delete` list no path is
followed by a path it is a strict string prefix of, so children precede their
parents; (iii) the delete batch carries the dict id of each `to_delete` path
position for position (hence parent ids never precede child ids), and when a
batch was popped it has exactly one id per path; (iv) every created node path
has at least two segments and keeps all its proper segment prefixes of at
least two segments as keys of the final dict; (v) no created path is a strict
segment ancestor of an earlier created one; and (vi) each such prefix of a
created path either survived the deletion step in the dict or was itself
created strictly earlier — a child is never created before its parent exists
in the map. -/
theorem c4_delete_before_create (resource : Str) (target : Target)
    (deleteFlag ignore : Bool) (order : List Str) (server : List Category)
    (nextId : Nat) (out : UCOut)
    (hout : update_categories resource target deleteFlag ignore order server
      nextId = out) :
    (∀ (i j : Nat) (hi : i < out.trace.length) (hj : j < out.trace.length),
      isDeleteCat (out.trace.get ⟨i, hi⟩) = true →
      isCreateCat (out.trace.get ⟨j, hj⟩) = true → i < j) ∧
    out.toDelete.Pairwise (fun a b => ¬ (a <+: b ∧ ¬ a = b)) ∧
    (∀ (k : Nat) (hk : k < out.deletedIds.length)
        (hk' : k < out.toDelete.length),
      dget (dict_of_rows (sort_cat_rows server)) (out.toDelete.get ⟨k, hk'⟩) =
        some (out.deletedIds.get ⟨k, hk⟩)) ∧
    (out.deletedIds = [] ∨ out.deletedIds.length = out.toDelete.length) ∧
    (∀ p ∈ out.created, 2 ≤ (splitSlash p).length ∧
      ∀ m, 2 ≤ m → m < (splitSlash p).length →
        dmem out.cats (joinSlash ((splitSlash p).take m)) = true) ∧
    (out.created.Pairwise fun x y => ¬ strictAncestor y x) ∧
    (∀ (k m : Nat) (hk : k < out.created.length), 2 ≤ m →
      m < (splitSlash (out.created.get ⟨k, hk⟩)).length →
      dmem out.catsAfterDelete
          (joinSlash ((splitSlash (out.created.get ⟨k, hk⟩)).take m)) = true ∨
        joinSlash ((splitSlash (out.created.get ⟨k, hk⟩)).take m) ∈
          out.created.take k) := by
  by_cases hsh : (resource = str "account" ∧ is_dict target = false) ∨
      (¬ resource = str "account" ∧ is_dict target = true)
  · have hrec : update_categories resource target deleteFlag ignore order
        server nextId =
        { err := some .typeMismatch, trace := [], server := server,
          toDelete := [], deletedIds := [], catsAfterDelete := [],
          created := [], cats := [], nextId := nextId } := by
      unfold update_categories
      rw [if_pos hsh]
    rw [hrec] at hout
    subst hout
    refine ⟨?_, List.Pairwise.nil, ?_, Or.inl rfl, ?_, List.Pairwise.nil, ?_⟩
    · intro i j hi
      exact absurd hi (by simp)
    · intro k hk
      exact absurd hk (by simp)
    · intro p hp
      exact absurd hp (List.not_mem_nil p)
    · intro k m hk
      exact absurd hk (by simp)
  · rcases hds : delete_stage resource target deleteFlag ignore
        (sort_cat_rows server) (dict_of_rows (sort_cat_rows server)) server
      with ⟨tds, trace1, res⟩
    have hpw_td : tds.Pairwise fun a b => ¬ (a <+: b ∧ ¬ a = b) := by
      have hh := delete_stage_fst_pairwise resource target deleteFlag ignore
        (sort_cat_rows server) (dict_of_rows (sort_cat_rows server)) server
      rw [hds] at hh
      exact hh
    have htr1 : ∀ c ∈ trace1, isDeleteCat c = true := by
      have hh := delete_stage_trace resource target deleteFlag ignore
        (sort_cat_rows server) (dict_of_rows (sort_cat_rows server)) server
      rw [hds] at hh
      exact hh
    cases res with
    | error e =>
      rw [uc_delete_error resource target deleteFlag ignore order server
        nextId tds trace1 e hsh hds] at hout
      subst hout
      refine ⟨?_, hpw_td, ?_, Or.inl rfl, ?_, List.Pairwise.nil, ?_⟩
      · exact deletes_before_creates (List.append_nil trace1).symm
          (fun c hc => isCreateCat_eq_false_of_delete (htr1 c hc))
          (fun c hc => absurd hc (List.not_mem_nil c))
      · intro k hk
        exact absurd hk (by simp)
      · intro p hp
        exact absurd hp (List.not_mem_nil p)
      · intro k m hk
        exact absurd hk (by simp)
    | ok v =>
      rcases v with ⟨ids, cats1, server1⟩
      have hpop : pop_ids (dict_of_rows (sort_cat_rows server)) tds =
          .ok (ids, cats1) :=
        delete_stage_ok_inv _ _ _ _ _ _ _ _ _ _ _ _ hds
      have hlen_ids : ids.length = tds.length :=
        pop_ids_length _ _ _ _ hpop
      have halign := pop_ids_align _ _ _ _ hpop
      rcases hrn : renumber_stage resource ignore target
          (sort_cat_rows server) server1 trace1 with ⟨server2, trace2, e2⟩
      have hrtr := renumber_stage_trace resource ignore target
        (sort_cat_rows server) server1 trace1
      rw [hrn] at hrtr
      obtain ⟨appN, happN, happN2⟩ := hrtr
      dsimp only at happN
      cases e2 with
      | some e =>
        rw [uc_renumber_error resource target deleteFlag ignore order server
          nextId tds trace1 trace2 ids cats1 server1 server2 e hsh hds hrn]
          at hout
        subst hout
        refine ⟨?_, hpw_td, fun k hk hk' => halign k hk' hk,
          Or.inr hlen_ids, ?_, List.Pairwise.nil, ?_⟩
        · exact deletes_before_creates happN
            (fun c hc => isCreateCat_eq_false_of_delete (htr1 c hc))
            (fun c hc => isDeleteCat_eq_false_of_update (happN2 c hc))
        · intro p hp
          exact absurd hp (List.not_mem_nil p)
        · intro k m hk
          exact absurd hk (by simp)
      | none =>
        rcases hcl : create_loop resource target
            (missing_leaves target cats1 order)
            { server := server2, cats := cats1, trace := trace2,
              created := [], nextId := nextId } with ⟨st, e3⟩
        rw [uc_create_result resource target deleteFlag ignore order server
          nextId tds trace1 trace2 ids cats1 server1 server2 st e3 hsh hds
          hrn hcl] at hout
        subst hout
        obtain ⟨hmono, ⟨newc, hnc, hnc2⟩, newt, hnt, hnt2⟩ :=
          create_loop_effects resource target
            (missing_leaves target cats1 order) _ st e3 hcl
        dsimp only at hnt
        obtain ⟨hanc, hlen2, hpwc⟩ := create_loop_anc resource target
          (missing_leaves target cats1 order) _ st e3 hcl
          (fun p hp => absurd hp (List.not_mem_nil p))
          (fun p hp => absurd hp (List.not_mem_nil p))
          List.Pairwise.nil
        have hkeys := create_loop_keys resource target
          (missing_leaves target cats1 order) cats1 _ st e3 hcl
          (fun k => by simp)
        refine ⟨?_, hpw_td, fun k hk hk' => halign k hk' hk,
          Or.inr hlen_ids, fun p hp => ⟨hlen2 p hp, hanc p hp⟩, hpwc, ?_⟩
        · have he : st.trace = trace1 ++ (appN ++ newt) := by
            rw [hnt, happN, List.append_assoc]
          exact deletes_before_creates he
            (fun c hc => isCreateCat_eq_false_of_delete (htr1 c hc))
            (fun c hc => by
              rcases List.mem_append.mp hc with hc | hc
              · exact isDeleteCat_eq_false_of_update (happN2 c hc)
              · exact isDeleteCat_eq_false_of_create (hnt2 c hc))
        · intro k m hk h2m hmlt
          dsimp only at hk h2m hmlt ⊢
          have hp : st.created.get ⟨k, hk⟩ ∈ st.created := List.get_mem _ _ _
          have hq : dmem st.cats (joinSlash
              ((splitSlash (st.created.get ⟨k, hk⟩)).take m)) = true :=
            hanc _ hp m h2m hmlt
          rcases (hkeys _).mp hq with hq2 | hq2
          · exact Or.inl hq2
          · obtain ⟨⟨k', hk'⟩, hget⟩ := List.mem_iff_get.mp hq2
            have hsplitq : splitSlash (joinSlash
                ((splitSlash (st.created.get ⟨k, hk⟩)).take m)) =
                (splitSlash (st.created.get ⟨k, hk⟩)).take m :=
              splitSlash_joinSlash_take _ m (by omega)
            have hqne : ¬ joinSlash
                ((splitSlash (st.created.get ⟨k, hk⟩)).take m) =
                st.created.get ⟨k, hk⟩ := by
              intro hc
              have hcc := congrArg splitSlash hc
              rw [hsplitq] at hcc
              have hll := congrArg List.length hcc
              rw [List.length_take] at hll
              rcases Nat.le_total m
                  ((splitSlash (st.created.get ⟨k, hk⟩)).length) with hle | hle
              · rw [Nat.min_eq_left hle] at hll
                omega
              · omega
            have hsa : strictAncestor
                (joinSlash ((splitSlash (st.created.get ⟨k, hk⟩)).take m))
                (st.created.get ⟨k, hk⟩) := by
              refine ⟨?_, hqne⟩
              rw [hsplitq]
              exact List.take_prefix m _
            rcases lt_trichotomy k' k with hlt | heq | hgt
            · right
              rw [← hget]
              exact get_mem_take hk' hlt
            · exfalso
              apply hqne
              rw [← hget]
              congr 1
              exact Fin.ext heq
            · exfalso
              have hpair := List.pairwise_iff_get.mp hpwc ⟨k, hk⟩ ⟨k', hk'⟩
                (Fin.mk_lt_mk.mpr hgt)
              rw [hget] at hpair
              exact hpair hsa

/-- Witness for C4 at a concrete account run that issues one delete and two
creates: the delete indexes before the first create, the popped id of the
single `to_delete` path is its dict binding, and the created child `/A/B/C`
finds its parent prefix `/A/B` among the earlier creations or the surviving
dict keys. -/
theorem c4_delete_before_create_witness :
    (0 : Nat) < 1 ∧
    dget (dict_of_rows (sort_cat_rows c4server))
        (c4out.toDelete.get ⟨0, by decide⟩) =
      some (c4out.deletedIds.get ⟨0, by decide⟩) ∧
    (dmem c4out.catsAfterDelete
        (joinSlash ((splitSlash (c4out.created.get ⟨1, by decide⟩)).take 2)) =
        true ∨
      joinSlash ((splitSlash (c4out.created.get ⟨1, by decide⟩)).take 2) ∈
        c4out.created.take 1) := by
  refine ⟨?_, ?_, ?_⟩
  · exact (c4_delete_before_create (str "account") (.dict [(str "/A/B/C", 2)])
      true false [str "/A/B/C"] c4server 10 c4out rfl).1 0 1 (by decide)
      (by decide) (by decide) (by decide)
  · exact (c4_delete_before_create (str "account") (.dict [(str "/A/B/C", 2)])
      true false [str "/A/B/C"] c4server 10 c4out rfl).2.2.1 0 (by decide)
      (by decide)
  · exact (c4_delete_before_create (str "account") (.dict [(str "/A/B/C", 2)])
      true false [str "/A/B/C"] c4server 10 c4out rfl).2.2.2.2.2.2 1 2
      (by decide) (by decide) (by decide)

/-- Inserting a different key does not change a key's presence. -/
theorem dmem_dinsert_ne {α : Type} {m : List (Str × α)} {k q : Str} {v : α}
    (h : ¬ q = k) : dmem (dinsert m k v) q = dmem m q := by
  cases hm : dmem m q with
  | true => exact dmem_dinsert.mpr (Or.inr hm)
  | false =>
    cases hd : dmem (dinsert m k v) q with
    | false => rfl
    | true =>
      rcases dmem_dinsert.mp hd with hc | hc
      · exact absurd hc h
      · rw [hm] at hc
        exact absurd hc (by simp)

/-- Splitting a string that starts with the separator yields a leading empty
segment. -/
theorem splitSlash_slash_cons (cs : List Char) :
    splitSlash ('/' :: cs) = [] :: splitSlashAux cs [] := by
  rw [splitSlash, splitSlashAux, if_pos rfl]
  rfl

/-- A path starting with the separator has at least two segments. -/
theorem splitSlash_slash_len (cs : List Char) :
    2 ≤ (splitSlash ('/' :: cs)).length := by
  rw [splitSlash_slash_cons, List.length_cons]
  have := List.length_pos.mpr (splitSlashAux_ne_nil cs [])
  omega

/-- The one-segment prefix of a separator-led path is the empty string. -/
theorem joinSlash_slash_take_one (cs : List Char) :
    joinSlash ((splitSlash ('/' :: cs)).take 1) = [] := by
  rw [splitSlash_slash_cons]
  rfl

/-- A prefix of at least two segments of a separator-led path is nonempty. -/
theorem joinSlash_slash_take_ne_nil (cs : List Char) (a : Nat) (h2 : 2 ≤ a) :
    ¬ joinSlash ((splitSlash ('/' :: cs)).take a) = [] := by
  rw [splitSlash_slash_cons]
  obtain ⟨a', rfl⟩ : ∃ a', a = a' + 1 := ⟨a - 1, by omega⟩
  rw [List.take_succ_cons]
  cases ht : splitSlashAux cs [] with
  | nil => exact absurd ht (splitSlashAux_ne_nil cs [])
  | cons y t' =>
    obtain ⟨a'', rfl⟩ : ∃ b, a' = b + 1 := ⟨a' - 1, by omega⟩
    rw [List.take_succ_cons, joinSlash]
    simp

/-- At index 1 of a walk whose two-segment prefix is unknown, the `account`
resource aborts with the root-creation error and changes nothing. -/
theorem walk_step_root_err (t : Target) (leaf : Str) (ns : List Str)
    (st : UCState)
    (hmem : dmem st.cats (joinSlash (ns.take 2)) = false)
    (hpp : joinSlash (ns.take 1) = []) :
    walk_step (str "account") t leaf ns 1 st = (st, some .rootCreation) := by
  rw [walk_step.eq_def]
  simp only [hmem, Bool.false_eq_true, if_false]
  rw [if_neg (not_not_intro hpp)]
  simp only [if_true]

/-- A separator-led leaf whose two-segment prefix is not a known category
makes the `account` walk fail with the root-creation error immediately. -/
theorem walk_leaf_root_err (t : Target) (cs : List Char) (st : UCState)
    (hmem : dmem st.cats
      (joinSlash ((splitSlash ('/' :: cs)).take 2)) = false) :
    walk_leaf (str "account") t ('/' :: cs) st = (st, some .rootCreation) := by
  rw [walk_leaf]
  have hlen := splitSlash_slash_len cs
  have hk : (splitSlash ('/' :: cs)).length - 1 =
      ((splitSlash ('/' :: cs)).length - 2) + 1 := by omega
  rw [hk, List.range'_succ, walk_idxs,
    walk_step_root_err t ('/' :: cs) _ st hmem (joinSlash_slash_take_one cs)]

/-- For a separator-led leaf of the `account` resource, the walk never adds a
key of at most two segments to the dict. -/
theorem walk_idxs_seg2_stable (t : Target) (cs : List Char)
    (idxs : List Nat) (st st' : UCState) (e : Option UErr)
    (h : walk_idxs (str "account") t ('/' :: cs) (splitSlash ('/' :: cs))
      idxs st = (st', e))
    (hidx : ∀ i ∈ idxs, i < (splitSlash ('/' :: cs)).length)
    (q : Str) (hq : (splitSlash q).length ≤ 2) :
    dmem st'.cats q = dmem st.cats q := by
  induction idxs generalizing st with
  | nil =>
    rw [walk_idxs] at h
    injection h with h1 h2
    subst h1
    rfl
  | cons i rest ih =>
    rw [walk_idxs] at h
    rcases walk_step_spec (str "account") t ('/' :: cs)
        (splitSlash ('/' :: cs)) i st with
      ⟨_, hstep⟩ | ⟨e0, hstep⟩ | ⟨habs, pid, num, hstep, hpar⟩
    · rw [hstep] at h
      exact ih st h fun j hj => hidx j (List.mem_cons_of_mem i hj)
    · rw [hstep] at h
      dsimp only at h
      injection h with h1 h2
      subst h1
      rfl
    · rw [hstep] at h
      dsimp only at h
      have hppne : ¬ joinSlash ((splitSlash ('/' :: cs)).take i) = [] := by
        rcases hpar with ⟨_, _, hacc⟩ | ⟨hne, _⟩
        · exact absurd rfl hacc
        · exact hne
      have hi2 : 2 ≤ i := by
        by_contra hcon
        push_neg at hcon
        interval_cases i
        · exact hppne (by rfl)
        · exact hppne (joinSlash_slash_take_one cs)
      have hilen : i < (splitSlash ('/' :: cs)).length :=
        hidx i (List.mem_cons_self i rest)
      have hnp : ¬ q = joinSlash ((splitSlash ('/' :: cs)).take (i + 1)) := by
        intro hc
        have hcc := congrArg (fun x => (splitSlash x).length) hc
        dsimp only at hcc
        rw [splitSlash_joinSlash_take _ (i + 1) (by omega),
          List.length_take] at hcc
        omega
      have hrec := ih _ h fun j hj => hidx j (List.mem_cons_of_mem i hj)
      rw [hrec]
      exact dmem_dinsert_ne hnp

/-- For the `account` resource, a walk over a separator-led leaf whose
two-segment prefix is known and whose leaf is a target key never fails: all
earlier prefixes are known by invariant and every deeper parent was created
by the preceding index. -/
theorem walk_idxs_acct_ok (m : List (Str × Int)) (cs : List Char) (a k : Nat)
    (st : UCState) (ha : 1 ≤ a)
    (hak : a + k ≤ (splitSlash ('/' :: cs)).length)
    (hnum : ∃ v, dget m ('/' :: cs) = some v)
    (hpre : ∀ j, 1 ≤ j → j < a →
      dmem st.cats (joinSlash ((splitSlash ('/' :: cs)).take (j + 1))) = true)
    (hd : dmem st.cats (joinSlash ((splitSlash ('/' :: cs)).take 2)) = true) :
    ∃ st', walk_idxs (str "account") (.dict m) ('/' :: cs)
      (splitSlash ('/' :: cs)) (List.range' a k) st = (st', none) := by
  induction k generalizing a st with
  | zero =>
    rw [List.range'_zero, walk_idxs]
    exact ⟨st, rfl⟩
  | succ k ih =>
    rw [List.range'_succ, walk_idxs]
    by_cases hmem : dmem st.cats
        (joinSlash ((splitSlash ('/' :: cs)).take (a + 1))) = true
    · have hstep : walk_step (str "account") (.dict m) ('/' :: cs)
          (splitSlash ('/' :: cs)) a st = (st, none) := by
        rw [walk_step.eq_def]
        simp [hmem]
      rw [hstep]
      exact ih (a + 1) st (by omega) (by omega)
        (fun j hj1 hj2 => by
          rcases Nat.lt_or_ge j a with hlt | hge
          · exact hpre j hj1 hlt
          · have hja : j = a := by omega
            subst hja
            exact hmem) hd
    · rw [Bool.not_eq_true] at hmem
      have ha2 : 2 ≤ a := by
        by_contra hcon
        push_neg at hcon
        have ha1 : a = 1 := by omega
        subst ha1
        rw [hd] at hmem
        exact absurd hmem (by simp)
      have hppne : ¬ joinSlash ((splitSlash ('/' :: cs)).take a) = [] :=
        joinSlash_slash_take_ne_nil cs a ha2
      have hppmem : dmem st.cats
          (joinSlash ((splitSlash ('/' :: cs)).take a)) = true := by
        have hh := hpre (a - 1) (by omega) (by omega)
        have hsub : a - 1 + 1 = a := by omega
        rw [hsub] at hh
        exact hh
      obtain ⟨pid, hpid⟩ := Option.isSome_iff_exists.mp
        (dget_isSome_of_dmem hppmem)
      obtain ⟨v, hv⟩ := hnum
      have hstep : ∃ st1, walk_step (str "account") (.dict m) ('/' :: cs)
          (splitSlash ('/' :: cs)) a st = (st1, none) ∧
          st1.cats = dinsert st.cats
            (joinSlash ((splitSlash ('/' :: cs)).take (a + 1))) st.nextId := by
        rw [walk_step.eq_def]
        simp only [hmem, Bool.false_eq_true, if_false, if_true]
        rw [if_pos hppne, hpid]
        dsimp only
        rw [hv]
        exact ⟨_, rfl, rfl⟩
      obtain ⟨st1, hst1, hcats1⟩ := hstep
      rw [hst1]
      refine ih (a + 1) st1 (by omega) (by omega) ?_ ?_
      · intro j hj1 hj2
        rcases Nat.lt_or_ge j a with hlt | hge
        · rw [hcats1]
          exact dmem_dinsert.mpr (Or.inr (hpre j hj1 hlt))
        · have hja : j = a := by omega
          subst hja
          rw [hcats1]
          exact dmem_dinsert.mpr (Or.inl rfl)
      · rw [hcats1]
        exact dmem_dinsert.mpr (Or.inr hd)

/-- One-leaf wrapper of `walk_idxs_acct_ok`. -/
theorem walk_leaf_acct_ok (m : List (Str × Int)) (cs : List Char)
    (st : UCState) (hnum : ∃ v, dget m ('/' :: cs) = some v)
    (hd : dmem st.cats (joinSlash ((splitSlash ('/' :: cs)).take 2)) = true) :
    ∃ st', walk_leaf (str "account") (.dict m) ('/' :: cs) st =
      (st', none) := by
  rw [walk_leaf]
  exact walk_idxs_acct_ok m cs 1 ((splitSlash ('/' :: cs)).length - 1) st
    (le_refl 1) (by have := splitSlash_slash_len cs; omega) hnum
    (fun j hj1 hj2 => absurd (lt_of_le_of_lt hj1 hj2) (lt_irrefl 1)) hd

/-- If some separator-led missing leaf (all of them target keys) has an
unknown two-segment prefix, the `account` create loop fails with the
root-creation error: processing that leaf aborts at its first segment, and
no other leaf can ever add a two-segment key first. -/
theorem create_loop_root_err (m : List (Str × Int)) (leaves : List Str)
    (st : UCState)
    (hhead : ∀ l ∈ leaves, ∃ cs, l = '/' :: cs)
    (hnum : ∀ l ∈ leaves, ∃ v, dget m l = some v)
    (hbad : ∃ l ∈ leaves,
      dmem st.cats (joinSlash ((splitSlash l).take 2)) = false) :
    (create_loop (str "account") (.dict m) leaves st).2 =
      some .rootCreation := by
  induction leaves generalizing st with
  | nil =>
    obtain ⟨l, hl, _⟩ := hbad
    exact absurd hl (List.not_mem_nil l)
  | cons l rest ih =>
    obtain ⟨cs, hcs⟩ := hhead l (List.mem_cons_self l rest)
    subst hcs
    rw [create_loop]
    by_cases hd : dmem st.cats
        (joinSlash ((splitSlash ('/' :: cs)).take 2)) = true
    · obtain ⟨st1, hwl⟩ := walk_leaf_acct_ok m cs st
        (hnum _ (List.mem_cons_self _ rest)) hd
      rw [hwl]
      dsimp only
      apply ih st1
      · exact fun l' hl' => hhead l' (List.mem_cons_of_mem _ hl')
      · exact fun l' hl' => hnum l' (List.mem_cons_of_mem _ hl')
      · obtain ⟨lb, hlb, hlbmem⟩ := hbad
        rcases List.mem_cons.mp hlb with hlb | hlb
        · exfalso
          subst hlb
          rw [hd] at hlbmem
          exact absurd hlbmem (by simp)
        · refine ⟨lb, hlb, ?_⟩
          obtain ⟨cs', hcs'⟩ := hhead lb (List.mem_cons_of_mem _ hlb)
          subst hcs'
          have hstable := walk_idxs_seg2_stable (.dict m) cs
            (List.range' 1 ((splitSlash ('/' :: cs)).length - 1)) st st1 none
            (by rw [walk_leaf] at hwl; exact hwl)
            (fun i hi => by
              rw [List.mem_range'_1] at hi
              omega)
            (joinSlash ((splitSlash ('/' :: cs')).take 2))
            (by
              rw [splitSlash_joinSlash_take _ 2 (by omega), List.length_take]
              exact min_le_left _ _)
          rw [hstable]
          exact hlbmem
    · rw [Bool.not_eq_true] at hd
      rw [walk_leaf_root_err (.dict m) cs st hd]

/-- Every call the `account` walk appends is a create call carrying a parent
id. -/
theorem walk_idxs_acct_trace_parent (t : Target) (leaf : Str) (ns : List Str)
    (idxs : List Nat) (st st' : UCState) (e : Option UErr)
    (h : walk_idxs (str "account") t leaf ns idxs st = (st', e)) :
    ∀ c ∈ st'.trace, c ∈ st.trace ∨
      ∃ n p num i, c = .createCategory n (some p) num i := by
  induction idxs generalizing st with
  | nil =>
    rw [walk_idxs] at h
    injection h with h1 h2
    subst h1
    exact fun c hc => Or.inl hc
  | cons i rest ih =>
    rw [walk_idxs] at h
    rcases walk_step_spec (str "account") t leaf ns i st with
      ⟨_, hstep⟩ | ⟨e0, hstep⟩ | ⟨habs, pid, num, hstep, hpar⟩
    · rw [hstep] at h
      exact ih st h
    · rw [hstep] at h
      dsimp only at h
      injection h with h1 h2
      subst h1
      exact fun c hc => Or.inl hc
    · rw [hstep] at h
      dsimp only at h
      have hpid : ∃ q, pid = some q := by
        rcases hpar with ⟨_, _, hacc⟩ | ⟨_, q, hq, _⟩
        · exact absurd rfl hacc
        · exact ⟨q, hq⟩
      obtain ⟨q, hq⟩ := hpid
      subst hq
      intro c hc
      rcases ih _ h c hc with hin | hin
      · rcases List.mem_append.mp hin with hin | hin
        · exact Or.inl hin
        · rw [List.mem_singleton] at hin
          exact Or.inr ⟨_, q, num, st.nextId, hin⟩
      · exact Or.inr hin

/-- Every call the `account` create loop appends is a create call carrying a
parent id. -/
theorem create_loop_acct_trace_parent (t : Target) (leaves : List Str)
    (st st' : UCState) (e : Option UErr)
    (h : create_loop (str "account") t leaves st = (st', e)) :
    ∀ c ∈ st'.trace, c ∈ st.trace ∨
      ∃ n p num i, c = .createCategory n (some p) num i := by
  induction leaves generalizing st with
  | nil =>
    rw [create_loop] at h
    injection h with h1 h2
    subst h1
    exact fun c hc => Or.inl hc
  | cons l rest ih =>
    rw [create_loop] at h
    rcases hwl : walk_leaf (str "account") t l st with ⟨st1, e1⟩
    rw [hwl] at h
    rw [walk_leaf] at hwl
    have hw := walk_idxs_acct_trace_parent t l (splitSlash l)
      (List.range' 1 ((splitSlash l).length - 1)) st st1 e1 hwl
    cases e1 with
    | some e0 =>
      injection h with h1 h2
      subst h1
      exact hw
    | none =>
      intro c hc
      rcases ih st1 h c hc with hin | hin
      · rcases hw c hin with hin2 | hin2
        · exact Or.inl hin2
        · exact Or.inr hin2
      · exact Or.inr hin

/-- C9: in the create-missing step of `update_categories` for the `account`
resource (target keys in the usual absolute form), whenever reaching some
missing target path would require creating a single-segment root — its
two-segment first node path (`"/x"`) is unknown to the dict left by the
deletion step — the invocation fails with the root-creation error, and no
create call without a parent id (a root creation) is ever issued. -/
theorem c9_root_creation (m : List (Str × Int)) (deleteFlag ignore : Bool)
    (order : List Str) (server : List Category) (nextId : Nat) (out : UCOut)
    (hout : update_categories (str "account") (.dict m) deleteFlag ignore
      order server nextId = out)
    (hkeys : ∀ p ∈ tkeysOf (Target.dict m), ∃ cs, p = '/' :: cs)
    (tds : List Str) (trace1 : List ApiCall) (ids : List Nat)
    (cats1 : List (Str × Nat)) (server1 server2 : List Category)
    (trace2 : List ApiCall)
    (hds : delete_stage (str "account") (.dict m) deleteFlag ignore
        (sort_cat_rows server) (dict_of_rows (sort_cat_rows server)) server =
      (tds, trace1, .ok (ids, cats1, server1)))
    (hrn : renumber_stage (str "account") ignore (.dict m)
        (sort_cat_rows server) server1 trace1 = (server2, trace2, none))
    (hbad : ∃ l ∈ missing_leaves (.dict m) cats1 order,
      dmem cats1 (joinSlash ((splitSlash l).take 2)) = false) :
    out.err = some .rootCreation ∧
      ∀ (n : Str) (num : Option Int) (i : Nat),
        ApiCall.createCategory n none num i ∉ out.trace := by
  have hsh : ¬ ((str "account" = str "account" ∧
      is_dict (Target.dict m) = false) ∨
      (¬ str "account" = str "account" ∧ is_dict (Target.dict m) = true)) := by
    simp [is_dict]
  have hml : ∀ l ∈ missing_leaves (Target.dict m) cats1 order,
      l ∈ tkeysOf (Target.dict m) := by
    intro l hl
    rw [missing_leaves, List.mem_filter] at hl
    have hc := hl.2
    rw [Bool.and_eq_true, Bool.and_eq_true] at hc
    have := hc.1.1
    simpa using this
  have hhead : ∀ l ∈ missing_leaves (Target.dict m) cats1 order,
      ∃ cs, l = '/' :: cs := fun l hl => hkeys l (hml l hl)
  have hnum : ∀ l ∈ missing_leaves (Target.dict m) cats1 order,
      ∃ v, dget m l = some v := by
    intro l hl
    have hmem : dmem m l = true := by
      have := hml l hl
      rw [tkeysOf, List.mem_map] at this
      obtain ⟨e, he, hel⟩ := this
      rw [dmem, List.any_eq_true]
      exact ⟨e, he, by simp [hel]⟩
    exact Option.isSome_iff_exists.mp (dget_isSome_of_dmem hmem)
  rcases hcl : create_loop (str "account") (Target.dict m)
      (missing_leaves (Target.dict m) cats1 order)
      { server := server2, cats := cats1, trace := trace2, created := [],
        nextId := nextId } with ⟨st, e3⟩
  rw [uc_create_result (str "account") (Target.dict m) deleteFlag ignore
    order server nextId tds trace1 trace2 ids cats1 server1 server2 st e3
    hsh hds hrn hcl] at hout
  subst hout
  have herr : e3 = some .rootCreation := by
    have hh := create_loop_root_err m
      (missing_leaves (Target.dict m) cats1 order)
      { server := server2, cats := cats1, trace := trace2, created := [],
        nextId := nextId } hhead hnum hbad
    rw [hcl] at hh
    exact hh
  refine ⟨herr, ?_⟩
  intro n num i hc
  have htr1 : ∀ c ∈ trace1, isDeleteCat c = true := by
    have hh := delete_stage_trace (str "account") (Target.dict m) deleteFlag
      ignore (sort_cat_rows server) (dict_of_rows (sort_cat_rows server))
      server
    rw [hds] at hh
    exact hh
  have hrtr := renumber_stage_trace (str "account") ignore (Target.dict m)
    (sort_cat_rows server) server1 trace1
  rw [hrn] at hrtr
  obtain ⟨appN, happN, happN2⟩ := hrtr
  dsimp only at happN
  have hpar := create_loop_acct_trace_parent (Target.dict m)
    (missing_leaves (Target.dict m) cats1 order)
    { server := server2, cats := cats1, trace := trace2, created := [],
      nextId := nextId } st e3 hcl
  rcases hpar _ hc with hin | hin
  · dsimp only at hin
    rw [happN] at hin
    rcases List.mem_append.mp hin with hin | hin
    · have := htr1 _ hin
      simp [isDeleteCat] at this
    · have := happN2 _ hin
      simp [isUpdateNum] at this
  · obtain ⟨n', p, num', i', heq⟩ := hin
    exact absurd (congrArg (fun c => match c with
      | ApiCall.createCategory _ pp _ _ => pp
      | _ => none) heq) (by simp)

/-- Witness for C9: a target below a root that does not exist on an empty
account state fails with the root-creation error and issues no parentless
create. -/
theorem c9_root_creation_witness :
    (update_categories (str "account") (.dict [(str "/New/Sub", 1)]) true
        false [str "/New/Sub"] [] 0).err = some .rootCreation ∧
      ApiCall.createCategory (str "New") none none 0 ∉
        (update_categories (str "account") (.dict [(str "/New/Sub", 1)]) true
          false [str "/New/Sub"] [] 0).trace := by
  have hh := c9_root_creation [(str "/New/Sub", 1)] true false
    [str "/New/Sub"] [] 0 _ rfl
    (by
      intro p hp
      simp only [tkeysOf, List.map_cons, List.map_nil,
        List.mem_singleton] at hp
      exact ⟨str "New/Sub", by rw [hp]; rfl⟩)
    [] [] [] [] [] [] [] rfl rfl
    ⟨str "/New/Sub", by decide, by decide⟩
  exact ⟨hh.1, hh.2 (str "New") none 0⟩

/-- A key is in the zipped path-to-id dict exactly when some row has that
path. -/
theorem dmem_dict_of_rows (rows : List Category) (p : Str) :
    dmem (dict_of_rows rows) p = true ↔ ∃ r ∈ rows, r.path = p := by
  rw [dict_of_rows, dmem, List.any_eq_true]
  constructor
  · rintro ⟨e, he, hep⟩
    rw [List.mem_map] at he
    obtain ⟨r, hr, hre⟩ := he
    subst hre
    exact ⟨r, hr, by simpa using hep⟩
  · rintro ⟨r, hr, hp⟩
    exact ⟨(r.path, r.id), List.mem_map.mpr ⟨r, hr, rfl⟩, by simpa using hp⟩

/-- With duplicate-free paths, the dict binds each row's path to its id. -/
theorem dget_dict_of_rows_nodup (rows : List Category)
    (hnd : (rows.map fun r => r.path).Nodup) (r : Category) (hr : r ∈ rows) :
    dget (dict_of_rows rows) r.path = some r.id := by
  induction rows with
  | nil => exact absurd hr (List.not_mem_nil r)
  | cons x rest ih =>
    rw [List.map_cons, List.nodup_cons] at hnd
    rcases List.mem_cons.mp hr with hrx | hrx
    · subst hrx
      show dget ((r.path, r.id) :: dict_of_rows rest) r.path = some r.id
      rw [dget]
      have hnone : dget (dict_of_rows rest) r.path = none := by
        apply dget_none_of_not_dmem
        cases hdm : dmem (dict_of_rows rest) r.path with
        | false => rfl
        | true =>
          obtain ⟨r', hr', hrp⟩ := (dmem_dict_of_rows rest r.path).mp hdm
          exact absurd (List.mem_map.mpr ⟨r', hr', hrp⟩) hnd.1
      rw [hnone, if_pos rfl]
    · show dget ((x.path, x.id) :: dict_of_rows rest) r.path = some r.id
      rw [dget, ih hnd.2 hrx]

/-- After a successful pop run, a key is present exactly when it was present
and not popped. -/
theorem pop_ids_dmem (cats : List (Str × Nat)) (ps : List Str)
    (ids : List Nat) (cats' : List (Str × Nat))
    (h : pop_ids cats ps = .ok (ids, cats')) (q : Str) :
    dmem cats' q = true ↔ dmem cats q = true ∧ ¬ q ∈ ps := by
  induction ps generalizing cats ids with
  | nil =>
    rw [pop_ids] at h
    injection h with h1
    rw [Prod.mk.injEq] at h1
    rw [← h1.2]
    simp
  | cons p rest ih =>
    rw [pop_ids] at h
    cases hp : dpop cats p with
    | none =>
      rw [hp] at h
      exact absurd h (by simp)
    | some v =>
      rcases v with ⟨i, cats1⟩
      rw [hp] at h
      dsimp only at h
      cases hrest : pop_ids cats1 rest with
      | error e =>
        rw [hrest] at h
        exact absurd h (by simp)
      | ok w =>
        rcases w with ⟨ids1, cats2⟩
        rw [hrest] at h
        dsimp only at h
        injection h with h1
        rw [Prod.mk.injEq] at h1
        rw [h1.2] at hrest
        obtain ⟨hgv, hder⟩ := dpop_eq_some hp
        rw [ih cats1 ids1 hrest, hder, dmem_derase, List.mem_cons]
        constructor
        · rintro ⟨⟨hq1, hq2⟩, hq3⟩
          exact ⟨hq1, fun hc => hc.elim hq2 hq3⟩
        · rintro ⟨hq1, hq2⟩
          exact ⟨⟨hq1, fun hc => hq2 (Or.inl hc)⟩,
            fun hc => hq2 (Or.inr hc)⟩

/-- Popping a duplicate-free list of present keys succeeds. -/
theorem pop_ids_ok_of_nodup (cats : List (Str × Nat)) (ps : List Str)
    (hnd : ps.Nodup) (hall : ∀ p ∈ ps, dmem cats p = true) :
    ∃ ids cats', pop_ids cats ps = .ok (ids, cats') := by
  induction ps generalizing cats with
  | nil => exact ⟨[], cats, rfl⟩
  | cons p rest ih =>
    rw [List.nodup_cons] at hnd
    have hd := hall p (List.mem_cons_self p rest)
    obtain ⟨i, hi⟩ := Option.isSome_iff_exists.mp (dget_isSome_of_dmem hd)
    rw [pop_ids]
    have hdp : dpop cats p = some (i, derase cats p) := by
      rw [dpop, hi]
    rw [hdp]
    dsimp only
    obtain ⟨ids1, cats2, hrec⟩ := ih (derase cats p) hnd.2 (fun q hq => by
      rw [dmem_derase]
      exact ⟨hall q (List.mem_cons_of_mem p hq),
        fun hc => hnd.1 (hc ▸ hq)⟩)
    rw [hrec]
    exact ⟨i :: ids1, cats2, rfl⟩

/-- The deletion step when the computed list is empty. -/
theorem delete_stage_eq_empty (resource : Str) (target : Target)
    (ignore : Bool) (rows : List Category) (cats0 : List (Str × Nat))
    (server0 : List Category)
    (h : compute_to_delete resource target ignore rows = .ok []) :
    delete_stage resource target true ignore rows cats0 server0 =
      ([], [], .ok ([], cats0, server0)) := by
  rw [delete_stage]
  simp only [if_true]
  rw [h]
  rfl

/-- The deletion step when the pop and the remote call succeed. -/
theorem delete_stage_eq_ok (resource : Str) (target : Target) (ignore : Bool)
    (rows : List Category) (cats0 cats1 : List (Str × Nat))
    (server0 server1 : List Category) (td : List Str) (ids : List Nat)
    (h : compute_to_delete resource target ignore rows = .ok td)
    (hne : ¬ td.isEmpty = true)
    (hp : pop_ids cats0 (sort_reverse td) = .ok (ids, cats1))
    (hsv : server_delete resource server0 ids = .ok server1) :
    delete_stage resource target true ignore rows cats0 server0 =
      (sort_reverse td, [.deleteCategories ids],
        .ok (ids, cats1, server1)) := by
  rw [delete_stage]
  simp only [if_true]
  rw [h]
  dsimp only
  rw [if_neg hne, hp]
  dsimp only
  rw [hsv]

/-- The deletion step when the remote call is rejected. -/
theorem delete_stage_eq_err (resource : Str) (target : Target) (ignore : Bool)
    (rows : List Category) (cats0 cats1 : List (Str × Nat))
    (server0 : List Category) (td : List Str) (ids : List Nat) (e : UErr)
    (h : compute_to_delete resource target ignore rows = .ok td)
    (hne : ¬ td.isEmpty = true)
    (hp : pop_ids cats0 (sort_reverse td) = .ok (ids, cats1))
    (hsv : server_delete resource server0 ids = .error e) :
    delete_stage resource target true ignore rows cats0 server0 =
      (sort_reverse td, [.deleteCategories ids], .error e) := by
  rw [delete_stage]
  simp only [if_true]
  rw [h]
  dsimp only
  rw [if_neg hne, hp]
  dsimp only
  rw [hsv]

/-- A batch naming an account root category is rejected. -/
theorem server_delete_acct_err (server : List Category) (ids : List Nat)
    (r0 : Category) (hr0 : r0 ∈ server) (hid : r0.id ∈ ids)
    (hroot : isRootPath r0.path = true) :
    server_delete (str "account") server ids = .error .remoteRejected := by
  rw [server_delete, if_pos]
  refine ⟨rfl, ?_⟩
  rw [List.any_eq_true]
  refine ⟨r0, hr0, ?_⟩
  rw [Bool.and_eq_true]
  exact ⟨by simpa using hid, hroot⟩

/-- A batch naming no root category goes through. -/
theorem server_delete_ok_of_no_root (resource : Str)
    (server : List Category) (ids : List Nat)
    (hno : ∀ r ∈ server, isRootPath r.path = true → ¬ r.id ∈ ids) :
    server_delete resource server ids =
      .ok (server.filter fun r => !(ids.contains r.id)) := by
  rw [server_delete, if_neg]
  rintro ⟨hacc, hany⟩
  rw [List.any_eq_true] at hany
  obtain ⟨r, hr, hf⟩ := hany
  rw [Bool.and_eq_true] at hf
  exact hno r hr hf.2 (by simpa using hf.1)

/-- With the ignore flag set the renumber loop never fails. -/
theorem renumber_loop_ignore_ok (tm : List (Str × Int))
    (rows server : List Category) (trace : List ApiCall) :
    (renumber_loop true tm rows server trace).2.2 = none := by
  induction rows generalizing server trace with
  | nil => rw [renumber_loop]
  | cons row rest ih =>
    rw [renumber_loop]
    cases dget tm row.path with
    | none => exact ih server trace
    | some v =>
      dsimp only
      by_cases hdf : number_differs row.number v = true
      · rw [if_pos hdf]
        by_cases hrt : isRootPath row.path = true
        · rw [if_pos hrt]
          exact ih server trace
        · rw [if_neg hrt]
          exact ih _ _
      · rw [if_neg hdf]
        exact ih server trace

/-- A row whose id is never renumbered survives the renumber loop
unchanged. -/
theorem renumber_loop_mem (ignore : Bool) (tm : List (Str × Int))
    (rows server : List Category) (trace : List ApiCall) (r : Category)
    (hr : r ∈ server)
    (hskip : ∀ row ∈ rows, row.id = r.id → dget tm row.path = none) :
    r ∈ (renumber_loop ignore tm rows server trace).1 := by
  induction rows generalizing server trace with
  | nil =>
    rw [renumber_loop]
    exact hr
  | cons row rest ih =>
    rw [renumber_loop]
    cases hg : dget tm row.path with
    | none =>
      exact ih server trace hr
        (fun row' hrow' => hskip row' (List.mem_cons_of_mem row hrow'))
    | some v =>
      dsimp only
      by_cases hdf : number_differs row.number v = true
      · rw [if_pos hdf]
        by_cases hrt : isRootPath row.path = true
        · rw [if_pos hrt]
          cases ignore with
          | true =>
            exact ih server trace hr
              (fun row' hrow' => hskip row' (List.mem_cons_of_mem row hrow'))
          | false => exact hr
        · rw [if_neg hrt]
          have hne : ¬ row.id = r.id := by
            intro hc
            have := hskip row (List.mem_cons_self row rest) hc
            rw [hg] at this
            exact absurd this (by simp)
          refine ih _ _ ?_
            (fun row' hrow' => hskip row' (List.mem_cons_of_mem row hrow'))
          rw [server_set_number]
          refine List.mem_map.mpr ⟨r, hr, ?_⟩
          rw [if_neg (fun hc => hne hc.symm)]
      · rw [if_neg hdf]
        exact ih server trace hr
          (fun row' hrow' => hskip row' (List.mem_cons_of_mem row hrow'))

/-- The walk only appends rows to the modelled remote state. -/
theorem walk_idxs_server_mono (r : Str) (t : Target) (leaf : Str)
    (ns : List Str) (idxs : List Nat) (st st' : UCState) (e : Option UErr)
    (h : walk_idxs r t leaf ns idxs st = (st', e)) :
    ∀ row ∈ st.server, row ∈ st'.server := by
  induction idxs generalizing st with
  | nil =>
    rw [walk_idxs] at h
    injection h with h1 h2
    subst h1
    exact fun row hrow => hrow
  | cons i rest ih =>
    rw [walk_idxs] at h
    rcases walk_step_spec r t leaf ns i st with
      ⟨_, hstep⟩ | ⟨e0, hstep⟩ | ⟨habs, pid, num, hstep, hpar⟩
    · rw [hstep] at h
      exact ih st h
    · rw [hstep] at h
      dsimp only at h
      injection h with h1 h2
      subst h1
      exact fun row hrow => hrow
    · rw [hstep] at h
      dsimp only at h
      intro row hrow
      refine ih _ h row ?_
      rw [server_create]
      exact List.mem_append_left _ hrow

/-- The create loop only appends rows to the modelled remote state. -/
theorem create_loop_server_mono (r : Str) (t : Target) (leaves : List Str)
    (st st' : UCState) (e : Option UErr)
    (h : create_loop r t leaves st = (st', e)) :
    ∀ row ∈ st.server, row ∈ st'.server := by
  induction leaves generalizing st with
  | nil =>
    rw [create_loop] at h
    injection h with h1 h2
    subst h1
    exact fun row hrow => hrow
  | cons l rest ih =>
    rw [create_loop] at h
    rcases hwl : walk_leaf r t l st with ⟨st1, e1⟩
    rw [hwl] at h
    rw [walk_leaf] at hwl
    have hw := walk_idxs_server_mono r t l (splitSlash l)
      (List.range' 1 ((splitSlash l).length - 1)) st st1 e1 hwl
    cases e1 with
    | some e0 =>
      injection h with h1 h2
      subst h1
      exact hw
    | none => exact fun row hrow => ih st1 h row (hw row hrow)

/-- The `account` create loop succeeds whenever every leaf is a
separator-led target key whose two-segment prefix is already known. -/
theorem create_loop_acct_ok (m : List (Str × Int)) (leaves : List Str)
    (st : UCState)
    (hhead : ∀ l ∈ leaves, ∃ cs, l = '/' :: cs)
    (hnum : ∀ l ∈ leaves, ∃ v, dget m l = some v)
    (hd : ∀ l ∈ leaves,
      dmem st.cats (joinSlash ((splitSlash l).take 2)) = true) :
    ∃ st', create_loop (str "account") (.dict m) leaves st = (st', none) := by
  induction leaves generalizing st with
  | nil => exact ⟨st, rfl⟩
  | cons l rest ih =>
    obtain ⟨cs, hcs⟩ := hhead l (List.mem_cons_self l rest)
    subst hcs
    obtain ⟨st1, hwl⟩ := walk_leaf_acct_ok m cs st
      (hnum _ (List.mem_cons_self _ rest))
      (hd _ (List.mem_cons_self _ rest))
    rw [create_loop, hwl]
    dsimp only
    have hmono := (walk_idxs_effects (str "account") (.dict m) ('/' :: cs)
      (splitSlash ('/' :: cs))
      (List.range' 1 ((splitSlash ('/' :: cs)).length - 1)) st st1 none
      (by rw [walk_leaf] at hwl; exact hwl)).1
    exact ih st1
      (fun l' hl' => hhead l' (List.mem_cons_of_mem _ hl'))
      (fun l' hl' => hnum l' (List.mem_cons_of_mem _ hl'))
      (fun l' hl' => hmono _ (hd l' (List.mem_cons_of_mem _ hl')))

/-- The computed deletion list for a dict target without the root filter. -/
theorem compute_to_delete_dict_noignore (resource : Str)
    (m : List (Str × Int)) (rows : List Category) :
    compute_to_delete resource (.dict m) false rows =
      .ok ((rows.map fun r => r.path).filter fun p =>
        !(covered (m.map fun e => e.1) p)) := by
  rw [compute_to_delete]
  simp

/-- The computed deletion list for the account resource with the root filter
active: uncovered paths that are not single-segment roots. -/
theorem compute_to_delete_acct_ignore (m : List (Str × Int))
    (rows : List Category) :
    compute_to_delete (str "account") (.dict m) true rows =
      .ok (((rows.map fun r => r.path).filter fun p =>
        !(covered (m.map fun e => e.1) p)).filter fun p =>
          !(isRootPath p)) := by
  rw [compute_to_delete]
  simp

/-- Members of the missing-leaves set are target keys unknown to the dict. -/
theorem missing_leaves_mem (t : Target) (c : List (Str × Nat))
    (o : List Str) :
    ∀ l ∈ missing_leaves t c o, l ∈ tkeysOf t ∧ dmem c l = false := by
  intro l hl
  rw [missing_leaves, List.mem_filter] at hl
  have hc := hl.2
  rw [Bool.and_eq_true, Bool.and_eq_true] at hc
  obtain ⟨⟨hk, hd⟩, _⟩ := hc
  rw [Bool.not_eq_true'] at hd
  exact ⟨by simpa using hk, hd⟩

/-- A dict-target key has a bound number. -/
theorem dget_of_key_mem (m : List (Str × Int)) (l : Str)
    (h : l ∈ tkeysOf (Target.dict m)) : ∃ v, dget m l = some v := by
  have hmem : dmem m l = true := by
    rw [tkeysOf] at h
    obtain ⟨e, he, hel⟩ := List.mem_map.mp h
    rw [dmem, List.any_eq_true]
    exact ⟨e, he, by simp [hel]⟩
  exact Option.isSome_iff_exists.mp (dget_isSome_of_dmem hmem)

/-- The two-segment prefix of a target key is covered by that key. -/
theorem covered_take_two (tp : List Str) (l : Str) (hl : l ∈ tp) :
    covered tp (joinSlash ((splitSlash l).take 2)) = true := by
  rw [covered, List.any_eq_true]
  refine ⟨l, hl, ?_⟩
  rw [List.isPrefixOf_iff_prefix]
  have hh := joinSlash_take_isPrefix (splitSlash l) 2
  rw [joinSlash_splitSlash] at hh
  exact hh

/-- For the `account` resource with the deletion flag and no root protection,
a remote state containing an uncovered root category makes the invocation
fail with the remote rejection: the root is selected for deletion and the
server refuses the batch. -/
theorem uc_acct_delete_rejected (m : List (Str × Int)) (order : List Str)
    (server : List Category) (nextId : Nat) (r0 : Category)
    (hnp : (server.map fun r => r.path).Nodup)
    (hr0 : r0 ∈ server) (hroot : isRootPath r0.path = true)
    (huncov : covered (m.map fun e => e.1) r0.path = false) :
    (update_categories (str "account") (.dict m) true false order server
      nextId).err = some .remoteRejected := by
  have hsh : ¬ (((str "account" : Str) = str "account" ∧
      is_dict (Target.dict m) = false) ∨
      (¬ (str "account" : Str) = str "account" ∧
        is_dict (Target.dict m) = true)) := by
    simp [is_dict]
  have hperm : (sort_cat_rows server).Perm server := isort_perm _ server
  have hndp : ((sort_cat_rows server).map fun r => r.path).Nodup :=
    (hperm.map _).nodup_iff.mpr hnp
  have hr0r : r0 ∈ sort_cat_rows server := hperm.mem_iff.mpr hr0
  have hct0 := compute_to_delete_dict_noignore (str "account") m
    (sort_cat_rows server)
  set td0 := ((sort_cat_rows server).map fun r => r.path).filter fun p =>
    !(covered (m.map fun e => e.1) p) with htd0
  have hr0td0 : r0.path ∈ td0 := by
    rw [htd0, List.mem_filter]
    exact ⟨List.mem_map.mpr ⟨r0, hr0r, rfl⟩, by rw [huncov]; rfl⟩
  have hne0 : ¬ td0.isEmpty = true := by
    intro hc
    rw [List.isEmpty_iff] at hc
    rw [hc] at hr0td0
    exact absurd hr0td0 (List.not_mem_nil _)
  have hnd_s0 : (sort_reverse td0).Nodup :=
    (isort_perm _ td0).nodup_iff.mpr (hndp.filter _)
  have hall0 : ∀ p ∈ sort_reverse td0,
      dmem (dict_of_rows (sort_cat_rows server)) p = true := by
    intro p hp
    have hp2 := (mem_isort _).mp hp
    rw [htd0, List.mem_filter] at hp2
    rw [dmem_dict_of_rows]
    obtain ⟨r, hr, hrp⟩ := List.mem_map.mp hp2.1
    exact ⟨r, hr, hrp⟩
  obtain ⟨ids0, cats1x, hp0⟩ := pop_ids_ok_of_nodup _ _ hnd_s0 hall0
  have hr0s : r0.path ∈ sort_reverse td0 := (mem_isort _).mpr hr0td0
  obtain ⟨⟨k, hk⟩, hgetk⟩ := List.mem_iff_get.mp hr0s
  have hlen0 := pop_ids_length _ _ _ _ hp0
  have hk2 : k < ids0.length := by
    rw [hlen0]
    exact hk
  have halk := pop_ids_align _ _ _ _ hp0 k hk hk2
  rw [hgetk, dget_dict_of_rows_nodup (sort_cat_rows server) hndp r0 hr0r]
    at halk
  have hid0 : r0.id ∈ ids0 := by
    have hval : ids0.get ⟨k, hk2⟩ = r0.id := by
      injection halk with hh
      exact hh.symm
    rw [← hval]
    exact List.get_mem _ _ _
  have hsv := server_delete_acct_err server ids0 r0 hr0 hid0 hroot
  have hds := delete_stage_eq_err (str "account") (Target.dict m) false
    (sort_cat_rows server) (dict_of_rows (sort_cat_rows server)) cats1x
    server td0 ids0 .remoteRejected hct0 hne0 hp0 hsv
  rw [uc_delete_error (str "account") (Target.dict m) true false order server
    nextId (sort_reverse td0) [.deleteCategories ids0] .remoteRejected hsh
    hds]

/-- A path that is itself a target key is covered. -/
theorem covered_self (tp : List Str) (p : Str) (hp : p ∈ tp) :
    covered tp p = true := by
  rw [covered, List.any_eq_true]
  exact ⟨p, hp, by simp⟩

/-- Endgame of an `account` run with the root filter active, given the
outcome of the deletion step: the renumber pass is silent, the create pass
succeeds, and the reported result has no error, the characterized deletion
list, no delete batch naming the protected root, and the root row intact. -/
theorem uc_acct_ignore_finish (m : List (Str × Int)) (order : List Str)
    (server : List Category) (nextId : Nat) (r0 : Category)
    (tdsB : List Str) (trace1B : List ApiCall) (idsB : List Nat)
    (cats1B : List (Str × Nat)) (server1B : List Category)
    (hni : (server.map fun r => r.id).Nodup)
    (hr0 : r0 ∈ server) (hroot : isRootPath r0.path = true)
    (huncov : covered (m.map fun e => e.1) r0.path = false)
    (hkeys : ∀ p ∈ tkeysOf (Target.dict m), ∃ cs, p = '/' :: cs)
    (hfirst : ∀ p ∈ tkeysOf (Target.dict m), ∃ r ∈ server,
      r.path = joinSlash ((splitSlash p).take 2))
    (hds : delete_stage (str "account") (Target.dict m) true true
        (sort_cat_rows server) (dict_of_rows (sort_cat_rows server)) server =
      (tdsB, trace1B, .ok (idsB, cats1B, server1B)))
    (htds_iff : ∀ p, p ∈ tdsB ↔ ((∃ r ∈ server, r.path = p) ∧
      covered (m.map fun e => e.1) p = false ∧ isRootPath p = false))
    (htrace1 : trace1B = [] ∨ trace1B = [.deleteCategories idsB])
    (hids_nr : ¬ r0.id ∈ idsB)
    (hr0s1 : r0 ∈ server1B)
    (hcats1 : ∀ q, dmem cats1B q = true ↔
      (dmem (dict_of_rows (sort_cat_rows server)) q = true ∧ ¬ q ∈ tdsB)) :
    (update_categories (str "account") (.dict m) true true order server
        nextId).err = none ∧
    (∀ p, p ∈ (update_categories (str "account") (.dict m) true true order
        server nextId).toDelete ↔
      ((∃ r ∈ server, r.path = p) ∧ covered (m.map fun e => e.1) p = false ∧
        isRootPath p = false)) ∧
    (∀ ids, ApiCall.deleteCategories ids ∈
        (update_categories (str "account") (.dict m) true true order server
          nextId).trace → ¬ r0.id ∈ ids) ∧
    r0 ∈ (update_categories (str "account") (.dict m) true true order server
      nextId).server := by
  have hsh : ¬ (((str "account" : Str) = str "account" ∧
      is_dict (Target.dict m) = false) ∨
      (¬ (str "account" : Str) = str "account" ∧
        is_dict (Target.dict m) = true)) := by
    simp [is_dict]
  have hperm : (sort_cat_rows server).Perm server := isort_perm _ server
  have hndi : ((sort_cat_rows server).map fun r => r.id).Nodup :=
    (hperm.map _).nodup_iff.mpr hni
  have hr0r : r0 ∈ sort_cat_rows server := hperm.mem_iff.mpr hr0
  rcases hrn : renumber_stage (str "account") true (Target.dict m)
      (sort_cat_rows server) server1B trace1B with ⟨server2, trace2, e2⟩
  have he2 : e2 = none := by
    have hh : (renumber_stage (str "account") true (Target.dict m)
        (sort_cat_rows server) server1B trace1B).2.2 = none := by
      rw [renumber_stage, if_pos rfl]
      exact renumber_loop_ignore_ok _ _ _ _
    rw [hrn] at hh
    exact hh
  subst he2
  have hrn' : renumber_loop true (tmapOf (Target.dict m))
      (sort_cat_rows server) server1B trace1B = (server2, trace2, none) := by
    rw [renumber_stage, if_pos rfl] at hrn
    exact hrn
  have hr0s2 : r0 ∈ server2 := by
    have hh := renumber_loop_mem true (tmapOf (Target.dict m))
      (sort_cat_rows server) server1B trace1B r0 hr0s1
      (fun row hrow hrowid => by
        have hrow_eq : row = r0 :=
          List.inj_on_of_nodup_map hndi hrow hr0r hrowid
        subst hrow_eq
        show dget m row.path = none
        apply dget_none_of_not_dmem
        cases hdm : dmem m row.path with
        | false => rfl
        | true =>
          exfalso
          rw [dmem, List.any_eq_true] at hdm
          obtain ⟨e, he, hep⟩ := hdm
          have hmm : row.path ∈ m.map fun e => e.1 :=
            List.mem_map.mpr ⟨e, he, by simpa using hep⟩
          rw [covered_self _ _ hmm] at huncov
          exact absurd huncov (by simp))
    rw [hrn'] at hh
    exact hh
  have hml := missing_leaves_mem (Target.dict m) cats1B order
  have hhead2 : ∀ l ∈ missing_leaves (Target.dict m) cats1B order,
      ∃ cs, l = '/' :: cs := fun l hl => hkeys l (hml l hl).1
  have hnum2 : ∀ l ∈ missing_leaves (Target.dict m) cats1B order,
      ∃ v, dget m l = some v := fun l hl => dget_of_key_mem m l (hml l hl).1
  have hd2 : ∀ l ∈ missing_leaves (Target.dict m) cats1B order,
      dmem cats1B (joinSlash ((splitSlash l).take 2)) = true := by
    intro l hl
    have hlk := (hml l hl).1
    refine (hcats1 _).mpr ⟨?_, ?_⟩
    · obtain ⟨r, hrs, hrq⟩ := hfirst l hlk
      rw [dmem_dict_of_rows]
      exact ⟨r, hperm.mem_iff.mpr hrs, hrq⟩
    · intro hc
      have hcv := ((htds_iff _).mp hc).2.1
      have hct := covered_take_two (m.map fun e => e.1) l
        (by simpa [tkeysOf] using hlk)
      rw [hct] at hcv
      exact absurd hcv (by simp)
  obtain ⟨stf, hcl⟩ := create_loop_acct_ok m
    (missing_leaves (Target.dict m) cats1B order)
    { server := server2, cats := cats1B, trace := trace2, created := [],
      nextId := nextId } hhead2 hnum2 hd2
  rw [uc_create_result (str "account") (Target.dict m) true true order server
    nextId tdsB trace1B trace2 idsB cats1B server1B server2 stf none hsh hds
    hrn hcl]
  obtain ⟨hmono, hcrt, newt, hnt, hnt2⟩ := create_loop_effects
    (str "account") (Target.dict m)
    (missing_leaves (Target.dict m) cats1B order) _ stf none hcl
  dsimp only at hnt
  have hrtr := renumber_stage_trace (str "account") true (Target.dict m)
    (sort_cat_rows server) server1B trace1B
  rw [hrn] at hrtr
  obtain ⟨appN, happN, happN2⟩ := hrtr
  dsimp only at happN
  refine ⟨rfl, fun p => htds_iff p, ?_, ?_⟩
  · intro ids hmem hcon
    dsimp only at hmem
    rw [hnt] at hmem
    rcases List.mem_append.mp hmem with hmem | hmem
    · rw [happN] at hmem
      rcases List.mem_append.mp hmem with hmem | hmem
      · rcases htrace1 with h1 | h1
        · rw [h1] at hmem
          exact absurd hmem (List.not_mem_nil _)
        · rw [h1, List.mem_singleton] at hmem
          injection hmem with hh
          rw [hh] at hcon
          exact hids_nr hcon
      · have hbad := happN2 _ hmem
        simp [isUpdateNum] at hbad
    · have hbad := hnt2 _ hmem
      simp [isCreateCat] at hbad
  · exact create_loop_server_mono _ _ _ _ stf none hcl r0 hr0s2

/-- An `account` reconciliation with the deletion flag and the root filter
active never fails when every target key is an absolute path whose root
segment exists remotely: the run succeeds, deletes exactly the uncovered
non-root paths, and never touches an uncovered root category. -/
theorem uc_acct_ignore_run (m : List (Str × Int)) (order : List Str)
    (server : List Category) (nextId : Nat) (r0 : Category)
    (hnp : (server.map fun r => r.path).Nodup)
    (hni : (server.map fun r => r.id).Nodup)
    (hr0 : r0 ∈ server) (hroot : isRootPath r0.path = true)
    (huncov : covered (m.map fun e => e.1) r0.path = false)
    (hkeys : ∀ p ∈ tkeysOf (Target.dict m), ∃ cs, p = '/' :: cs)
    (hfirst : ∀ p ∈ tkeysOf (Target.dict m), ∃ r ∈ server,
      r.path = joinSlash ((splitSlash p).take 2)) :
    (update_categories (str "account") (.dict m) true true order server
        nextId).err = none ∧
    (∀ p, p ∈ (update_categories (str "account") (.dict m) true true order
        server nextId).toDelete ↔
      ((∃ r ∈ server, r.path = p) ∧ covered (m.map fun e => e.1) p = false ∧
        isRootPath p = false)) ∧
    (∀ ids, ApiCall.deleteCategories ids ∈
        (update_categories (str "account") (.dict m) true true order server
          nextId).trace → ¬ r0.id ∈ ids) ∧
    r0 ∈ (update_categories (str "account") (.dict m) true true order server
      nextId).server := by
  have hperm : (sort_cat_rows server).Perm server := isort_perm _ server
  have hndp : ((sort_cat_rows server).map fun r => r.path).Nodup :=
    (hperm.map _).nodup_iff.mpr hnp
  have hndi : ((sort_cat_rows server).map fun r => r.id).Nodup :=
    (hperm.map _).nodup_iff.mpr hni
  have hct1 := compute_to_delete_acct_ignore m (sort_cat_rows server)
  set td0 := ((sort_cat_rows server).map fun r => r.path).filter fun p =>
    !(covered (m.map fun e => e.1) p) with htd0
  set td1 := td0.filter fun p => !(isRootPath p) with htd1
  have hchar : ∀ p, p ∈ td1 ↔ ((∃ r ∈ server, r.path = p) ∧
      covered (m.map fun e => e.1) p = false ∧ isRootPath p = false) := by
    intro p
    rw [htd1, List.mem_filter, htd0, List.mem_filter]
    constructor
    · rintro ⟨⟨hmem, hcov⟩, hrt⟩
      obtain ⟨r, hr, hrp⟩ := List.mem_map.mp hmem
      rw [Bool.not_eq_true'] at hcov hrt
      exact ⟨⟨r, hperm.mem_iff.mp hr, hrp⟩, hcov, hrt⟩
    · rintro ⟨⟨r, hr, hrp⟩, hcov, hrt⟩
      exact ⟨⟨List.mem_map.mpr ⟨r, hperm.mem_iff.mpr hr, hrp⟩,
        by rw [hcov]; rfl⟩, by rw [hrt]; rfl⟩
  by_cases h0 : td1.isEmpty = true
  · have htd1nil := List.isEmpty_iff.mp h0
    have hct1' : compute_to_delete (str "account") (Target.dict m) true
        (sort_cat_rows server) = .ok [] := by
      rw [hct1, htd1nil]
    have hds := delete_stage_eq_empty (str "account") (Target.dict m) true
      (sort_cat_rows server) (dict_of_rows (sort_cat_rows server)) server
      hct1'
    refine uc_acct_ignore_finish m order server nextId r0 [] [] []
      (dict_of_rows (sort_cat_rows server)) server hni hr0 hroot huncov
      hkeys hfirst hds ?_ (Or.inl rfl) (List.not_mem_nil _) hr0 ?_
    · intro p
      constructor
      · intro hp
        exact absurd hp (List.not_mem_nil p)
      · intro hp
        have hmem := (hchar p).mpr hp
        rw [htd1nil] at hmem
        exact absurd hmem (List.not_mem_nil p)
    · intro q
      simp
  · have hnd1 : td1.Nodup := (hndp.filter _).filter _
    have hnd_s1 : (sort_reverse td1).Nodup :=
      (isort_perm _ td1).nodup_iff.mpr hnd1
    have hall1 : ∀ p ∈ sort_reverse td1,
        dmem (dict_of_rows (sort_cat_rows server)) p = true := by
      intro p hp
      have hp2 := (mem_isort _).mp hp
      rw [htd1, List.mem_filter, htd0, List.mem_filter] at hp2
      rw [dmem_dict_of_rows]
      obtain ⟨r, hr, hrp⟩ := List.mem_map.mp hp2.1.1
      exact ⟨r, hr, hrp⟩
    obtain ⟨ids1, cats1, hp1⟩ := pop_ids_ok_of_nodup _ _ hnd_s1 hall1
    have hlen1 := pop_ids_length _ _ _ _ hp1
    have hno : ∀ r ∈ server, isRootPath r.path = true → ¬ r.id ∈ ids1 := by
      intro r' hr' hroot' hid'
      obtain ⟨⟨k, hk2⟩, hgetid⟩ := List.mem_iff_get.mp hid'
      have hk : k < (sort_reverse td1).length := by
        rw [← hlen1]
        exact hk2
      have halk := pop_ids_align _ _ _ _ hp1 k hk hk2
      rw [hgetid] at halk
      have hpair := dget_mem halk
      rw [dict_of_rows] at hpair
      obtain ⟨row, hrow, heq⟩ := List.mem_map.mp hpair
      have hrowpath : row.path = (sort_reverse td1).get ⟨k, hk⟩ :=
        congrArg Prod.fst heq
      have hrowid : row.id = r'.id := congrArg Prod.snd heq
      have hrow_eq : row = r' := List.inj_on_of_nodup_map hndi hrow
        (hperm.mem_iff.mpr hr') hrowid
      have hps : r'.path ∈ sort_reverse td1 := by
        rw [← hrow_eq, hrowpath]
        exact List.get_mem _ _ _
      have hrt := ((hchar _).mp ((mem_isort _).mp hps)).2.2
      rw [hroot'] at hrt
      exact absurd hrt (by simp)
    have hsv := server_delete_ok_of_no_root (str "account") server ids1 hno
    have hne1 : ¬ td1.isEmpty = true := h0
    have hds := delete_stage_eq_ok (str "account") (Target.dict m) true
      (sort_cat_rows server) (dict_of_rows (sort_cat_rows server)) cats1
      server (server.filter fun r => !(ids1.contains r.id)) td1 ids1 hct1
      hne1 hp1 hsv
    refine uc_acct_ignore_finish m order server nextId r0 (sort_reverse td1)
      [.deleteCategories ids1] ids1 cats1
      (server.filter fun r => !(ids1.contains r.id)) hni hr0 hroot huncov
      hkeys hfirst hds ?_ (Or.inr rfl) (hno r0 hr0 hroot) ?_
      (fun q => pop_ids_dmem _ _ _ _ hp1 q)
    · intro p
      constructor
      · intro hp
        exact (hchar p).mp ((mem_isort _).mp hp)
      · intro hp
        exact (mem_isort _).mpr ((hchar p).mpr hp)
    · rw [List.mem_filter]
      refine ⟨hr0, ?_⟩
      have hr0ni := hno r0 hr0 hroot
      simpa using hr0ni

/-- C3 counterexample: with a target dict omitting the existing root
`/Balance` and `delete=True`, the `ignore_account_root_nodes=False` call
fails with the remote rejection of the delete batch — not with the
root-immutability error, which is only raised by the renumber step — and the
`ignore_account_root_nodes=True` call succeeds but does NOT leave the root's
subtree untouched: the uncovered descendant `/Balance/Sub` is selected and
deleted, leaving only the root itself. -/
theorem c3_counterexample :
    (update_categories (str "account") (.dict []) true false []
        c3server 10).err = some .remoteRejected ∧
    ¬ (update_categories (str "account") (.dict []) true false []
        c3server 10).err = some .rootImmutable ∧
    (update_categories (str "account") (.dict []) true true []
        c3server 10).err = none ∧
    str "/Balance/Sub" ∈ (update_categories (str "account") (.dict []) true
        true [] c3server 10).toDelete ∧
    ApiCall.deleteCategories [2] ∈ (update_categories (str "account")
        (.dict []) true true [] c3server 10).trace ∧
    ((update_categories (str "account") (.dict []) true true []
        c3server 10).server.map fun r => r.path) = [str "/Balance"] :=
  ⟨by decide, by decide, by decide, by decide, by decide, by decide⟩

/-- C3 (amended): for the `account` resource with `delete=True` and a target
dict under which an existing single-segment root path is uncovered (no key
equals or extends it), the `ignore_account_root_nodes=False` call fails with
the remote rejection of its delete batch (account roots are immutable on the
server); the `ignore_account_root_nodes=True` call — on a state with
duplicate-free paths and ids whose target keys are absolute paths with
existing root segments — succeeds, selects for deletion exactly the
uncovered non-root paths (so uncovered descendants of the protected root ARE
deleted), never names the protected root's id in a delete batch, and leaves
the root row itself untouched in the remote state. -/
theorem c3_root_protection (m : List (Str × Int)) (order : List Str)
    (server : List Category) (nextId : Nat) (r0 : Category)
    (hnp : (server.map fun r => r.path).Nodup)
    (hni : (server.map fun r => r.id).Nodup)
    (hr0 : r0 ∈ server) (hroot : isRootPath r0.path = true)
    (huncov : covered (m.map fun e => e.1) r0.path = false)
    (hkeys : ∀ p ∈ tkeysOf (Target.dict m), ∃ cs, p = '/' :: cs)
    (hfirst : ∀ p ∈ tkeysOf (Target.dict m), ∃ r ∈ server,
      r.path = joinSlash ((splitSlash p).take 2)) :
    (update_categories (str "account") (.dict m) true false order server
        nextId).err = some .remoteRejected ∧
    (update_categories (str "account") (.dict m) true true order server
        nextId).err = none ∧
    (∀ p, p ∈ (update_categories (str "account") (.dict m) true true order
        server nextId).toDelete ↔
      ((∃ r ∈ server, r.path = p) ∧ covered (m.map fun e => e.1) p = false ∧
        isRootPath p = false)) ∧
    (∀ ids, ApiCall.deleteCategories ids ∈
        (update_categories (str "account") (.dict m) true true order server
          nextId).trace → ¬ r0.id ∈ ids) ∧
    r0 ∈ (update_categories (str "account") (.dict m) true true order server
      nextId).server := by
  have hB := uc_acct_ignore_run m order server nextId r0 hnp hni hr0 hroot
    huncov hkeys hfirst
  exact ⟨uc_acct_delete_rejected m order server nextId r0 hnp hr0 hroot
    huncov, hB.1, hB.2.1, hB.2.2.1, hB.2.2.2⟩

/-- Witness for C3 at a two-root account state: the unprotected run is
rejected remotely, the protected run succeeds, deletes the stale child and
keeps the root row. -/
theorem c3_root_protection_witness :
    (update_categories (str "account") (.dict [(str "/Assets/Cash", 5)]) true
        false [str "/Assets/Cash"] c3wserver 10).err = some .remoteRejected ∧
    (update_categories (str "account") (.dict [(str "/Assets/Cash", 5)]) true
        true [str "/Assets/Cash"] c3wserver 10).err = none ∧
    str "/Balance/Sub" ∈ (update_categories (str "account")
        (.dict [(str "/Assets/Cash", 5)]) true true [str "/Assets/Cash"]
        c3wserver 10).toDelete ∧
    c3wrow ∈ (update_categories (str "account")
        (.dict [(str "/Assets/Cash", 5)]) true true [str "/Assets/Cash"]
        c3wserver 10).server := by
  have hh := c3_root_protection [(str "/Assets/Cash", 5)] [str "/Assets/Cash"]
    c3wserver 10 c3wrow (by decide) (by decide) (by decide) (by decide)
    (by decide)
    (by
      intro p hp
      simp only [tkeysOf, List.map_cons, List.map_nil,
        List.mem_singleton] at hp
      exact ⟨str "Assets/Cash", by rw [hp]; rfl⟩)
    (by decide)
  exact ⟨hh.1, hh.2.1, (hh.2.2.1 (str "/Balance/Sub")).mpr (by decide),
    hh.2.2.2.2⟩

/-- A single walk step can only fail with a key-lookup or root-creation
error. -/
theorem walk_step_err (r : Str) (t : Target) (leaf : Str) (ns : List Str)
    (i : Nat) (st st' : UCState) (e : UErr)
    (h : walk_step r t leaf ns i st = (st', some e)) :
    e = .keyError ∨ e = .rootCreation := by
  rw [walk_step.eq_def] at h
  by_cases hmem : dmem st.cats (joinSlash (ns.take (i + 1))) = true
  · rw [if_pos hmem] at h
    injection h with h1 h2
    exact absurd h2 (by simp)
  · rw [Bool.not_eq_true] at hmem
    simp only [hmem, Bool.false_eq_true, if_false] at h
    by_cases hpp : joinSlash (ns.take i) = []
    · rw [if_neg (not_not_intro hpp)] at h
      by_cases hacc : r = str "account"
      · rw [if_pos hacc] at h
        dsimp only at h
        injection h with h1 h2
        injection h2 with h3
        exact Or.inr h3.symm
      · rw [if_neg hacc] at h
        dsimp only at h
        rw [if_neg hacc] at h
        dsimp only at h
        injection h with h1 h2
        exact absurd h2 (by simp)
    · rw [if_pos hpp] at h
      cases hg : dget st.cats (joinSlash (ns.take i)) with
      | none =>
        rw [hg] at h
        dsimp only at h
        injection h with h1 h2
        injection h2 with h3
        exact Or.inl h3.symm
      | some pid =>
        rw [hg] at h
        dsimp only at h
        by_cases hacc : r = str "account"
        · rw [if_pos hacc] at h
          cases t with
          | dict mm =>
            dsimp only at h
            cases hgm : dget mm leaf with
            | none =>
              rw [hgm] at h
              dsimp only at h
              injection h with h1 h2
              injection h2 with h3
              exact Or.inl h3.symm
            | some n =>
              rw [hgm] at h
              dsimp only at h
              injection h with h1 h2
              exact absurd h2 (by simp)
          | list ps =>
            dsimp only at h
            injection h with h1 h2
            injection h2 with h3
            exact Or.inl h3.symm
        · rw [if_neg hacc] at h
          dsimp only at h
          injection h with h1 h2
          exact absurd h2 (by simp)

/-- The walk over an index list can only fail with a key-lookup or
root-creation error. -/
theorem walk_idxs_err (r : Str) (t : Target) (leaf : Str) (ns : List Str)
    (idxs : List Nat) (st st' : UCState) (e : UErr)
    (h : walk_idxs r t leaf ns idxs st = (st', some e)) :
    e = .keyError ∨ e = .rootCreation := by
  induction idxs generalizing st with
  | nil =>
    rw [walk_idxs] at h
    injection h with h1 h2
    exact absurd h2 (by simp)
  | cons i rest ih =>
    rw [walk_idxs] at h
    rcases hstep : walk_step r t leaf ns i st with ⟨st1, e1⟩
    rw [hstep] at h
    cases e1 with
    | some e0 =>
      dsimp only at h
      injection h with h1 h2
      injection h2 with h3
      rw [← h3]
      exact walk_step_err r t leaf ns i st st1 e0 hstep
    | none => exact ih st1 h

/-- The create loop can only fail with a key-lookup or root-creation
error. -/
theorem create_loop_err (r : Str) (t : Target) (leaves : List Str)
    (st st' : UCState) (e : UErr)
    (h : create_loop r t leaves st = (st', some e)) :
    e = .keyError ∨ e = .rootCreation := by
  induction leaves generalizing st with
  | nil =>
    rw [create_loop] at h
    injection h with h1 h2
    exact absurd h2 (by simp)
  | cons l rest ih =>
    rw [create_loop] at h
    rcases hwl : walk_leaf r t l st with ⟨st1, e1⟩
    rw [hwl] at h
    cases e1 with
    | some e0 =>
      dsimp only at h
      injection h with h1 h2
      injection h2 with h3
      rw [← h3]
      rw [walk_leaf] at hwl
      exact walk_idxs_err r t l (splitSlash l) _ st st1 e0 hwl
    | none => exact ih st1 h

/-- A failing pop raises a key error. -/
theorem pop_ids_err (cats : List (Str × Nat)) (ps : List Str) (e : UErr)
    (h : pop_ids cats ps = .error e) : e = .keyError := by
  induction ps generalizing cats with
  | nil =>
    rw [pop_ids] at h
    exact absurd h (by simp)
  | cons p rest ih =>
    rw [pop_ids] at h
    cases hp : dpop cats p with
    | none =>
      rw [hp] at h
      dsimp only at h
      injection h with h1
      exact h1.symm
    | some v =>
      rcases v with ⟨i, cats1⟩
      rw [hp] at h
      dsimp only at h
      cases hrest : pop_ids cats1 rest with
      | error e1 =>
        rw [hrest] at h
        dsimp only at h
        injection h with h1
        subst h1
        exact ih cats1 hrest
      | ok w =>
        rcases w with ⟨ids1, cats2⟩
        rw [hrest] at h
        exact absurd h (by simp)

/-- A failing computed deletion list raises the attribute error. -/
theorem compute_to_delete_err (resource : Str) (target : Target)
    (ignore : Bool) (rows : List Category) (e : UErr)
    (h : compute_to_delete resource target ignore rows = .error e) :
    e = .attrError := by
  rw [compute_to_delete.eq_def] at h
  cases target with
  | dict m => exact absurd h (by simp)
  | list ps =>
    by_cases h0 : rows.isEmpty = true
    · rw [if_pos h0] at h
      exact absurd h (by simp)
    · rw [if_neg h0] at h
      injection h with h1
      exact h1.symm

/-- A failing remote category delete is the remote rejection. -/
theorem server_delete_err (resource : Str) (server : List Category)
    (ids : List Nat) (e : UErr)
    (h : server_delete resource server ids = .error e) :
    e = .remoteRejected := by
  rw [server_delete] at h
  by_cases hc : resource = str "account" ∧
      (server.any fun r => ids.contains r.id && isRootPath r.path) = true
  · rw [if_pos hc] at h
    injection h with h1
    exact h1.symm
  · rw [if_neg hc] at h
    exact absurd h (by simp)

/-- A failing deletion step raises an attribute, key or rejection error. -/
theorem delete_stage_err (resource : Str) (target : Target)
    (deleteFlag ignore : Bool) (rows : List Category)
    (cats0 : List (Str × Nat)) (server0 : List Category) (tds : List Str)
    (trace1 : List ApiCall) (e : UErr)
    (h : delete_stage resource target deleteFlag ignore rows cats0 server0 =
      (tds, trace1, .error e)) :
    e = .attrError ∨ e = .keyError ∨ e = .remoteRejected := by
  rw [delete_stage] at h
  cases deleteFlag with
  | false => exact absurd h (by simp)
  | true =>
    simp only [if_true] at h
    cases hct : compute_to_delete resource target ignore rows with
    | error e0 =>
      rw [hct] at h
      dsimp only at h
      injection h with h1 h2
      injection h2 with h3 h4
      injection h4 with h5
      rw [← h5]
      exact Or.inl (compute_to_delete_err resource target ignore rows e0 hct)
    | ok td =>
      rw [hct] at h
      dsimp only at h
      by_cases h0 : td.isEmpty = true
      · rw [if_pos h0] at h
        exact absurd h (by simp)
      · rw [if_neg h0] at h
        cases hp : pop_ids cats0 (sort_reverse td) with
        | error e1 =>
          rw [hp] at h
          dsimp only at h
          injection h with h1 h2
          injection h2 with h3 h4
          injection h4 with h5
          rw [← h5]
          exact Or.inr (Or.inl (pop_ids_err cats0 (sort_reverse td) e1 hp))
        | ok v =>
          rcases v with ⟨ids, cats1⟩
          rw [hp] at h
          dsimp only at h
          cases hsv : server_delete resource server0 ids with
          | error e2 =>
            rw [hsv] at h
            dsimp only at h
            injection h with h1 h2
            injection h2 with h3 h4
            injection h4 with h5
            rw [← h5]
            exact Or.inr (Or.inr (server_delete_err resource server0 ids e2
              hsv))
          | ok server1 =>
            rw [hsv] at h
            exact absurd h (by simp)

/-- A failing renumber loop raises the root-immutability error. -/
theorem renumber_loop_err (ignore : Bool) (tm : List (Str × Int))
    (rows server : List Category) (trace : List ApiCall) (e : UErr)
    (h : (renumber_loop ignore tm rows server trace).2.2 = some e) :
    e = .rootImmutable := by
  induction rows generalizing server trace with
  | nil =>
    rw [renumber_loop] at h
    exact absurd h (by simp)
  | cons row rest ih =>
    rw [renumber_loop] at h
    cases hg : dget tm row.path with
    | none =>
      rw [hg] at h
      exact ih server trace h
    | some v =>
      rw [hg] at h
      dsimp only at h
      by_cases hdf : number_differs row.number v = true
      · rw [if_pos hdf] at h
        by_cases hrt : isRootPath row.path = true
        · rw [if_pos hrt] at h
          cases ignore with
          | true =>
            rw [if_pos rfl] at h
            exact ih server trace h
          | false =>
            rw [if_neg (by simp)] at h
            dsimp only at h
            injection h with h1
            exact h1.symm
        · rw [if_neg hrt] at h
          exact ih _ _ h
      · rw [if_neg hdf] at h
        exact ih server trace h

/-- A failing renumber step raises the root-immutability error. -/
theorem renumber_stage_err (resource : Str) (ignore : Bool) (t : Target)
    (rows server1 : List Category) (trace1 : List ApiCall) (e : UErr)
    (h : (renumber_stage resource ignore t rows server1 trace1).2.2 =
      some e) : e = .rootImmutable := by
  rw [renumber_stage] at h
  by_cases hacc : resource = str "account"
  · rw [if_pos hacc] at h
    exact renumber_loop_err ignore (tmapOf t) rows server1 trace1 e h
  · rw [if_neg hacc] at h
    exact absurd h (by simp)

/-- `update_categories` never reports the duplicate-remote-paths error: that
error belongs to `mirror_directory` alone. -/
theorem update_categories_err_ne_dup (resource : Str) (target : Target)
    (deleteFlag ignore : Bool) (order : List Str) (server : List Category)
    (nextId : Nat) :
    ¬ (update_categories resource target deleteFlag ignore order server
      nextId).err = some .duplicatePaths := by
  by_cases hsh : (resource = str "account" ∧ is_dict target = false) ∨
      (¬ resource = str "account" ∧ is_dict target = true)
  · have hrec : update_categories resource target deleteFlag ignore order
        server nextId =
        { err := some .typeMismatch, trace := [], server := server,
          toDelete := [], deletedIds := [], catsAfterDelete := [],
          created := [], cats := [], nextId := nextId } := by
      unfold update_categories
      rw [if_pos hsh]
    rw [hrec]
    simp
  · rcases hds : delete_stage resource target deleteFlag ignore
        (sort_cat_rows server) (dict_of_rows (sort_cat_rows server)) server
      with ⟨tds, trace1, res⟩
    cases res with
    | error e =>
      rw [uc_delete_error resource target deleteFlag ignore order server
        nextId tds trace1 e hsh hds]
      intro hc
      injection hc with h1
      rcases delete_stage_err resource target deleteFlag ignore
        (sort_cat_rows server) (dict_of_rows (sort_cat_rows server)) server
        tds trace1 e hds with h | h | h <;> rw [h1] at h <;>
        exact absurd h (by simp)
    | ok v =>
      rcases v with ⟨ids, cats1, server1⟩
      rcases hrn : renumber_stage resource ignore target
          (sort_cat_rows server) server1 trace1 with ⟨server2, trace2, e2⟩
      cases e2 with
      | some e =>
        rw [uc_renumber_error resource target deleteFlag ignore order server
          nextId tds trace1 trace2 ids cats1 server1 server2 e hsh hds hrn]
        intro hc
        injection hc with h1
        have hh : e = .rootImmutable := by
          apply renumber_stage_err resource ignore target
            (sort_cat_rows server) server1 trace1 e
          rw [hrn]
        rw [h1] at hh
        exact absurd hh (by simp)
      | none =>
        rcases hcl : create_loop resource target
            (missing_leaves target cats1 order)
            { server := server2, cats := cats1, trace := trace2,
              created := [], nextId := nextId } with ⟨st, e3⟩
        rw [uc_create_result resource target deleteFlag ignore order server
          nextId tds trace1 trace2 ids cats1 server1 server2 st e3 hsh hds
          hrn hcl]
        intro hc
        dsimp only at hc
        cases e3 with
        | none => exact absurd hc (by simp)
        | some e =>
          injection hc with h1
          rcases create_loop_err resource target
              (missing_leaves target cats1 order) _ st e hcl with h | h <;>
            rw [h1] at h <;> exact absurd h (by simp)

/-- The kept rows of the deletion mask have pairwise distinct paths none of
which was seen before. -/
theorem mirror_split_keep_nodup (lp : List Str) (rows : List RemoteFile)
    (seen : List Str) :
    ((mirror_split lp rows seen).2.map fun r => r.path).Nodup ∧
      ∀ r ∈ (mirror_split lp rows seen).2, ¬ r.path ∈ seen := by
  induction rows generalizing seen with
  | nil =>
    rw [mirror_split]
    exact ⟨List.nodup_nil, fun r hr => absurd hr (List.not_mem_nil r)⟩
  | cons r rest ih =>
    rcases hsp : mirror_split lp rest (r.path :: seen) with ⟨del, keep⟩
    have hunf : mirror_split lp (r :: rest) seen =
        if (seen.contains r.path || !(lp.contains r.path)) = true
        then (r :: del, keep) else (del, r :: keep) := by
      rw [mirror_split, hsp]
    have ihs := ih (r.path :: seen)
    rw [hsp] at ihs
    rw [hunf]
    by_cases hm : (seen.contains r.path || !(lp.contains r.path)) = true
    · rw [if_pos hm]
      dsimp only
      exact ⟨ihs.1, fun x hx hc =>
        ihs.2 x hx (List.mem_cons_of_mem _ hc)⟩
    · rw [if_neg hm]
      dsimp only
      rw [Bool.not_eq_true, Bool.or_eq_false_iff] at hm
      constructor
      · rw [List.map_cons, List.nodup_cons]
        refine ⟨?_, ihs.1⟩
        intro hc
        obtain ⟨x, hx, hxp⟩ := List.mem_map.mp hc
        exact ihs.2 x hx (hxp ▸ List.mem_cons_self _ _)
      · intro x hx
        rcases List.mem_cons.mp hx with hx | hx
        · subst hx
          intro hc
          have hcc : seen.contains x.path = true := by simpa using hc
          rw [hcc] at hm
          exact absurd hm.1 (by simp)
        · exact fun hc => ihs.2 x hx (List.mem_cons_of_mem _ hc)

/-- If the deletion mask marks nothing, it keeps every row. -/
theorem mirror_split_del_nil (lp : List Str) (rows : List RemoteFile)
    (seen : List Str) (h : (mirror_split lp rows seen).1 = []) :
    (mirror_split lp rows seen).2 = rows := by
  induction rows generalizing seen with
  | nil => rw [mirror_split]
  | cons r rest ih =>
    rcases hsp : mirror_split lp rest (r.path :: seen) with ⟨del, keep⟩
    have hunf : mirror_split lp (r :: rest) seen =
        if (seen.contains r.path || !(lp.contains r.path)) = true
        then (r :: del, keep) else (del, r :: keep) := by
      rw [mirror_split, hsp]
    rw [hunf] at h ⊢
    by_cases hm : (seen.contains r.path || !(lp.contains r.path)) = true
    · rw [if_pos hm] at h
      dsimp only at h
      exact absurd h (by simp)
    · rw [if_neg hm] at h ⊢
      dsimp only at h ⊢
      have ihs := ih (r.path :: seen)
      rw [hsp] at ihs
      dsimp only at ihs
      rw [ihs h]

/-- A row list with pairwise distinct paths has no duplicated path. -/
theorem has_dup_paths_eq_false (rows : List RemoteFile)
    (h : (rows.map fun r => r.path).Nodup) : has_dup_paths rows = false := by
  induction rows with
  | nil => rw [has_dup_paths]
  | cons r rest ih =>
    rw [List.map_cons, List.nodup_cons] at h
    rw [has_dup_paths, Bool.or_eq_false_iff]
    refine ⟨?_, ih h.2⟩
    cases hany : rest.any fun x => decide (x.path = r.path) with
    | false => rfl
    | true =>
      rw [List.any_eq_true] at hany
      obtain ⟨x, hx, hxp⟩ := hany
      exact absurd (List.mem_map.mpr ⟨x, hx, by simpa using hxp⟩) h.1

/-- A failing re-upload loop raises a key error. -/
theorem update_uploads_err (cmap : List (Str × Option Nat))
    (remote : List RemoteFile) (lfs : List LocalFile)
    (trace : List ApiCall) (e : UErr)
    (h : (update_uploads cmap remote lfs trace).2 = some e) :
    e = .keyError := by
  induction lfs generalizing trace with
  | nil =>
    rw [update_uploads] at h
    exact absurd h (by simp)
  | cons lf rest ih =>
    rw [update_uploads] at h
    cases hf : remote.find? fun r => decide (r.path = remote_path_of lf) with
    | none =>
      rw [hf] at h
      exact ih trace h
    | some r =>
      rw [hf] at h
      dsimp only at h
      by_cases hlt : r.lastUpdated < lf.mtime
      · rw [if_pos hlt] at h
        cases hg : dget cmap (remote_category_of lf) with
        | none =>
          rw [hg] at h
          dsimp only at h
          injection h with h1
          exact h1.symm
        | some cid =>
          rw [hg] at h
          exact ih _ h
      · rw [if_neg hlt] at h
        exact ih trace h

/-- A failing new-upload loop raises a key error. -/
theorem new_uploads_err (cmap : List (Str × Option Nat))
    (remote : List RemoteFile) (lfs : List LocalFile)
    (trace : List ApiCall) (e : UErr)
    (h : (new_uploads cmap remote lfs trace).2 = some e) :
    e = .keyError := by
  induction lfs generalizing trace with
  | nil =>
    rw [new_uploads] at h
    exact absurd h (by simp)
  | cons lf rest ih =>
    rw [new_uploads] at h
    by_cases ha : (remote.any fun r => decide (r.path = remote_path_of lf)) =
        true
    · rw [if_pos ha] at h
      exact ih trace h
    · rw [if_neg ha] at h
      cases hg : dget cmap (remote_category_of lf) with
      | none =>
        rw [hg] at h
        dsimp only at h
        injection h with h1
        exact h1.symm
      | some cid =>
        rw [hg] at h
        exact ih _ h

/-- C10: with `delete_files=True` the duplicate-remote-path check performed
after category reconciliation never raises: the deletion step removes every
remote row whose path is duplicated (keeping the first occurrence) or
unmatched, so the surviving remote set has pairwise distinct paths and the
`duplicatePaths` error branch is unreachable. -/
theorem c10_no_duplicate_error (localFiles : List LocalFile)
    (remoteFiles : List RemoteFile) (delete_categories : Bool)
    (catServer : List Category) (catOrder : List Str) (nextId0 : Nat) :
    has_dup_paths (mirror_directory localFiles remoteFiles true
        delete_categories catServer catOrder nextId0).remote = false ∧
    ¬ (mirror_directory localFiles remoteFiles true delete_categories
        catServer catOrder nextId0).err = some .duplicatePaths := by
  have hkeepN := mirror_split_keep_nodup (localFiles.map remote_path_of)
    remoteFiles []
  have hne := update_categories_err_ne_dup (str "file")
    (.list (localFiles.map remote_category_of)) delete_categories false
    catOrder catServer nextId0
  rw [mirror_directory]
  dsimp only
  rw [if_pos rfl]
  by_cases hdel : (mirror_split (localFiles.map remote_path_of) remoteFiles
      []).1.isEmpty = true
  · rw [if_neg (not_not_intro hdel), if_neg (not_not_intro hdel)]
    have hnr : has_dup_paths remoteFiles = false := by
      apply has_dup_paths_eq_false
      have hnil := List.isEmpty_iff.mp hdel
      have hkeq := mirror_split_del_nil (localFiles.map remote_path_of)
        remoteFiles [] hnil
      rw [← hkeq]
      exact hkeepN.1
    dsimp only
    cases hue : (update_categories (str "file")
        (Target.list (localFiles.map remote_category_of)) delete_categories
        false catOrder catServer nextId0).err with
    | some e =>
      dsimp only
      refine ⟨hnr, ?_⟩
      intro hc
      rw [hue] at hne
      exact hne hc
    | none =>
      dsimp only
      rw [if_neg (by rw [hnr]; simp)]
      split
      · next trace2 e2 heq =>
        refine ⟨hnr, ?_⟩
        intro hc
        injection hc with h1
        have hkey := update_uploads_err _ _ _ _ e2 (congrArg Prod.snd heq)
        rw [h1] at hkey
        exact absurd hkey (by simp)
      · next trace2 heq =>
        refine ⟨hnr, ?_⟩
        intro hc
        have hkey := new_uploads_err _ _ _ _ _ hc
        exact absurd hkey (by simp)
  · rw [if_pos hdel, if_pos hdel]
    have hnr : has_dup_paths (mirror_split (localFiles.map remote_path_of)
        remoteFiles []).2 = false := has_dup_paths_eq_false _ hkeepN.1
    dsimp only
    cases hue : (update_categories (str "file")
        (Target.list (localFiles.map remote_category_of)) delete_categories
        false catOrder catServer nextId0).err with
    | some e =>
      dsimp only
      refine ⟨hnr, ?_⟩
      intro hc
      rw [hue] at hne
      exact hne hc
    | none =>
      dsimp only
      rw [if_neg (by rw [hnr]; simp)]
      split
      · next trace2 e2 heq =>
        refine ⟨hnr, ?_⟩
        intro hc
        injection hc with h1
        have hkey := update_uploads_err _ _ _ _ e2 (congrArg Prod.snd heq)
        rw [h1] at hkey
        exact absurd hkey (by simp)
      · next trace2 heq =>
        refine ⟨hnr, ?_⟩
        intro hc
        have hkey := new_uploads_err _ _ _ _ _ hc
        exact absurd hkey (by simp)

/-- With every row local-matched, duplicate-free and unseen, the deletion
mask marks nothing. -/
theorem mirror_split_all_keep (lp : List Str) (rows : List RemoteFile)
    (seen : List Str)
    (hloc : ∀ r ∈ rows, r.path ∈ lp)
    (hnd : (rows.map fun r => r.path).Nodup)
    (hseen : ∀ r ∈ rows, ¬ r.path ∈ seen) :
    (mirror_split lp rows seen).1 = [] := by
  induction rows generalizing seen with
  | nil => rw [mirror_split]
  | cons r rest ih =>
    rcases hsp : mirror_split lp rest (r.path :: seen) with ⟨del, keep⟩
    have hunf : mirror_split lp (r :: rest) seen =
        if (seen.contains r.path || !(lp.contains r.path)) = true
        then (r :: del, keep) else (del, r :: keep) := by
      rw [mirror_split, hsp]
    rw [hunf]
    rw [List.map_cons, List.nodup_cons] at hnd
    have hm : (seen.contains r.path || !(lp.contains r.path)) = false := by
      rw [Bool.or_eq_false_iff]
      constructor
      · have := hseen r (List.mem_cons_self r rest)
        cases hc : seen.contains r.path with
        | false => rfl
        | true => exact absurd (by simpa using hc) this
      · have := hloc r (List.mem_cons_self r rest)
        cases hc : lp.contains r.path with
        | true => rfl
        | false =>
          exfalso
          have hcc : ¬ r.path ∈ lp := by simpa using hc
          exact hcc this
    rw [if_neg (by rw [hm]; simp)]
    dsimp only
    have hih := ih (r.path :: seen)
      (fun x hx => hloc x (List.mem_cons_of_mem r hx)) hnd.2
      (fun x hx => by
        intro hc
        rcases List.mem_cons.mp hc with hc | hc
        · exact hnd.1 (List.mem_map.mpr ⟨x, hx, hc⟩)
        · exact hseen x (List.mem_cons_of_mem r hx) hc)
    rw [hsp] at hih
    exact hih

/-- Every call `update_categories` issues is a category delete, a number
update or a category create. -/
theorem uc_trace_kinds (resource : Str) (target : Target)
    (deleteFlag ignore : Bool) (order : List Str) (server : List Category)
    (nextId : Nat) :
    ∀ c ∈ (update_categories resource target deleteFlag ignore order server
      nextId).trace,
      isDeleteCat c = true ∨ isUpdateNum c = true ∨ isCreateCat c = true := by
  by_cases hsh : (resource = str "account" ∧ is_dict target = false) ∨
      (¬ resource = str "account" ∧ is_dict target = true)
  · have hrec : update_categories resource target deleteFlag ignore order
        server nextId =
        { err := some .typeMismatch, trace := [], server := server,
          toDelete := [], deletedIds := [], catsAfterDelete := [],
          created := [], cats := [], nextId := nextId } := by
      unfold update_categories
      rw [if_pos hsh]
    rw [hrec]
    intro c hc
    exact absurd hc (List.not_mem_nil c)
  · rcases hds : delete_stage resource target deleteFlag ignore
        (sort_cat_rows server) (dict_of_rows (sort_cat_rows server)) server
      with ⟨tds, trace1, res⟩
    have htr1 : ∀ c ∈ trace1, isDeleteCat c = true := by
      have hh := delete_stage_trace resource target deleteFlag ignore
        (sort_cat_rows server) (dict_of_rows (sort_cat_rows server)) server
      rw [hds] at hh
      exact hh
    cases res with
    | error e =>
      rw [uc_delete_error resource target deleteFlag ignore order server
        nextId tds trace1 e hsh hds]
      exact fun c hc => Or.inl (htr1 c hc)
    | ok v =>
      rcases v with ⟨ids, cats1, server1⟩
      rcases hrn : renumber_stage resource ignore target
          (sort_cat_rows server) server1 trace1 with ⟨server2, trace2, e2⟩
      have hrtr := renumber_stage_trace resource ignore target
        (sort_cat_rows server) server1 trace1
      rw [hrn] at hrtr
      obtain ⟨appN, happN, happN2⟩ := hrtr
      dsimp only at happN
      have htr2 : ∀ c ∈ trace2,
          isDeleteCat c = true ∨ isUpdateNum c = true := by
        intro c hc
        rw [happN] at hc
        rcases List.mem_append.mp hc with hc | hc
        · exact Or.inl (htr1 c hc)
        · exact Or.inr (happN2 c hc)
      cases e2 with
      | some e =>
        rw [uc_renumber_error resource target deleteFlag ignore order server
          nextId tds trace1 trace2 ids cats1 server1 server2 e hsh hds hrn]
        intro c hc
        rcases htr2 c hc with h | h
        · exact Or.inl h
        · exact Or.inr (Or.inl h)
      | none =>
        rcases hcl : create_loop resource target
            (missing_leaves target cats1 order)
            { server := server2, cats := cats1, trace := trace2,
              created := [], nextId := nextId } with ⟨st, e3⟩
        rw [uc_create_result resource target deleteFlag ignore order server
          nextId tds trace1 trace2 ids cats1 server1 server2 st e3 hsh hds
          hrn hcl]
        obtain ⟨hmono, hcrt, newt, hnt, hnt2⟩ := create_loop_effects resource
          target (missing_leaves target cats1 order) _ st e3 hcl
        dsimp only at hnt
        intro c hc
        dsimp only at hc
        rw [hnt] at hc
        rcases List.mem_append.mp hc with hc | hc
        · rcases htr2 c hc with h | h
          · exact Or.inl h
          · exact Or.inr (Or.inl h)
        · exact Or.inr (Or.inr (hnt2 c hc))

/-- A category call is neither a file upload nor a file delete. -/
theorem cat_call_not_file {c : ApiCall}
    (hc : isDeleteCat c = true ∨ isUpdateNum c = true ∨
      isCreateCat c = true) :
    isUpload c = false ∧ isDeleteFiles c = false := by
  cases c <;> simp_all [isDeleteCat, isUpdateNum, isCreateCat, isUpload,
    isDeleteFiles]

/-- When no remote match is strictly older than its local file, the
re-upload loop does nothing. -/
theorem update_uploads_noop (cmap : List (Str × Option Nat))
    (remote : List RemoteFile) (lfs : List LocalFile) (trace : List ApiCall)
    (hts : ∀ lf ∈ lfs, ∀ r ∈ remote, r.path = remote_path_of lf →
      ¬ r.lastUpdated < lf.mtime) :
    update_uploads cmap remote lfs trace = (trace, none) := by
  induction lfs generalizing trace with
  | nil => rw [update_uploads]
  | cons lf rest ih =>
    rw [update_uploads]
    cases hf : remote.find? fun r => decide (r.path = remote_path_of lf) with
    | none =>
      exact ih trace fun x hx => hts x (List.mem_cons_of_mem lf hx)
    | some r =>
      dsimp only
      have hrmem := List.mem_of_find?_eq_some hf
      have hrpath : r.path = remote_path_of lf := by
        have := List.find?_some hf
        simpa using this
      rw [if_neg (hts lf (List.mem_cons_self lf rest) r hrmem hrpath)]
      exact ih trace fun x hx => hts x (List.mem_cons_of_mem lf hx)

/-- When every local file already has a remote match, the new-upload loop
does nothing. -/
theorem new_uploads_noop (cmap : List (Str × Option Nat))
    (remote : List RemoteFile) (lfs : List LocalFile) (trace : List ApiCall)
    (hex : ∀ lf ∈ lfs, ∃ r ∈ remote, r.path = remote_path_of lf) :
    new_uploads cmap remote lfs trace = (trace, none) := by
  induction lfs generalizing trace with
  | nil => rw [new_uploads]
  | cons lf rest ih =>
    rw [new_uploads]
    have hany : (remote.any fun r => decide (r.path = remote_path_of lf)) =
        true := by
      rw [List.any_eq_true]
      obtain ⟨r, hr, hrp⟩ := hex lf (List.mem_cons_self lf rest)
      exact ⟨r, hr, by simpa using hrp⟩
    rw [if_pos hany]
    exact ih trace fun x hx => hex x (List.mem_cons_of_mem lf hx)

/-- When every local path matches exactly one remote row and every remote row
is matched, remote paths are pairwise distinct. -/
theorem remote_paths_nodup (localFiles : List LocalFile)
    (remoteFiles : List RemoteFile)
    (h1 : ∀ lf ∈ localFiles, (remoteFiles.filter fun r =>
      decide (r.path = remote_path_of lf)).length = 1)
    (h3 : ∀ r ∈ remoteFiles, ∃ lf ∈ localFiles,
      r.path = remote_path_of lf) :
    (remoteFiles.map fun r => r.path).Nodup := by
  by_contra hnd
  obtain ⟨q, hq⟩ := List.exists_duplicate_iff_not_nodup.mpr hnd
  have hcount := List.duplicate_iff_two_le_count.mp hq
  have hqmem : q ∈ remoteFiles.map fun r => r.path := hq.mem
  obtain ⟨r, hr, hrq⟩ := List.mem_map.mp hqmem
  obtain ⟨lf, hlf, hlfq⟩ := h3 r hr
  have hqrp : q = remote_path_of lf := by
    rw [← hrq]
    exact hlfq
  rw [@List.count_eq_countP Str instBEqOfDecidableEq q
    (remoteFiles.map fun r => r.path), List.countP_map,
    List.countP_eq_length_filter] at hcount
  have hcount2 : 2 ≤ (remoteFiles.filter (fun r =>
      decide (r.path = remote_path_of lf))).length := by
    refine le_trans hcount (le_of_eq ?_)
    congr 1
    refine List.filter_congr ?_
    intro x hx
    simp only [Function.comp_apply]
    rw [hqrp]
    by_cases hx2 : x.path = remote_path_of lf <;> simp [hx2]
  rw [h1 lf hlf] at hcount2
  omega

/-- C8: when at the start of `mirror_directory` every local file has exactly
one remote row with its derived path, none of those rows is strictly older
than the local file, and every remote row is matched by some local file, the
invocation issues zero file-upload and zero file-delete remote calls (for
every flag combination and category state). -/
theorem c8_mirror_noop (localFiles : List LocalFile)
    (remoteFiles : List RemoteFile) (delete_files delete_categories : Bool)
    (catServer : List Category) (catOrder : List Str) (nextId0 : Nat)
    (h1 : ∀ lf ∈ localFiles, (remoteFiles.filter fun r =>
      decide (r.path = remote_path_of lf)).length = 1)
    (h2 : ∀ lf ∈ localFiles, ∀ r ∈ remoteFiles,
      r.path = remote_path_of lf → ¬ r.lastUpdated < lf.mtime)
    (h3 : ∀ r ∈ remoteFiles, ∃ lf ∈ localFiles, r.path = remote_path_of lf) :
    ∀ c ∈ (mirror_directory localFiles remoteFiles delete_files
        delete_categories catServer catOrder nextId0).trace,
      isUpload c = false ∧ isDeleteFiles c = false := by
  have hnd := remote_paths_nodup localFiles remoteFiles h1 h3
  have hloc : ∀ r ∈ remoteFiles, r.path ∈ localFiles.map remote_path_of := by
    intro r hr
    obtain ⟨lf, hlf, hlfq⟩ := h3 r hr
    exact List.mem_map.mpr ⟨lf, hlf, hlfq.symm⟩
  have hsplit : (mirror_split (localFiles.map remote_path_of) remoteFiles
      []).1 = [] := mirror_split_all_keep _ _ _ hloc hnd
    (fun r hr => List.not_mem_nil _)
  have hkinds := uc_trace_kinds (str "file")
    (.list (localFiles.map remote_category_of)) delete_categories false
    catOrder catServer nextId0
  have hex : ∀ lf ∈ localFiles, ∃ r ∈ remoteFiles,
      r.path = remote_path_of lf := by
    intro lf hlf
    have hl := h1 lf hlf
    cases hfe : remoteFiles.filter
        (fun r => decide (r.path = remote_path_of lf)) with
    | nil =>
      rw [hfe] at hl
      simp at hl
    | cons x xs =>
      have hx : x ∈ remoteFiles.filter
          (fun r => decide (r.path = remote_path_of lf)) := by
        rw [hfe]
        exact List.mem_cons_self x xs
      rw [List.mem_filter] at hx
      exact ⟨x, hx.1, by simpa using hx.2⟩
  have hdup : has_dup_paths remoteFiles = false := has_dup_paths_eq_false _ hnd
  rw [mirror_directory]
  dsimp only
  cases delete_files with
  | false =>
    simp only [Bool.false_eq_true, if_false]
    cases hue : (update_categories (str "file")
        (Target.list (localFiles.map remote_category_of)) delete_categories
        false catOrder catServer nextId0).err with
    | some e =>
      dsimp only
      intro c hc
      rcases List.mem_append.mp hc with hc | hc
      · exact absurd hc (List.not_mem_nil c)
      · exact cat_call_not_file (hkinds c hc)
    | none =>
      dsimp only
      rw [if_neg (by rw [hdup]; simp)]
      rw [update_uploads_noop _ _ _ _ h2]
      dsimp only
      rw [new_uploads_noop _ _ _ _ hex]
      intro c hc
      dsimp only at hc
      rcases List.mem_append.mp hc with hc | hc
      · exact absurd hc (List.not_mem_nil c)
      · exact cat_call_not_file (hkinds c hc)
  | true =>
    rw [if_pos rfl]
    have hie : (mirror_split (localFiles.map remote_path_of) remoteFiles
        []).1.isEmpty = true := by
      rw [hsplit]
      rfl
    rw [if_neg (not_not_intro hie), if_neg (not_not_intro hie)]
    dsimp only
    cases hue : (update_categories (str "file")
        (Target.list (localFiles.map remote_category_of)) delete_categories
        false catOrder catServer nextId0).err with
    | some e =>
      dsimp only
      intro c hc
      rcases List.mem_append.mp hc with hc | hc
      · rw [List.nil_append, List.mem_singleton] at hc
        subst hc
        exact ⟨rfl, rfl⟩
      · exact cat_call_not_file (hkinds c hc)
    | none =>
      dsimp only
      rw [if_neg (by rw [hdup]; simp)]
      rw [update_uploads_noop _ _ _ _ h2]
      dsimp only
      rw [new_uploads_noop _ _ _ _ hex]
      intro c hc
      dsimp only at hc
      rcases List.mem_append.mp hc with hc | hc
      · rw [List.nil_append, List.mem_singleton] at hc
        subst hc
        exact ⟨rfl, rfl⟩
      · exact cat_call_not_file (hkinds c hc)

/-- Witness for C8: one local file matched by one up-to-date remote row; the
only call mirroring issues is the archive flush. -/
theorem c8_mirror_noop_witness :
    (mirror_directory [⟨str "a.txt", 5⟩] [⟨1, str "/a.txt", 5⟩] true true []
        [] 0).trace = [ApiCall.emptyArchive] ∧
    (isUpload ApiCall.emptyArchive = false ∧
      isDeleteFiles ApiCall.emptyArchive = false) := by
  refine ⟨by decide, ?_⟩
  exact c8_mirror_noop [⟨str "a.txt", 5⟩] [⟨1, str "/a.txt", 5⟩] true true []
    [] 0 (by decide) (by decide) (by decide) ApiCall.emptyArchive (by decide)

/-- The appended binding wins the lookup. -/
theorem dget_append_self {α : Type} (l : List (Str × α)) (k : Str) (v : α) :
    dget (l ++ [(k, v)]) k = some v := by
  induction l with
  | nil =>
    rw [List.nil_append, dget, dget, if_pos rfl]
  | cons e rest ih =>
    rcases e with ⟨k', w⟩
    rw [List.cons_append, dget, ih]

/-- The appended binding does not affect other keys. -/
theorem dget_append_other {α : Type} (l : List (Str × α)) (k : Str) (v : α)
    (p : Str) (h : ¬ k = p) : dget (l ++ [(k, v)]) p = dget l p := by
  induction l with
  | nil =>
    rw [List.nil_append, dget, dget, if_neg h]
    rfl
  | cons e rest ih =>
    rcases e with ⟨k', w⟩
    rw [List.cons_append, dget, ih, dget]

/-- Lookup after insertion. -/
theorem dget_dinsert {α : Type} (m : List (Str × α)) (k : Str) (v : α)
    (p : Str) : dget (dinsert m k v) p =
      if k = p then some v else dget m p := by
  rw [dinsert]
  by_cases hk : k = p
  · subst hk
    rw [if_pos rfl]
    exact dget_append_self _ _ _
  · rw [if_neg hk, dget_append_other _ _ _ _ hk]
    exact dget_derase_ne hk

/-- Popping other keys preserves a binding. -/
theorem pop_ids_dget (cats : List (Str × Nat)) (ps : List Str)
    (ids : List Nat) (cats' : List (Str × Nat))
    (h : pop_ids cats ps = .ok (ids, cats')) (q : Str) (hq : ¬ q ∈ ps) :
    dget cats' q = dget cats q := by
  induction ps generalizing cats ids with
  | nil =>
    rw [pop_ids] at h
    injection h with h1
    rw [Prod.mk.injEq] at h1
    rw [← h1.2]
  | cons p rest ih =>
    rw [pop_ids] at h
    cases hp : dpop cats p with
    | none =>
      rw [hp] at h
      exact absurd h (by simp)
    | some v =>
      rcases v with ⟨i, cats1⟩
      rw [hp] at h
      dsimp only at h
      cases hrest : pop_ids cats1 rest with
      | error e =>
        rw [hrest] at h
        exact absurd h (by simp)
      | ok w =>
        rcases w with ⟨ids1, cats2⟩
        rw [hrest] at h
        dsimp only at h
        injection h with h1
        rw [Prod.mk.injEq] at h1
        rw [h1.2] at hrest
        obtain ⟨hgv, hder⟩ := dpop_eq_some hp
        rw [ih cats1 ids1 hrest (fun hc => hq (List.mem_cons_of_mem p hc)),
          hder]
        exact dget_derase_ne (fun hc => hq (hc ▸ List.mem_cons_self p rest))

/-- Joining one more segment appends a separator and the segment. -/
theorem joinSlash_take_succ (ns : List Str) (i : Nat) (h1 : 1 ≤ i)
    (h2 : i < ns.length) :
    joinSlash (ns.take (i + 1)) =
      joinSlash (ns.take i) ++ '/' :: ns.get ⟨i, h2⟩ := by
  have htc : ns.take i ++ [ns.get ⟨i, h2⟩] = ns.take (i + 1) := by
    have hh := List.take_concat_get ns i h2
    rw [List.concat_eq_append] at hh
    exact hh
  rw [← htc]
  refine joinSlash_concat ?_ _
  intro hc
  have := congrArg List.length hc
  rw [List.length_take, List.length_nil] at this
  omega

/-- The walk preserves the dict-to-server correspondence (every binding
points at a row with that path and id), id distinctness and the fresh-id
bound, and appends only rows whose paths are proper join-prefixes of the
leaf. -/
theorem walk_idxs_sinv (r : Str) (t : Target) (leaf : Str)
    (idxs : List Nat) (st st' : UCState) (e : Option UErr)
    (h : walk_idxs r t leaf (splitSlash leaf) idxs st = (st', e))
    (hidx : ∀ i ∈ idxs, 1 ≤ i ∧ i < (splitSlash leaf).length)
    (hinv : ∀ p i, dget st.cats p = some i →
      ∃ row ∈ st.server, row.path = p ∧ row.id = i)
    (hnd : (st.server.map fun row => row.id).Nodup)
    (hbound : ∀ row ∈ st.server, row.id < st.nextId) :
    (∀ p i, dget st'.cats p = some i →
      ∃ row ∈ st'.server, row.path = p ∧ row.id = i) ∧
    ((st'.server.map fun row => row.id).Nodup) ∧
    (∀ row ∈ st'.server, row.id < st'.nextId) ∧
    (∀ row ∈ st'.server, row ∈ st.server ∨
      ∃ i, 1 ≤ i ∧ i < (splitSlash leaf).length ∧
        row.path = joinSlash ((splitSlash leaf).take (i + 1))) := by
  induction idxs generalizing st with
  | nil =>
    rw [walk_idxs] at h
    injection h with h1 h2
    subst h1
    exact ⟨hinv, hnd, hbound, fun row hrow => Or.inl hrow⟩
  | cons i rest ih =>
    rw [walk_idxs] at h
    rcases walk_step_spec r t leaf (splitSlash leaf) i st with
      ⟨_, hstep⟩ | ⟨e0, hstep⟩ | ⟨habs, pid, num, hstep, hpar⟩
    · rw [hstep] at h
      exact ih st h (fun j hj => hidx j (List.mem_cons_of_mem i hj)) hinv
        hnd hbound
    · rw [hstep] at h
      dsimp only at h
      injection h with h1 h2
      subst h1
      exact ⟨hinv, hnd, hbound, fun row hrow => Or.inl hrow⟩
    · rw [hstep] at h
      dsimp only at h
      obtain ⟨hi1, hi2⟩ := hidx i (List.mem_cons_self i rest)
      have hgetD : (splitSlash leaf).getD i [] =
          (splitSlash leaf).get ⟨i, hi2⟩ :=
        List.getD_eq_getElem (splitSlash leaf) [] hi2
      have hseg : '/' ∉ (splitSlash leaf).get ⟨i, hi2⟩ :=
        splitSlash_no_slash leaf _ (List.get_mem _ _ _)
      have hesc : escapeName (unescapeName ((splitSlash leaf).getD i [])) =
          (splitSlash leaf).get ⟨i, hi2⟩ := by
        rw [hgetD]
        exact escapeName_unescapeName _ hseg
      have hpath : server_parent_path st.server pid ++
          '/' :: escapeName (unescapeName ((splitSlash leaf).getD i [])) =
          joinSlash ((splitSlash leaf).take (i + 1)) := by
        rw [hesc, joinSlash_take_succ (splitSlash leaf) i hi1 hi2]
        rcases hpar with ⟨hpp, hpidn, _⟩ | ⟨hppne, q, hpidq, hdgq⟩
        · rw [hpidn, hpp]
          rfl
        · obtain ⟨pr, hprm, hprp, hpri⟩ := hinv _ _ hdgq
          rw [hpidq, server_parent_path]
          cases hf : st.server.find? fun row => decide (row.id = q) with
          | none =>
            exfalso
            have hnone := List.find?_eq_none.mp hf pr hprm
            simp [hpri] at hnone
          | some r' =>
            dsimp only
            have hr'm := List.mem_of_find?_eq_some hf
            have hr'q : r'.id = q := by
              have := List.find?_some hf
              simpa using this
            have hr'e : r' = pr := List.inj_on_of_nodup_map hnd hr'm hprm
              (by rw [hr'q, hpri])
            rw [hr'e, hprp]
      have hndnew : ((st.server ++
          [{ id := st.nextId,
             path := server_parent_path st.server pid ++
               '/' :: escapeName (unescapeName ((splitSlash leaf).getD i [])),
             text := unescapeName ((splitSlash leaf).getD i []),
             parentId := pid, isSystem := false,
             number := num : Category }]).map fun row => row.id).Nodup := by
        rw [List.map_append]
        dsimp only [List.map_cons, List.map_nil]
        have hiff : ∀ (l : List Nat) (a : Nat),
            (l ++ [a]).Nodup ↔ l.Nodup ∧ a ∉ l := by
          intro l a
          rw [List.nodup_append]
          simp
        rw [hiff]
        refine ⟨hnd, ?_⟩
        intro hc
        obtain ⟨row, hrow, hrid⟩ := List.mem_map.mp hc
        exact absurd hrid (Nat.ne_of_lt (hbound row hrow))
      have hres := ih _ h (fun j hj => hidx j (List.mem_cons_of_mem i hj))
        (by
          intro p ip hg
          rw [server_create]
          dsimp only at hg
          rw [dget_dinsert] at hg
          by_cases hnp : joinSlash ((splitSlash leaf).take (i + 1)) = p
          · rw [if_pos hnp] at hg
            injection hg with hg1
            refine ⟨_, List.mem_append_right _ (List.mem_singleton_self _),
              ?_, ?_⟩
            · dsimp only
              rw [hpath, hnp]
            · dsimp only
              rw [← hg1]
          · rw [if_neg hnp] at hg
            obtain ⟨row, hrow, hrp, hri⟩ := hinv p ip hg
            exact ⟨row, List.mem_append_left _ hrow, hrp, hri⟩)
        (by
          rw [server_create]
          exact hndnew)
        (by
          intro row hrow
          rw [server_create] at hrow
          dsimp only
          rcases List.mem_append.mp hrow with hrow | hrow
          · exact Nat.lt_succ_of_lt (hbound row hrow)
          · rw [List.mem_singleton] at hrow
            subst hrow
            exact Nat.lt_succ_self _)
      refine ⟨hres.1, hres.2.1, hres.2.2.1, ?_⟩
      intro row hrow
      rcases hres.2.2.2 row hrow with hin | hin
      · dsimp only at hin
        rw [server_create] at hin
        rcases List.mem_append.mp hin with hin | hin
        · exact Or.inl hin
        · rw [List.mem_singleton] at hin
          subst hin
          exact Or.inr ⟨i, hi1, hi2, hpath⟩
      · exact Or.inr hin

/-- The create loop preserves the dict-to-server correspondence, id
distinctness and the fresh-id bound, and appends only rows whose paths are
join-prefixes of processed leaves. -/
theorem create_loop_sinv (r : Str) (t : Target) (leaves : List Str)
    (st st' : UCState) (e : Option UErr)
    (h : create_loop r t leaves st = (st', e))
    (hinv : ∀ p i, dget st.cats p = some i →
      ∃ row ∈ st.server, row.path = p ∧ row.id = i)
    (hnd : (st.server.map fun row => row.id).Nodup)
    (hbound : ∀ row ∈ st.server, row.id < st.nextId) :
    (∀ p i, dget st'.cats p = some i →
      ∃ row ∈ st'.server, row.path = p ∧ row.id = i) ∧
    ((st'.server.map fun row => row.id).Nodup) ∧
    (∀ row ∈ st'.server, row.id < st'.nextId) ∧
    (∀ row ∈ st'.server, row ∈ st.server ∨
      ∃ leaf ∈ leaves, ∃ i, 1 ≤ i ∧ i < (splitSlash leaf).length ∧
        row.path = joinSlash ((splitSlash leaf).take (i + 1))) := by
  induction leaves generalizing st with
  | nil =>
    rw [create_loop] at h
    injection h with h1 h2
    subst h1
    exact ⟨hinv, hnd, hbound, fun row hrow => Or.inl hrow⟩
  | cons l rest ih =>
    rw [create_loop] at h
    rcases hwl : walk_leaf r t l st with ⟨st1, e1⟩
    rw [hwl] at h
    rw [walk_leaf] at hwl
    have hw := walk_idxs_sinv r t l
      (List.range' 1 ((splitSlash l).length - 1)) st st1 e1 hwl
      (fun j hj => by
        rw [List.mem_range'_1] at hj
        omega) hinv hnd hbound
    cases e1 with
    | some e0 =>
      injection h with h1 h2
      subst h1
      refine ⟨hw.1, hw.2.1, hw.2.2.1, ?_⟩
      intro row hrow
      rcases hw.2.2.2 row hrow with hin | hin
      · exact Or.inl hin
      · obtain ⟨i, hi1, hi2, hp⟩ := hin
        exact Or.inr ⟨l, List.mem_cons_self l rest, i, hi1, hi2, hp⟩
    | none =>
      have hres := ih st1 h hw.1 hw.2.1 hw.2.2.1
      refine ⟨hres.1, hres.2.1, hres.2.2.1, ?_⟩
      intro row hrow
      rcases hres.2.2.2 row hrow with hin | hin
      · rcases hw.2.2.2 row hin with hin2 | hin2
        · exact Or.inl hin2
        · obtain ⟨i, hi1, hi2, hp⟩ := hin2
          exact Or.inr ⟨l, List.mem_cons_self l rest, i, hi1, hi2, hp⟩
      · obtain ⟨lf, hlf, i, hi1, hi2, hp⟩ := hin
        exact Or.inr ⟨lf, List.mem_cons_of_mem l hlf, i, hi1, hi2, hp⟩

/-- A number update keeps every row's path and id. -/
theorem server_set_number_pairs (server : List Category) (id : Nat)
    (n : Int) :
    ((server_set_number server id n).map fun r => (r.path, r.id)) =
      server.map fun r => (r.path, r.id) := by
  rw [server_set_number, List.map_map]
  refine List.map_congr_left ?_
  intro r hr
  by_cases hid : r.id = id
  · simp [hid]
  · simp [hid]

/-- The renumber loop keeps the rows' paths and ids. -/
theorem renumber_loop_pairs (ignore : Bool) (tm : List (Str × Int))
    (rows server : List Category) (trace : List ApiCall) :
    ((renumber_loop ignore tm rows server trace).1.map fun r =>
      (r.path, r.id)) = server.map fun r => (r.path, r.id) := by
  induction rows generalizing server trace with
  | nil => rw [renumber_loop]
  | cons row rest ih =>
    rw [renumber_loop]
    cases dget tm row.path with
    | none => exact ih server trace
    | some v =>
      dsimp only
      by_cases hdf : number_differs row.number v = true
      · rw [if_pos hdf]
        by_cases hrt : isRootPath row.path = true
        · rw [if_pos hrt]
          cases ignore with
          | true => exact ih server trace
          | false => rfl
        · rw [if_neg hrt]
          rw [ih _ _]
          exact server_set_number_pairs server row.id v
      · rw [if_neg hdf]
        exact ih server trace

/-- The renumber step keeps the rows' paths and ids. -/
theorem renumber_stage_pairs (resource : Str) (ignore : Bool) (t : Target)
    (rows server1 : List Category) (trace1 : List ApiCall) :
    ((renumber_stage resource ignore t rows server1 trace1).1.map fun r =>
      (r.path, r.id)) = server1.map fun r => (r.path, r.id) := by
  rw [renumber_stage]
  by_cases hacc : resource = str "account"
  · rw [if_pos hacc]
    exact renumber_loop_pairs ignore (tmapOf t) rows server1 trace1
  · rw [if_neg hacc]

/-- A successful deletion step either did nothing or performed the remote
delete. -/
theorem delete_stage_ok_server (resource : Str) (target : Target)
    (deleteFlag ignore : Bool) (rows : List Category)
    (cats0 : List (Str × Nat)) (server0 : List Category)
    (tds : List Str) (trace1 : List ApiCall) (ids : List Nat)
    (cats1 : List (Str × Nat)) (server1 : List Category)
    (h : delete_stage resource target deleteFlag ignore rows cats0 server0 =
      (tds, trace1, .ok (ids, cats1, server1))) :
    (tds = [] ∧ ids = [] ∧ cats1 = cats0 ∧ server1 = server0) ∨
      server_delete resource server0 ids = .ok server1 := by
  rw [delete_stage] at h
  cases deleteFlag with
  | false =>
    simp only [Bool.false_eq_true, if_false, Prod.mk.injEq,
      Except.ok.injEq] at h
    obtain ⟨h1, h2, h3, h4, h5⟩ := h
    exact Or.inl ⟨h1.symm, h3.symm, h4.symm, h5.symm⟩
  | true =>
    simp only [if_true] at h
    cases hct : compute_to_delete resource target ignore rows with
    | error e =>
      rw [hct] at h
      exact absurd h (by simp)
    | ok td =>
      rw [hct] at h
      dsimp only at h
      by_cases h0 : td.isEmpty = true
      · rw [if_pos h0] at h
        simp only [Prod.mk.injEq, Except.ok.injEq] at h
        obtain ⟨h1, h2, h3, h4, h5⟩ := h
        exact Or.inl ⟨h1.symm, h3.symm, h4.symm, h5.symm⟩
      · rw [if_neg h0] at h
        cases hp : pop_ids cats0 (sort_reverse td) with
        | error e =>
          rw [hp] at h
          exact absurd h (by simp)
        | ok v =>
          rcases v with ⟨ids0, cats1'⟩
          rw [hp] at h
          dsimp only at h
          cases hsv : server_delete resource server0 ids0 with
          | error e =>
            rw [hsv] at h
            exact absurd h (by simp)
          | ok sv1 =>
            rw [hsv] at h
            simp only [Prod.mk.injEq, Except.ok.injEq] at h
            obtain ⟨h1, h2, h3, h4, h5⟩ := h
            rw [← h3, ← h5]
            exact Or.inr hsv

/-- A successful remote delete filters out exactly the named ids. -/
theorem server_delete_ok_filter (resource : Str) (server : List Category)
    (ids : List Nat) (server1 : List Category)
    (h : server_delete resource server ids = .ok server1) :
    server1 = server.filter fun r => !(ids.contains r.id) := by
  rw [server_delete] at h
  by_cases hc : resource = str "account" ∧
      (server.any fun r => ids.contains r.id && isRootPath r.path) = true
  · rw [if_pos hc] at h
    exact absurd h (by simp)
  · rw [if_neg hc] at h
    injection h with h1
    exact h1.symm

/-- Path-and-id preservation transfers row membership. -/
theorem mem_of_pairs_eq {s1 s2 : List Category}
    (hpe : (s2.map fun r => (r.path, r.id)) = s1.map fun r => (r.path, r.id))
    (row : Category) (hr : row ∈ s1) :
    ∃ row' ∈ s2, row'.path = row.path ∧ row'.id = row.id := by
  have hmm : (row.path, row.id) ∈ s2.map fun r => (r.path, r.id) := by
    rw [hpe]
    exact List.mem_map.mpr ⟨row, hr, rfl⟩
  obtain ⟨row', hrow', heq⟩ := List.mem_map.mp hmm
  exact ⟨row', hrow', congrArg Prod.fst heq, congrArg Prod.snd heq⟩

/-- Path-and-id preservation keeps the id column. -/
theorem ids_of_pairs_eq {s1 s2 : List Category}
    (hpe : (s2.map fun r => (r.path, r.id)) =
      s1.map fun r => (r.path, r.id)) :
    (s2.map fun r => r.id) = s1.map fun r => r.id := by
  have hh := congrArg (List.map Prod.snd) hpe
  rw [List.map_map, List.map_map] at hh
  exact hh

/-- State of the remote rows after a successful `update_categories` run with
duplicate-free paths and ids and fresh id counter: every target key that the
enumeration saw and that is not the bare separator has a row, and every final
row either descends from an original row whose path was not selected for
deletion, or was created as a proper join-prefix of a target key. -/
theorem uc_success_server (resource : Str) (target : Target)
    (deleteFlag ignore : Bool) (order : List Str) (server : List Category)
    (nextId : Nat) (out : UCOut)
    (hout : update_categories resource target deleteFlag ignore order server
      nextId = out)
    (hsucc : out.err = none)
    (hnp : (server.map fun r => r.path).Nodup)
    (hni : (server.map fun r => r.id).Nodup)
    (hbound : ∀ r ∈ server, r.id < nextId)
    (hkeys : ∀ p ∈ tkeysOf target, ∃ cs, p = '/' :: cs) :
    (∀ k ∈ tkeysOf target, k ∈ order → ¬ k = str "/" →
      ∃ row ∈ out.server, row.path = k) ∧
    (∀ row ∈ out.server,
      ((∃ orig ∈ server, row.path = orig.path) ∧
        ¬ row.path ∈ out.toDelete) ∨
      (∃ leaf ∈ tkeysOf target, ∃ i, 1 ≤ i ∧ i < (splitSlash leaf).length ∧
        row.path = joinSlash ((splitSlash leaf).take (i + 1)))) := by
  subst hout
  by_cases hsh : (resource = str "account" ∧ is_dict target = false) ∨
      (¬ resource = str "account" ∧ is_dict target = true)
  · exfalso
    have hrec : update_categories resource target deleteFlag ignore order
        server nextId =
        { err := some .typeMismatch, trace := [], server := server,
          toDelete := [], deletedIds := [], catsAfterDelete := [],
          created := [], cats := [], nextId := nextId } := by
      unfold update_categories
      rw [if_pos hsh]
    rw [hrec] at hsucc
    exact absurd hsucc (by simp)
  · rcases hds : delete_stage resource target deleteFlag ignore
        (sort_cat_rows server) (dict_of_rows (sort_cat_rows server)) server
      with ⟨tds, trace1, res⟩
    cases res with
    | error e =>
      rw [uc_delete_error resource target deleteFlag ignore order server
        nextId tds trace1 e hsh hds] at hsucc
      exact absurd hsucc (by simp)
    | ok v =>
      rcases v with ⟨ids, cats1, server1⟩
      rcases hrn : renumber_stage resource ignore target
          (sort_cat_rows server) server1 trace1 with ⟨server2, trace2, e2⟩
      cases e2 with
      | some e =>
        rw [uc_renumber_error resource target deleteFlag ignore order server
          nextId tds trace1 trace2 ids cats1 server1 server2 e hsh hds hrn]
          at hsucc
        exact absurd hsucc (by simp)
      | none =>
        rcases hcl : create_loop resource target
            (missing_leaves target cats1 order)
            { server := server2, cats := cats1, trace := trace2,
              created := [], nextId := nextId } with ⟨st, e3⟩
        rw [uc_create_result resource target deleteFlag ignore order server
          nextId tds trace1 trace2 ids cats1 server1 server2 st e3 hsh hds
          hrn hcl] at hsucc ⊢
        dsimp only at hsucc ⊢
        subst hsucc
        have hperm : (sort_cat_rows server).Perm server := isort_perm _ server
        have hndp : ((sort_cat_rows server).map fun r => r.path).Nodup :=
          (hperm.map _).nodup_iff.mpr hnp
        have hndi : ((sort_cat_rows server).map fun r => r.id).Nodup :=
          (hperm.map _).nodup_iff.mpr hni
        have hpop := delete_stage_ok_inv resource target deleteFlag ignore
          (sort_cat_rows server) (dict_of_rows (sort_cat_rows server)) server
          tds trace1 ids cats1 server1 hds
        have hsrv := delete_stage_ok_server resource target deleteFlag ignore
          (sort_cat_rows server) (dict_of_rows (sort_cat_rows server)) server
          tds trace1 ids cats1 server1 hds
        have hid_not : ∀ row ∈ sort_cat_rows server, ¬ row.path ∈ tds →
            ¬ row.id ∈ ids := by
          intro row hrow hnotin hidin
          obtain ⟨⟨kk, hkk2⟩, hgetid⟩ := List.mem_iff_get.mp hidin
          have hkk : kk < tds.length := by
            rw [← pop_ids_length _ _ _ _ hpop]
            exact hkk2
          have halk := pop_ids_align _ _ _ _ hpop kk hkk hkk2
          rw [hgetid] at halk
          have hpair := dget_mem halk
          rw [dict_of_rows] at hpair
          obtain ⟨row2, hrow2, heq⟩ := List.mem_map.mp hpair
          have hrow2id : row2.id = row.id := congrArg Prod.snd heq
          have hrow2eq : row2 = row :=
            List.inj_on_of_nodup_map hndi hrow2 hrow hrow2id
          have hpth : row.path = tds.get ⟨kk, hkk⟩ := by
            rw [← hrow2eq]
            exact congrArg Prod.fst heq
          exact hnotin (hpth ▸ List.get_mem _ _ _)
        have hsurv : ∀ p i, dget cats1 p = some i →
            ∃ row ∈ server1, row.path = p ∧ row.id = i := by
          intro p i hg
          have hdm := dmem_of_dget_some hg
          have hdm2 := (pop_ids_dmem _ _ _ _ hpop p).mp hdm
          have hg0 : dget (dict_of_rows (sort_cat_rows server)) p = some i := by
            rw [← pop_ids_dget _ _ _ _ hpop p hdm2.2]
            exact hg
          have hpair := dget_mem hg0
          rw [dict_of_rows] at hpair
          obtain ⟨row, hrow, heq⟩ := List.mem_map.mp hpair
          have hrp : row.path = p := congrArg Prod.fst heq
          have hri : row.id = i := congrArg Prod.snd heq
          rcases hsrv with ⟨htdnil, hidsnil, hcats, hserver⟩ | hsv
          · rw [hserver]
            exact ⟨row, hperm.mem_iff.mp hrow, hrp, hri⟩
          · have hfil := server_delete_ok_filter _ _ _ _ hsv
            refine ⟨row, ?_, hrp, hri⟩
            rw [hfil, List.mem_filter]
            refine ⟨hperm.mem_iff.mp hrow, ?_⟩
            have hnid := hid_not row hrow (by rw [hrp]; exact hdm2.2)
            simpa using hnid
        have hpairs := renumber_stage_pairs resource ignore target
          (sort_cat_rows server) server1 trace1
        rw [hrn] at hpairs
        dsimp only at hpairs
        have hserver1_sub : ∀ row ∈ server1, row ∈ server := by
          rcases hsrv with ⟨_, _, _, hserver⟩ | hsv
          · rw [hserver]
            exact fun row h => h
          · rw [server_delete_ok_filter _ _ _ _ hsv]
            intro row h
            exact (List.mem_filter.mp h).1
        have hinv0 : ∀ p i, dget cats1 p = some i →
            ∃ row ∈ server2, row.path = p ∧ row.id = i := by
          intro p i hg
          obtain ⟨row, hrow, hrp, hri⟩ := hsurv p i hg
          obtain ⟨row', hrow', hrp', hri'⟩ := mem_of_pairs_eq hpairs row hrow
          exact ⟨row', hrow', by rw [hrp', hrp], by rw [hri', hri]⟩
        have hids2 := ids_of_pairs_eq hpairs
        have hnd2 : (server2.map fun r => r.id).Nodup := by
          rw [hids2]
          rcases hsrv with ⟨_, _, _, hserver⟩ | hsv
          · rw [hserver]
            exact hni
          · rw [server_delete_ok_filter _ _ _ _ hsv]
            exact List.Nodup.sublist ((List.filter_sublist server).map _) hni
        have hbound2 : ∀ row ∈ server2, row.id < nextId := by
          intro row hrow
          obtain ⟨row1, hrow1, hp1, hi1⟩ :=
            mem_of_pairs_eq hpairs.symm row hrow
          rw [← hi1]
          exact hbound row1 (hserver1_sub row1 hrow1)
        have hsinv := create_loop_sinv resource target
          (missing_leaves target cats1 order)
          { server := server2, cats := cats1, trace := trace2, created := [],
            nextId := nextId } st none hcl hinv0 hnd2 hbound2
        constructor
        · intro k hk horder hslash
          obtain ⟨cs, hcs⟩ := hkeys k hk
          have hk2 : 2 ≤ (splitSlash k).length := by
            rw [hcs]
            exact splitSlash_slash_len cs
          by_cases hdm : dmem cats1 k = true
          · obtain ⟨i, hi⟩ :=
              Option.isSome_iff_exists.mp (dget_isSome_of_dmem hdm)
            obtain ⟨row', hrow', hrp', _⟩ := hinv0 k i hi
            exact ⟨row',
              create_loop_server_mono _ _ _ _ st none hcl row' hrow', hrp'⟩
          · have hmem : k ∈ missing_leaves target cats1 order := by
              rw [missing_leaves, List.mem_filter]
              refine ⟨horder, ?_⟩
              rw [Bool.and_eq_true, Bool.and_eq_true]
              rw [Bool.not_eq_true] at hdm
              refine ⟨⟨by simpa using hk, by rw [hdm]; rfl⟩, ?_⟩
              simp [hslash]
            have hdone := create_loop_leaf_done resource target _ _ st hcl k
              hmem hk2
            obtain ⟨i, hi⟩ :=
              Option.isSome_iff_exists.mp (dget_isSome_of_dmem hdone)
            obtain ⟨row', hrow', hrp', _⟩ := hsinv.1 k i hi
            exact ⟨row', hrow', hrp'⟩
        · intro row hrow
          rcases hsinv.2.2.2 row hrow with hin | hin
          · obtain ⟨row1, hrow1, hp1, hi1⟩ :=
              mem_of_pairs_eq hpairs.symm row hin
            have hrow1s : row1 ∈ server := hserver1_sub row1 hrow1
            refine Or.inl ⟨⟨row1, hrow1s, hp1.symm⟩, ?_⟩
            rcases hsrv with ⟨htdnil, _, _, _⟩ | hsv
            · rw [htdnil]
              exact List.not_mem_nil _
            · have hfil := server_delete_ok_filter _ _ _ _ hsv
              intro hcon
              rw [hfil, List.mem_filter] at hrow1
              obtain ⟨⟨kk, hkk⟩, hgetk⟩ :=
                List.mem_iff_get.mp (hp1.symm ▸ hcon)
              have hkk2 : kk < ids.length := by
                rw [pop_ids_length _ _ _ _ hpop]
                exact hkk
              have halk := pop_ids_align _ _ _ _ hpop kk hkk hkk2
              rw [hgetk,
                dget_dict_of_rows_nodup (sort_cat_rows server) hndp row1
                  (hperm.mem_iff.mpr hrow1s)] at halk
              have hval : ids.get ⟨kk, hkk2⟩ = row1.id := by
                injection halk with hh
                exact hh.symm
              have hidin : row1.id ∈ ids := by
                rw [← hval]
                exact List.get_mem _ _ _
              have := hrow1.2
              simp at this
              exact this hidin
          · obtain ⟨leaf, hleaf, i, hi1, hi2, hp⟩ := hin
            exact Or.inr ⟨leaf,
              (missing_leaves_mem target cats1 order leaf hleaf).1, i, hi1,
              hi2, hp⟩

/-- A path with a target key extending it is covered. -/
theorem covered_of_prefix {ks : List Str} {k p : Str} (hk : k ∈ ks)
    (hp : p <+: k) : covered ks p = true := by
  rw [covered, List.any_eq_true]
  refine ⟨k, hk, ?_⟩
  rw [List.isPrefixOf_iff_prefix]
  exact hp

/-- A number-update call is neither a create nor a delete. -/
theorem updnum_kinds (c : ApiCall) (h : isUpdateNum c = true) :
    isCreateCat c = false ∧ isDeleteCat c = false := by
  cases c with
  | updateCategoryNumber i t n p => exact ⟨rfl, rfl⟩
  | deleteCategories ids => exact absurd h (by simp [isUpdateNum])
  | createCategory a b cc d => exact absurd h (by simp [isUpdateNum])
  | deleteFiles ids => exact absurd h (by simp [isUpdateNum])
  | emptyArchive => exact absurd h (by simp [isUpdateNum])
  | uploadFile a b cc => exact absurd h (by simp [isUpdateNum])

/-- The computed deletion list for a dict target, in both root-filter
modes. -/
theorem compute_to_delete_dict (resource : Str) (m : List (Str × Int))
    (ignore : Bool) (rows : List Category) :
    compute_to_delete resource (.dict m) ignore rows = .ok
      (if ignore = true ∧ resource = str "account" then
        ((rows.map fun r => r.path).filter fun p =>
          !(covered (m.map fun e => e.1) p)).filter fun p => !(isRootPath p)
      else (rows.map fun r => r.path).filter fun p =>
        !(covered (m.map fun e => e.1) p)) := by
  rw [compute_to_delete]

/-- Every uncovered existing path that the root filter does not exempt is in
the computed deletion list. -/
theorem compute_td_complete (resource : Str) (m : List (Str × Int))
    (ignore : Bool) (rows : List Category) (td : List Str)
    (hc : compute_to_delete resource (.dict m) ignore rows = .ok td)
    (p : Str) (hrow : ∃ r ∈ rows, r.path = p)
    (hcov : covered (m.map fun e => e.1) p = false)
    (hroot : ¬ (ignore = true ∧ resource = str "account" ∧
      isRootPath p = true)) :
    p ∈ td := by
  rw [compute_to_delete_dict] at hc
  injection hc with h1
  rw [← h1]
  obtain ⟨r, hr, hrp⟩ := hrow
  have hp1 : p ∈ (rows.map fun r => r.path).filter
      fun q => !(covered (m.map fun e => e.1) q) := by
    rw [List.mem_filter]
    exact ⟨List.mem_map.mpr ⟨r, hr, hrp⟩, by rw [hcov]; rfl⟩
  by_cases hcnd : ignore = true ∧ resource = str "account"
  · rw [if_pos hcnd, List.mem_filter]
    refine ⟨hp1, ?_⟩
    cases hx : isRootPath p with
    | false => rfl
    | true => exact absurd ⟨hcnd.1, hcnd.2, hx⟩ hroot
  · rw [if_neg hcnd]
    exact hp1

/-- Every uncovered, unexempted existing path is in the returned `to_delete`
list of a successful deletion step. -/
theorem delete_stage_td_complete (resource : Str) (m : List (Str × Int))
    (ignore : Bool) (rows : List Category) (cats0 : List (Str × Nat))
    (server0 : List Category) (tds : List Str) (trace1 : List ApiCall)
    (ids : List Nat) (cats1 : List (Str × Nat)) (server1 : List Category)
    (hds : delete_stage resource (.dict m) true ignore rows cats0 server0 =
      (tds, trace1, .ok (ids, cats1, server1)))
    (p : Str) (hrow : ∃ r ∈ rows, r.path = p)
    (hcov : covered (m.map fun e => e.1) p = false)
    (hroot : ¬ (ignore = true ∧ resource = str "account" ∧
      isRootPath p = true)) :
    p ∈ tds := by
  rw [delete_stage] at hds
  simp only [if_true] at hds
  cases hcm : compute_to_delete resource (.dict m) ignore rows with
  | error e =>
    rw [compute_to_delete_dict] at hcm
    exact absurd hcm (by simp)
  | ok td =>
    rw [hcm] at hds
    dsimp only at hds
    have hptd := compute_td_complete resource m ignore rows td hcm p hrow
      hcov hroot
    have hne : ¬ td.isEmpty = true := by
      intro he
      rw [List.isEmpty_iff] at he
      rw [he] at hptd
      exact absurd hptd (List.not_mem_nil p)
    rw [if_neg hne] at hds
    cases hpp : pop_ids cats0 (sort_reverse td) with
    | error e =>
      rw [hpp] at hds
      dsimp only at hds
      rw [Prod.mk.injEq, Prod.mk.injEq] at hds
      exact absurd hds.2.2 (by simp)
    | ok v =>
      rcases v with ⟨ids0, cats1p⟩
      rw [hpp] at hds
      dsimp only at hds
      cases hsd : server_delete resource server0 ids0 with
      | error e =>
        rw [hsd] at hds
        rw [Prod.mk.injEq, Prod.mk.injEq] at hds
        exact absurd hds.2.2 (by simp)
      | ok sv =>
        rw [hsd] at hds
        rw [Prod.mk.injEq] at hds
        rw [← hds.1, sort_reverse]
        exact (isort_perm _ td).mem_iff.mpr hptd

/-- Completeness of the `to_delete` list of a non-failing reconciliation run
with deletion on a dict target: every existing uncovered path that the root
filter does not exempt appears in it. -/
theorem uc_toDelete_complete (resource : Str) (m : List (Str × Int))
    (ignore : Bool) (order : List Str) (server : List Category)
    (nextId : Nat) (out : UCOut)
    (hout : update_categories resource (.dict m) true ignore order server
      nextId = out)
    (hsucc : out.err = none) (p : Str)
    (hrow : ∃ r ∈ server, r.path = p)
    (hcov : covered (m.map fun e => e.1) p = false)
    (hroot : ¬ (ignore = true ∧ resource = str "account" ∧
      isRootPath p = true)) :
    p ∈ out.toDelete := by
  subst hout
  by_cases hsh : (resource = str "account" ∧ is_dict (.dict m) = false) ∨
      (¬ resource = str "account" ∧ is_dict (.dict m) = true)
  · exfalso
    have hrec : update_categories resource (.dict m) true ignore order
        server nextId =
        { err := some .typeMismatch, trace := [], server := server,
          toDelete := [], deletedIds := [], catsAfterDelete := [],
          created := [], cats := [], nextId := nextId } := by
      unfold update_categories
      rw [if_pos hsh]
    rw [hrec] at hsucc
    exact absurd hsucc (by simp)
  · rcases hds : delete_stage resource (.dict m) true ignore
        (sort_cat_rows server) (dict_of_rows (sort_cat_rows server)) server
      with ⟨tds, trace1, res⟩
    have hperm : (sort_cat_rows server).Perm server := isort_perm _ server
    cases res with
    | error e =>
      rw [uc_delete_error resource (.dict m) true ignore order server
        nextId tds trace1 e hsh hds] at hsucc
      exact absurd hsucc (by simp)
    | ok v =>
      rcases v with ⟨ids, cats1, server1⟩
      have hptd : p ∈ tds := by
        refine delete_stage_td_complete resource m ignore
          (sort_cat_rows server) (dict_of_rows (sort_cat_rows server)) server
          tds trace1 ids cats1 server1 hds p ?_ hcov hroot
        obtain ⟨r, hr, hrp⟩ := hrow
        exact ⟨r, hperm.mem_iff.mpr hr, hrp⟩
      rcases hrn : renumber_stage resource ignore (.dict m)
          (sort_cat_rows server) server1 trace1 with ⟨server2, trace2, e2⟩
      cases e2 with
      | some e =>
        rw [uc_renumber_error resource (.dict m) true ignore order server
          nextId tds trace1 trace2 ids cats1 server1 server2 e hsh hds hrn]
        exact hptd
      | none =>
        rcases hcl : create_loop resource (.dict m)
            (missing_leaves (.dict m) cats1 order)
            { server := server2, cats := cats1, trace := trace2,
              created := [], nextId := nextId } with ⟨st, e3⟩
        rw [uc_create_result resource (.dict m) true ignore order server
          nextId tds trace1 trace2 ids cats1 server1 server2 st e3 hsh hds
          hrn hcl]
        exact hptd

/-- After a non-failing deletion-enabled run on a dict target, every
surviving or created row is covered by a target key, except root rows kept
by the `ignore_account_root_nodes` exemption. -/
theorem uc_success_covered (resource : Str) (m : List (Str × Int))
    (ignore : Bool) (order : List Str) (server : List Category)
    (nextId : Nat) (out : UCOut)
    (hout : update_categories resource (.dict m) true ignore order server
      nextId = out)
    (hsucc : out.err = none)
    (hnp : (server.map fun r => r.path).Nodup)
    (hni : (server.map fun r => r.id).Nodup)
    (hbound : ∀ r ∈ server, r.id < nextId)
    (hkeys : ∀ p ∈ tkeysOf (Target.dict m), ∃ cs, p = '/' :: cs) :
    ∀ row ∈ out.server, covered (m.map fun e => e.1) row.path = true ∨
      (ignore = true ∧ resource = str "account" ∧
        isRootPath row.path = true) := by
  have hmain := uc_success_server resource (.dict m) true ignore order server
    nextId out hout hsucc hnp hni hbound hkeys
  intro row hrow
  rcases hmain.2 row hrow with ⟨⟨orig, horig, hpath⟩, hnottd⟩ |
    ⟨leaf, hleaf, i, hi1, hi2, hp⟩
  · by_cases hcov : covered (m.map fun e => e.1) row.path = true
    · exact Or.inl hcov
    · by_cases hrt : ignore = true ∧ resource = str "account" ∧
          isRootPath row.path = true
      · exact Or.inr hrt
      · exfalso
        rw [Bool.not_eq_true] at hcov
        exact hnottd (uc_toDelete_complete resource m ignore order server
          nextId out hout hsucc row.path ⟨orig, horig, hpath.symm⟩ hcov hrt)
  · left
    rw [hp]
    have hleaf2 : leaf ∈ m.map fun e => e.1 := hleaf
    have hpre := joinSlash_take_isPrefix (splitSlash leaf) (i + 1)
    rw [joinSlash_splitSlash] at hpre
    exact covered_of_prefix hleaf2 hpre

/-- A successful deletion-enabled dict-target run leaves only covered or
root-exempt rows, so the repeated deletion step computes an empty list. -/
theorem uc_repeat_compute_nil (resource : Str) (m : List (Str × Int))
    (ignore : Bool) (order : List Str) (server : List Category)
    (nextId : Nat) (out1 : UCOut)
    (hout1 : update_categories resource (.dict m) true ignore order server
      nextId = out1)
    (hsucc : out1.err = none)
    (hnp : (server.map fun r => r.path).Nodup)
    (hni : (server.map fun r => r.id).Nodup)
    (hbound : ∀ r ∈ server, r.id < nextId)
    (hkeys2 : ∀ p ∈ tkeysOf (Target.dict m), ∃ cs, p = '/' :: cs) :
    compute_to_delete resource (.dict m) ignore
      (sort_cat_rows out1.server) = .ok [] := by
  have hcov := uc_success_covered resource m ignore order server nextId out1
    hout1 hsucc hnp hni hbound hkeys2
  have hperm2 : (sort_cat_rows out1.server).Perm out1.server :=
    isort_perm _ _
  rw [compute_to_delete_dict]
  congr 1
  by_cases hcnd : ignore = true ∧ resource = str "account"
  · rw [if_pos hcnd, List.filter_eq_nil]
    intro p hp hroot
    rw [List.mem_filter] at hp
    obtain ⟨hpm, hpc⟩ := hp
    obtain ⟨row, hrowm, hrp⟩ := List.mem_map.mp hpm
    rcases hcov row (hperm2.mem_iff.mp hrowm) with hcv | hrt
    · rw [hrp] at hcv
      rw [hcv] at hpc
      exact absurd hpc (by simp)
    · rw [hrp] at hrt
      rw [hrt.2.2] at hroot
      exact absurd hroot (by simp)
  · rw [if_neg hcnd, List.filter_eq_nil]
    intro p hpmem hpc
    obtain ⟨row, hrowm, hrp⟩ := List.mem_map.mp hpmem
    rcases hcov row (hperm2.mem_iff.mp hrowm) with hcv | hrt
    · rw [hrp] at hcv
      rw [hcv] at hpc
      exact absurd hpc (by simp)
    · exact hcnd ⟨hrt.1, hrt.2.1⟩

/-- C7, amended.  The spec claims a successfully completed
`update_categories` run followed by an identical call over the produced
remote state issues zero create, zero delete and zero number-update calls;
the number-update part fails (`c7_counterexample`: an intermediate node is
created with the leaf's sequence number, which the repeated call then
renumbers).  What holds of the repeated call, for a first run with
duplicate-free paths and ids, a fresh id counter and absolute target keys,
is structural idempotence: it issues zero category-create and zero
category-delete remote calls, creates no node and deletes no id — every
remote call it issues is a number update. -/
theorem c7_repeat_no_create_delete (resource : Str) (target : Target)
    (deleteFlag ignore : Bool) (order : List Str) (server : List Category)
    (nextId : Nat) (out1 out2 : UCOut)
    (hout1 : update_categories resource target deleteFlag ignore order server
      nextId = out1)
    (hsucc : out1.err = none)
    (hnp : (server.map fun r => r.path).Nodup)
    (hni : (server.map fun r => r.id).Nodup)
    (hbound : ∀ r ∈ server, r.id < nextId)
    (hkeys : ∀ p ∈ tkeysOf target, p.take 1 = str "/")
    (hout2 : update_categories resource target deleteFlag ignore order
      out1.server out1.nextId = out2) :
    (∀ c ∈ out2.trace, isCreateCat c = false ∧ isDeleteCat c = false) ∧
    out2.created = [] ∧ out2.deletedIds = [] := by
  have hkeys2 : ∀ p ∈ tkeysOf target, ∃ cs, p = '/' :: cs := by
    intro p hp
    have h := hkeys p hp
    cases p with
    | nil => exact absurd h (by simp [str])
    | cons c cs =>
      have hc1 : [c] = str "/" := by simpa using h
      have hc : c = '/' := by
        have := hc1
        simp [str] at this
        exact this
      exact ⟨cs, by rw [hc]⟩
  have hF2 := (uc_success_server resource target deleteFlag ignore order
    server nextId out1 hout1 hsucc hnp hni hbound hkeys2).1
  have hperm2 : (sort_cat_rows out1.server).Perm out1.server :=
    isort_perm _ _
  have hmiss : missing_leaves target
      (dict_of_rows (sort_cat_rows out1.server)) order = [] := by
    rw [missing_leaves, List.filter_eq_nil]
    intro l hl hcon
    rw [Bool.and_eq_true, Bool.and_eq_true] at hcon
    obtain ⟨⟨hcont, hnd⟩, hns⟩ := hcon
    have hlk : l ∈ tkeysOf target := by simpa using hcont
    have hlne : ¬ l = str "/" := by simpa using hns
    obtain ⟨row, hrow, hrp⟩ := hF2 l hlk hl hlne
    have hdm : dmem (dict_of_rows (sort_cat_rows out1.server)) l = true :=
      (dmem_dict_of_rows _ l).mpr ⟨row, hperm2.mem_iff.mpr hrow, hrp⟩
    rw [hdm] at hnd
    exact absurd hnd (by simp)
  cases target with
  | dict m =>
    by_cases hacc : resource = str "account"
    · have hsh2 : ¬ ((resource = str "account" ∧
          is_dict (Target.dict m) = false) ∨
          (¬ resource = str "account" ∧ is_dict (Target.dict m) = true)) := by
        intro h
        rcases h with ⟨_, hf⟩ | ⟨hna, _⟩
        · exact absurd hf (by simp [is_dict])
        · exact hna hacc
      have hds2 : delete_stage resource (.dict m) deleteFlag ignore
          (sort_cat_rows out1.server)
          (dict_of_rows (sort_cat_rows out1.server)) out1.server =
          ([], [], .ok ([], dict_of_rows (sort_cat_rows out1.server),
            out1.server)) := by
        cases deleteFlag with
        | false => rw [delete_stage, if_neg Bool.false_ne_true]
        | true =>
          exact delete_stage_eq_empty resource (.dict m) ignore _ _ _
            (uc_repeat_compute_nil resource m ignore order server nextId out1
              hout1 hsucc hnp hni hbound hkeys2)
      rcases hrn2 : renumber_stage resource ignore (.dict m)
          (sort_cat_rows out1.server) out1.server []
        with ⟨server2, trace2, e2⟩
      have htr := renumber_stage_trace resource ignore (.dict m)
        (sort_cat_rows out1.server) out1.server []
      rw [hrn2] at htr
      obtain ⟨app, happ, happk⟩ := htr
      dsimp only at happ
      rw [List.nil_append] at happ
      cases e2 with
      | some e =>
        rw [uc_renumber_error resource (.dict m) deleteFlag ignore order
          out1.server out1.nextId [] [] trace2 []
          (dict_of_rows (sort_cat_rows out1.server)) out1.server server2 e
          hsh2 hds2 hrn2] at hout2
        rw [← hout2]
        dsimp only
        refine ⟨?_, rfl, rfl⟩
        intro c hc
        rw [happ] at hc
        exact updnum_kinds c (happk c hc)
      | none =>
        have hcl2 : create_loop resource (.dict m)
            (missing_leaves (.dict m)
              (dict_of_rows (sort_cat_rows out1.server)) order)
            { server := server2,
              cats := dict_of_rows (sort_cat_rows out1.server),
              trace := trace2, created := [], nextId := out1.nextId } =
            ({ server := server2,
               cats := dict_of_rows (sort_cat_rows out1.server),
               trace := trace2, created := [], nextId := out1.nextId },
             none) := by
          rw [hmiss, create_loop]
        rw [uc_create_result resource (.dict m) deleteFlag ignore order
          out1.server out1.nextId [] [] trace2 []
          (dict_of_rows (sort_cat_rows out1.server)) out1.server server2 _
          none hsh2 hds2 hrn2 hcl2] at hout2
        rw [← hout2]
        dsimp only
        refine ⟨?_, rfl, rfl⟩
        intro c hc
        rw [happ] at hc
        exact updnum_kinds c (happk c hc)
    · exfalso
      have hrec : update_categories resource (.dict m) deleteFlag ignore
          order server nextId =
          { err := some .typeMismatch, trace := [], server := server,
            toDelete := [], deletedIds := [], catsAfterDelete := [],
            created := [], cats := [], nextId := nextId } := by
        unfold update_categories
        rw [if_pos (Or.inr ⟨hacc, rfl⟩)]
      rw [hrec] at hout1
      rw [← hout1] at hsucc
      exact absurd hsucc (by simp)
  | list lst =>
    by_cases hacc : resource = str "account"
    · exfalso
      have hrec : update_categories resource (.list lst) deleteFlag ignore
          order server nextId =
          { err := some .typeMismatch, trace := [], server := server,
            toDelete := [], deletedIds := [], catsAfterDelete := [],
            created := [], cats := [], nextId := nextId } := by
        unfold update_categories
        rw [if_pos (Or.inl ⟨hacc, rfl⟩)]
      rw [hrec] at hout1
      rw [← hout1] at hsucc
      exact absurd hsucc (by simp)
    · have hsh2 : ¬ ((resource = str "account" ∧
          is_dict (Target.list lst) = false) ∨
          (¬ resource = str "account" ∧
            is_dict (Target.list lst) = true)) := by
        intro h
        rcases h with ⟨ha, _⟩ | ⟨_, hd⟩
        · exact hacc ha
        · exact absurd hd (by simp [is_dict])
      have hrn2 : renumber_stage resource ignore (.list lst)
          (sort_cat_rows out1.server) out1.server [] =
          (out1.server, [], none) := by
        rw [renumber_stage, if_neg hacc]
      have hfin : ∀ hds2 : delete_stage resource (.list lst) deleteFlag
          ignore (sort_cat_rows out1.server)
          (dict_of_rows (sort_cat_rows out1.server)) out1.server =
          ([], [], .ok ([], dict_of_rows (sort_cat_rows out1.server),
            out1.server)),
          (∀ c ∈ out2.trace, isCreateCat c = false ∧ isDeleteCat c = false) ∧
          out2.created = [] ∧ out2.deletedIds = [] := by
        intro hds2
        have hcl2 : create_loop resource (.list lst)
            (missing_leaves (.list lst)
              (dict_of_rows (sort_cat_rows out1.server)) order)
            { server := out1.server,
              cats := dict_of_rows (sort_cat_rows out1.server),
              trace := [], created := [], nextId := out1.nextId } =
            ({ server := out1.server,
               cats := dict_of_rows (sort_cat_rows out1.server),
               trace := [], created := [], nextId := out1.nextId },
             none) := by
          rw [hmiss, create_loop]
        rw [uc_create_result resource (.list lst) deleteFlag ignore order
          out1.server out1.nextId [] [] [] []
          (dict_of_rows (sort_cat_rows out1.server)) out1.server
          out1.server _ none hsh2 hds2 hrn2 hcl2] at hout2
        rw [← hout2]
        dsimp only
        exact ⟨fun c hc => absurd hc (List.not_mem_nil c), rfl, rfl⟩
      cases deleteFlag with
      | false => exact hfin (by rw [delete_stage, if_neg Bool.false_ne_true])
      | true =>
        cases hemp : (sort_cat_rows out1.server).isEmpty with
        | true =>
          refine hfin (delete_stage_eq_empty resource (.list lst) ignore _ _
            _ ?_)
          rw [compute_to_delete, if_pos hemp]
        | false =>
          have hcomp : compute_to_delete resource (.list lst) ignore
              (sort_cat_rows out1.server) = .error .attrError := by
            rw [compute_to_delete, if_neg]
            rw [hemp]
            exact Bool.false_ne_true
          have hds2e : delete_stage resource (.list lst) true ignore
              (sort_cat_rows out1.server)
              (dict_of_rows (sort_cat_rows out1.server)) out1.server =
              ([], [], .error .attrError) := by
            rw [delete_stage]
            simp only [if_true]
            rw [hcomp]
          rw [uc_delete_error resource (.list lst) true ignore order
            out1.server out1.nextId [] [] .attrError hsh2 hds2e] at hout2
          rw [← hout2]
          dsimp only
          exact ⟨fun c hc => absurd hc (List.not_mem_nil c), rfl, rfl⟩

/-- C7, counterexample to the zero-number-update part of the claim: with the
single root `/A` and the target `{"/A/B": 1, "/A/B/C": 2}` whose deeper key
is enumerated first, the first `update_categories` run completes
successfully, yet the immediately repeated call with the same arguments over
the produced remote state issues a number-update remote call (the first run
created the intermediate node `/A/B` with the leaf's number `2`, which the
second run renumbers to the target's `1`). -/
theorem c7_counterexample :
    c7out1.err = none ∧ c7out2.trace.any isUpdateNum = true := by decide

/-- The amended C7 theorem replayed on the `c7server` scenario: its
hypotheses hold there, the repeated run's one trace entry is neither a
create nor a delete, and it creates no node and deletes no id. -/
theorem c7_repeat_no_create_delete_witness :
    c7out1.err = none ∧
    (isCreateCat (ApiCall.updateCategoryNumber 10 (str "B") 1 (some 1)) =
        false ∧
      isDeleteCat (ApiCall.updateCategoryNumber 10 (str "B") 1 (some 1)) =
        false) ∧
    c7out2.created = [] ∧ c7out2.deletedIds = [] :=
  ⟨by decide,
   (c7_repeat_no_create_delete (str "account") c7target true false c7order
       c7server 10 c7out1 c7out2 rfl (by decide) (by decide) (by decide)
       (by decide) (by decide) rfl).1
     (.updateCategoryNumber 10 (str "B") 1 (some 1)) (by decide),
   (c7_repeat_no_create_delete (str "account") c7target true false c7order
       c7server 10 c7out1 c7out2 rfl (by decide) (by decide) (by decide)
       (by decide) (by decide) rfl).2⟩

end CashCtrl
